import Mathlib

/-! # SuperTransHack: the global coherence module and the transaction context

A shallow embedding of `libtrans/transCoherence.cpp` and of the constructor,
the begin/commit/abort paths and `cacheReadBuffer` of
`libtrans/transContext.cpp`.

Conventions of the embedding.

* `std::set<int>` is a list of process ids held in strictly increasing order
  (`setInsert` keeps the order, so `begin()` is the head of the list).
* `std::map<RAddr, cacheState>` is an association list held in strictly
  increasing key order (`mapSet` keeps the order, so the `for` loops over
  `permCache` visit the list from left to right).
* The arrays indexed by process id (`transState[]`, `tmDepth[]`, ...) are total
  functions on `Nat`.
* `globalClock` is a variable of the host simulator: every operation that reads
  it receives its current value as an argument.
* A field of `GCMFinalRet` that a path does not assign is `none`.
* The calls into `tmReport` only feed the telemetry sink and never change the
  state of the module; they are left out.
* The backoff stall of `beginTransaction` is computed in `int`: a power or a
  product outside the range of `int` yields the argument `outOfRange`.
-/

set_option linter.unusedVariables false

namespace SuperTransHack

/-! ## Data model -/

/-- Result codes of the coherence module. -/
inductive GCMRet where
  | SUCCESS | NACK | ABORT | IGNORE | BACKOFF | COMMIT_DELAY
  deriving DecidableEq, Repr

/-- Lifecycle state of the transaction of one process. -/
inductive condition where
  | INVALID | RUNNING | NACKED | COMMITTING | COMMITTED | DOABORT | ABORTING | ABORTED
  deriving DecidableEq, Repr

/-- Coarse marker of a cache line entry. -/
inductive perState where
  | I | R | W
  deriving DecidableEq, Repr

/-- Value of `permCache` for one cache line (`struct cacheState`). -/
structure cacheState where
  state : perState
  readers : List Nat
  writers : List Nat
  deriving DecidableEq, Repr

/-- One element of `transState[]`. -/
structure tmState where
  timestamp : Nat
  cycleFlag : Bool
  state : condition
  beginPC : Nat
  utid : Nat
  deriving DecidableEq, Repr

/-- Return record of begin, commit and abort (`struct GCMFinalRet`). -/
structure GCMFinalRet where
  ret : GCMRet
  BCFlag : Option Int := none
  tuid : Option Nat := none
  abortCount : Option Int := none
  writeSetSize : Option Int := none
  deriving DecidableEq, Repr

/-- The instruction record (`struct icode`), as far as the transactional code
reads its fields. -/
structure icode where
  addr : Nat
  immed : Int
  deriving DecidableEq, Repr

/-- A value of type `icode_ptr` as the transactional code produces them: `NULL`,
the address of an instruction, or the `next` field of an instruction. -/
inductive icodePtr where
  | null
  | to (picode : icode)
  | nextOf (picode : icode)
  deriving DecidableEq, Repr

/-- Which set of methods the constructor stored in `readPtr`, `writePtr`,
`beginPtr`, `commitPtr` and `abortPtr`. -/
inductive Policy where
  | EE | LL
  deriving DecidableEq, Repr

/-- The fields of `class transCoherence`. -/
structure transCoherence where
  conflictDetection : Int
  versioning : Int
  cacheLineSize : Nat
  methods : Policy
  utid : Nat
  permCache : List (Nat × cacheState)
  transState : Nat → tmState
  stallCycle : Nat → Int
  abortCount : Nat → Int
  abortReason : Nat → Nat × Nat
  tmDepth : Nat → Int
  currentCommitter : Int
  cyclesOnBegin : Nat → Nat
  cyclesOnAbort : Nat → Nat
  cyclesOnCommit : Nat → Nat

/-- The value `((~0ULL) - 1024)` given to the timestamp outside a transaction. -/
def noTimestamp : Nat := 2 ^ 64 - 1 - 1024

/-! ## Sets of process ids and the line table -/

/-- The method `std::set<int>::insert`. -/
def setInsert (p : Nat) : List Nat → List Nat
  | [] => [p]
  | q :: qs =>
    if p < q then p :: q :: qs
    else if p = q then q :: qs
    else q :: setInsert p qs

/-- The set left by `std::set<int>::erase(p)`. -/
def setErase (p : Nat) (s : List Nat) : List Nat :=
  s.filter (fun q => decide (q ≠ p))

/-- The lookup `permCache.find(caddr)`, `none` standing for `permCache.end()`. -/
def mapFind (k : Nat) : List (Nat × cacheState) → Option cacheState
  | [] => none
  | (k0, v0) :: rest => if k = k0 then some v0 else mapFind k rest

/-- The assignment `permCache[caddr] = per`. -/
def mapSet (k : Nat) (v : cacheState) : List (Nat × cacheState) → List (Nat × cacheState)
  | [] => [(k, v)]
  | (k0, v0) :: rest =>
    if k < k0 then (k, v) :: (k0, v0) :: rest
    else if k = k0 then (k, v) :: rest
    else (k0, v0) :: mapSet k v rest

/-- Modelled from the spec: `addrToCacheLine` is declared in `transCoherence.h`,
which is not among the sources; the spec gives
`addrToCacheLine(addr) = addr & ~(cacheLineSize-1)`, here on 64-bit addresses. -/
def addrToCacheLine (s : transCoherence) (raddr : Nat) : Nat :=
  raddr &&& (2 ^ 64 - s.cacheLineSize)

/-- Create new cache state reference with Read bit set. -/
def newReadState (pid : Nat) : cacheState :=
  { state := perState.R, readers := setInsert pid [], writers := [] }

/-- Create new cache state reference with Write bit set. -/
def newWriteState (pid : Nat) : cacheState :=
  { state := perState.W, readers := [], writers := setInsert pid [] }

/-- Assignment to `transState[pid].state`. -/
def setState (s : transCoherence) (pid : Nat) (c : condition) : transCoherence :=
  { s with transState := Function.update s.transState pid { s.transState pid with state := c } }

/-- Assignment `transState[pid].cycleFlag = 1`. -/
def raiseCycleFlag (s : transCoherence) (pid : Nat) : transCoherence :=
  { s with transState := Function.update s.transState pid { s.transState pid with cycleFlag := true } }

/-! ## The constructor and `checkAbort` -/

/-- The constructor `transCoherence(out, conflicts, versioning, cacheLineSize)`,
run over the storage `raw` of the object; `none` is the `exit(0)` of the
unsupported combination. Fields the constructor does not assign keep the value
they have in `raw`. -/
def construct (raw : transCoherence) (conflicts versioning : Int) (cacheLineSize : Nat) :
    Option transCoherence :=
  let methods : Option Policy :=
    if versioning ≠ 0 ∧ conflicts ≠ 0 then some Policy.EE
    else if versioning = 0 ∧ conflicts ≠ 0 then some Policy.EE
    else if versioning = 0 ∧ conflicts = 0 then some Policy.LL
    else none
  match methods with
  | none => none
  | some m =>
    some
      { conflictDetection := conflicts
        versioning := versioning
        cacheLineSize := cacheLineSize
        methods := m
        utid := 0
        permCache := []
        transState := fun i =>
          { timestamp := noTimestamp, cycleFlag := false, state := condition.INVALID,
            beginPC := 0, utid := (raw.transState i).utid }
        stallCycle := fun _ => 0
        abortCount := fun _ => 0
        abortReason := fun _ => (0, 0)
        tmDepth := fun _ => 0
        currentCommitter := -1
        cyclesOnBegin := raw.cyclesOnBegin
        cyclesOnAbort := raw.cyclesOnAbort
        cyclesOnCommit := raw.cyclesOnCommit }

/-- Check to see if thread has been ordered to abort. -/
def checkAbort (s : transCoherence) (pid : Nat) (tid : Int) : Bool × transCoherence :=
  if (s.transState pid).state = condition.DOABORT then
    (true, setState s pid condition.ABORTING)
  else
    (false, s)

/-! ## Eager / eager methods -/

/-- The tail shared by the conflict branches of `readEE` and `writeEE`, entered
with the offender `nackPid`: abort if the offender is not younger and our cycle
flag is raised, otherwise raise the offender's flag if it is not older, and
NACK. -/
def nackOrAbort (s : transCoherence) (pid nackPid : Nat) : GCMRet × transCoherence :=
  let nackTimestamp := (s.transState nackPid).timestamp
  let myTimestamp := (s.transState pid).timestamp
  if nackTimestamp ≤ myTimestamp ∧ (s.transState pid).cycleFlag = true then
    (GCMRet.ABORT, setState s pid condition.ABORTING)
  else
    let s1 := if nackTimestamp ≥ myTimestamp then raiseCycleFlag s nackPid else s
    (GCMRet.NACK, setState s1 pid condition.NACKED)

/-- The first element of the set that is not `pid`: `*it` for `it = begin()`,
advanced once when it points at `pid`. Both callers enter with a set that has
an element other than `pid`, so the element read exists. -/
def firstOther (pid : Nat) (set : List Nat) : Nat :=
  let nackPid := set.headD 0
  if nackPid = pid then set.tail.headD 0 else nackPid

/-- Eager eager read. -/
def readEE (s : transCoherence) (pid : Nat) (tid : Int) (raddr : Nat) : GCMRet × transCoherence :=
  let caddr := addrToCacheLine s raddr
  match mapFind caddr s.permCache with
  | some per =>
    if per.writers.length ≥ 1 ∧ per.writers.count pid ≠ 1 then
      nackOrAbort s pid (per.writers.headD 0)
    else
      let per1 := { per with readers := setInsert pid per.readers }
      (GCMRet.SUCCESS, setState { s with permCache := mapSet caddr per1 s.permCache } pid condition.RUNNING)
  | none =>
    (GCMRet.SUCCESS,
      setState { s with permCache := mapSet caddr (newReadState pid) s.permCache } pid condition.RUNNING)

/-- Eager eager write. -/
def writeEE (s : transCoherence) (pid : Nat) (tid : Int) (raddr : Nat) : GCMRet × transCoherence :=
  let caddr := addrToCacheLine s raddr
  match mapFind caddr s.permCache with
  | some per =>
    if per.readers.length > 1 ∨ (per.readers.length = 1 ∧ per.readers.count pid ≠ 1) then
      nackOrAbort s pid (firstOther pid per.readers)
    else if per.writers.length > 1 ∨ (per.writers.length = 1 ∧ per.writers.count pid ≠ 1) then
      nackOrAbort s pid (firstOther pid per.writers)
    else
      let per1 := { per with writers := setInsert pid per.writers }
      (GCMRet.SUCCESS, setState { s with permCache := mapSet caddr per1 s.permCache } pid condition.RUNNING)
  | none =>
    (GCMRet.SUCCESS,
      setState { s with permCache := mapSet caddr (newWriteState pid) s.permCache } pid condition.RUNNING)

/-- The loop of `beginEE` over `permCache` that erases `pid` from the writers and
the readers of every line. -/
def eraseEverywhere (pid : Nat) (m : List (Nat × cacheState)) : List (Nat × cacheState) :=
  m.map (fun e => (e.1, { e.2 with writers := setErase pid e.2.writers, readers := setErase pid e.2.readers }))

/-- The loops `writeSetSize += it->second.writers.count(pid)`. -/
def countWrites (pid : Nat) (m : List (Nat × cacheState)) : Int :=
  m.foldl (fun acc e => acc + (e.2.writers.count pid : Int)) 0

/-- Eager eager begin. -/
def beginEE (s : transCoherence) (pid : Nat) (picode : icode) (globalClock : Nat) :
    GCMFinalRet × transCoherence :=
  if s.tmDepth pid > 0 then
    ({ ret := GCMRet.IGNORE, BCFlag := some 2, tuid := some (s.transState pid).utid },
      { s with tmDepth := Function.update s.tmDepth pid (s.tmDepth pid + 1) })
  else
    let s1 :=
      if (s.transState pid).state = condition.ABORTING then
        let s0 := setState { s with permCache := eraseEverywhere pid s.permCache } pid condition.ABORTED
        { s0 with abortCount := Function.update s0.abortCount pid (s0.abortCount pid + 1) }
      else s
    if (s1.transState pid).state = condition.ABORTED then
      let s2 := setState s1 pid condition.RUNNING
      ({ ret := GCMRet.BACKOFF, abortCount := some (s1.abortCount pid) },
        { s2 with cyclesOnBegin := Function.update s2.cyclesOnBegin pid globalClock })
    else
      let bc : Int := if s1.abortCount pid > 0 then 1 else 0
      let me : tmState :=
        { timestamp := globalClock, beginPC := picode.addr, cycleFlag := false,
          state := condition.RUNNING, utid := s1.utid }
      let s2 : transCoherence :=
        { s1 with
          transState := Function.update s1.transState pid me
          utid := s1.utid + 1
          tmDepth := Function.update s1.tmDepth pid (s1.tmDepth pid + 1) }
      ({ ret := GCMRet.SUCCESS, BCFlag := some bc, tuid := some me.utid },
        { s2 with cyclesOnBegin := Function.update s2.cyclesOnBegin pid globalClock })

/-- The resets common to abort and to the final commit: timestamp, begin PC,
stall cycle, cycle flag. -/
def resetTrans (s : transCoherence) (pid : Nat) : transCoherence :=
  { s with
    transState := Function.update s.transState pid
      { s.transState pid with timestamp := noTimestamp, beginPC := 0, cycleFlag := false }
    stallCycle := Function.update s.stallCycle pid 0 }

/-- The update `cycles[pid] += globalClock - cyclesOnBegin[pid]` on 64-bit
unsigned counters. -/
def addCycles (cycles : Nat → Nat) (pid globalClock begun : Nat) : Nat → Nat :=
  Function.update cycles pid ((cycles pid + (globalClock + 2 ^ 64 - begun % 2 ^ 64)) % 2 ^ 64)

/-- Eager eager abort; `pid` is `pthread->getPid()`. -/
def abortEE (s : transCoherence) (pid : Nat) (tid : Int) (globalClock : Nat) :
    GCMFinalRet × transCoherence :=
  let s1 := resetTrans s pid
  let s2 := { s1 with tmDepth := Function.update s1.tmDepth pid 0 }
  let writeSetSize := countWrites pid s2.permCache
  let s3 := setState s2 pid condition.ABORTING
  ({ ret := GCMRet.SUCCESS, writeSetSize := some writeSetSize },
    { s3 with cyclesOnAbort := addCycles s3.cyclesOnAbort pid globalClock (s3.cyclesOnBegin pid) })

/-- The loop of the final `commitEE`: erase `pid` from both sets of every line,
adding up what `writers.erase(pid)` returns. -/
def commitEraseEE (pid : Nat) (m : List (Nat × cacheState)) : Int × List (Nat × cacheState) :=
  (m.foldl (fun acc e => acc + (e.2.writers.count pid : Int)) 0, eraseEverywhere pid m)

/-- Eager eager commit. -/
def commitEE (s : transCoherence) (pid : Nat) (tid : Int) (globalClock : Nat) :
    GCMFinalRet × transCoherence :=
  if s.tmDepth pid > 1 then
    ({ ret := GCMRet.IGNORE, BCFlag := some 2, tuid := some (s.transState pid).utid },
      { s with tmDepth := Function.update s.tmDepth pid (s.tmDepth pid - 1) })
  else if (s.transState pid).state = condition.COMMITTING then
    let s1 := resetTrans s pid
    let s2 : transCoherence :=
      { s1 with
        abortCount := Function.update s1.abortCount pid 0
        tmDepth := Function.update s1.tmDepth pid 0 }
    let r := commitEraseEE pid s2.permCache
    let s3 := setState { s2 with permCache := r.2 } pid condition.COMMITTED
    ({ ret := GCMRet.SUCCESS, BCFlag := some 0, writeSetSize := some r.1,
       tuid := some (s3.transState pid).utid },
      { s3 with cyclesOnCommit := addCycles s3.cyclesOnCommit pid globalClock (s3.cyclesOnBegin pid) })
  else
    let writeSetSize := countWrites pid s.permCache
    let s1 := setState s pid condition.COMMITTING
    ({ ret := GCMRet.COMMIT_DELAY, BCFlag := some 0, writeSetSize := some writeSetSize,
       tuid := some (s1.transState pid).utid }, s1)

/-! ## Lazy / lazy methods -/

/-- Lazy lazy read. -/
def readLL (s : transCoherence) (pid : Nat) (tid : Int) (raddr : Nat) : GCMRet × transCoherence :=
  let caddr := addrToCacheLine s raddr
  if (s.transState pid).state = condition.DOABORT then
    (GCMRet.ABORT, setState s pid condition.ABORTING)
  else
    match mapFind caddr s.permCache with
    | some per =>
      let per1 := { per with readers := setInsert pid per.readers }
      (GCMRet.SUCCESS, setState { s with permCache := mapSet caddr per1 s.permCache } pid condition.RUNNING)
    | none =>
      (GCMRet.SUCCESS,
        setState { s with permCache := mapSet caddr (newReadState pid) s.permCache } pid condition.RUNNING)

/-- Lazy lazy write. -/
def writeLL (s : transCoherence) (pid : Nat) (tid : Int) (raddr : Nat) : GCMRet × transCoherence :=
  let caddr := addrToCacheLine s raddr
  if (s.transState pid).state = condition.DOABORT then
    (GCMRet.ABORT, setState s pid condition.ABORTING)
  else
    match mapFind caddr s.permCache with
    | some per =>
      let per1 := { per with writers := setInsert pid per.writers }
      (GCMRet.SUCCESS, setState { s with permCache := mapSet caddr per1 s.permCache } pid condition.RUNNING)
    | none =>
      (GCMRet.SUCCESS,
        setState { s with permCache := mapSet caddr (newWriteState pid) s.permCache } pid condition.RUNNING)

/-- Lazy lazy begin. -/
def beginLL (s : transCoherence) (pid : Nat) (picode : icode) (globalClock : Nat) :
    GCMFinalRet × transCoherence :=
  if s.tmDepth pid > 0 then
    ({ ret := GCMRet.IGNORE, BCFlag := some 2, tuid := some (s.transState pid).utid },
      { s with tmDepth := Function.update s.tmDepth pid (s.tmDepth pid + 1) })
  else
    let s1 :=
      if (s.transState pid).state = condition.ABORTING then
        let s0 := setState s pid condition.ABORTED
        { s0 with abortCount := Function.update s0.abortCount pid (s0.abortCount pid + 1) }
      else s
    let bc : Int := if s1.abortCount pid > 0 then 1 else 0
    let me : tmState :=
      { timestamp := globalClock, beginPC := picode.addr, cycleFlag := false,
        state := condition.RUNNING, utid := s1.utid }
    let s2 : transCoherence :=
      { s1 with
        transState := Function.update s1.transState pid me
        utid := s1.utid + 1
        tmDepth := Function.update s1.tmDepth pid (s1.tmDepth pid + 1) }
    ({ ret := GCMRet.SUCCESS, BCFlag := some bc, tuid := some me.utid },
      { s2 with cyclesOnBegin := Function.update s2.cyclesOnBegin pid globalClock })

/-- Lazy lazy abort; `pid` is `pthread->getPid()`. -/
def abortLL (s : transCoherence) (pid : Nat) (tid : Int) (globalClock : Nat) :
    GCMFinalRet × transCoherence :=
  let s1 := resetTrans s pid
  let s2 := { s1 with tmDepth := Function.update s1.tmDepth pid 0 }
  let s3 := setState s2 pid condition.ABORTING
  ({ ret := GCMRet.SUCCESS, writeSetSize := some 0 },
    { s3 with cyclesOnAbort := addCycles s3.cyclesOnAbort pid globalClock (s3.cyclesOnBegin pid) })

/-- The body of the two inner loops of the final `commitLL`: a member `q` of the
line `line` other than `pid` is ordered to abort. -/
def forceAbort (pid line : Nat) (s : transCoherence) (q : Nat) : transCoherence :=
  if q ≠ pid then
    { s with
      transState := Function.update s.transState q { s.transState q with state := condition.DOABORT }
      abortReason := Function.update s.abortReason q (pid, line) }
  else s

/-- The loop of the final `commitLL` over `permCache`. The accumulator holds
`writeSetSize` and the module (whose `transState` and `abortReason` the loop
writes); the result also holds the lines as the loop leaves them. -/
def commitLoopLL (pid : Nat) :
    List (Nat × cacheState) → Int × transCoherence → (Int × transCoherence) × List (Nat × cacheState)
  | [], acc => (acc, [])
  | e :: rest, acc =>
    let didWrite := e.2.writers.count pid
    let writers1 := setErase pid e.2.writers
    if didWrite ≠ 0 then
      let s1 := writers1.foldl (forceAbort pid e.1) acc.2
      let s2 := e.2.readers.foldl (forceAbort pid e.1) s1
      let r := commitLoopLL pid rest (acc.1 + 1, s2)
      (r.1, (e.1, { e.2 with writers := [], readers := [] }) :: r.2)
    else
      let r := commitLoopLL pid rest acc
      (r.1, (e.1, { e.2 with writers := writers1, readers := setErase pid e.2.readers }) :: r.2)

/-- Lazy lazy commit. -/
def commitLL (s : transCoherence) (pid : Nat) (tid : Int) (globalClock : Nat) :
    GCMFinalRet × transCoherence :=
  if (s.transState pid).state = condition.DOABORT then
    ({ ret := GCMRet.ABORT, BCFlag := some 0 }, setState s pid condition.ABORTING)
  else if s.tmDepth pid > 1 then
    ({ ret := GCMRet.IGNORE, BCFlag := some 2, tuid := some (s.transState pid).utid },
      { s with tmDepth := Function.update s.tmDepth pid (s.tmDepth pid - 1) })
  else if (s.transState pid).state = condition.COMMITTING then
    let s1 := resetTrans s pid
    let s2 : transCoherence :=
      { s1 with
        abortCount := Function.update s1.abortCount pid 0
        tmDepth := Function.update s1.tmDepth pid 0 }
    let r := commitLoopLL pid s2.permCache (0, s2)
    let s3 : transCoherence := { r.1.2 with permCache := r.2, currentCommitter := -1 }
    let s4 := setState s3 pid condition.COMMITTED
    ({ ret := GCMRet.SUCCESS, BCFlag := some 0, writeSetSize := some r.1.1,
       tuid := some (s4.transState pid).utid },
      { s4 with cyclesOnCommit := addCycles s4.cyclesOnCommit pid globalClock (s4.cyclesOnBegin pid) })
  else if s.currentCommitter ≥ 0 then
    ({ ret := GCMRet.NACK, BCFlag := some 0 }, setState s pid condition.NACKED)
  else
    let s1 : transCoherence := { s with currentCommitter := (pid : Int) }
    let writeSetSize := countWrites pid s1.permCache
    let s2 := setState s1 pid condition.COMMITTING
    ({ ret := GCMRet.COMMIT_DELAY, BCFlag := some 0, writeSetSize := some writeSetSize,
       tuid := some (s2.transState pid).utid }, s2)

/-! ## The public operations

`read`, `write`, `begin`, `commit` and `abort` are declared in
`transCoherence.h`; each calls the method the constructor stored in the
matching pointer. -/

/-- The call `(this->*readPtr)(pid, tid, raddr)`. -/
def read (s : transCoherence) (pid : Nat) (tid : Int) (raddr : Nat) : GCMRet × transCoherence :=
  match s.methods with
  | Policy.EE => readEE s pid tid raddr
  | Policy.LL => readLL s pid tid raddr

/-- The call `(this->*writePtr)(pid, tid, raddr)`. -/
def write (s : transCoherence) (pid : Nat) (tid : Int) (raddr : Nat) : GCMRet × transCoherence :=
  match s.methods with
  | Policy.EE => writeEE s pid tid raddr
  | Policy.LL => writeLL s pid tid raddr

/-- The call `(this->*beginPtr)(pid, picode)`. -/
def begin (s : transCoherence) (pid : Nat) (picode : icode) (globalClock : Nat) :
    GCMFinalRet × transCoherence :=
  match s.methods with
  | Policy.EE => beginEE s pid picode globalClock
  | Policy.LL => beginLL s pid picode globalClock

/-- The call `(this->*commitPtr)(pid, tid)`. -/
def commit (s : transCoherence) (pid : Nat) (tid : Int) (globalClock : Nat) :
    GCMFinalRet × transCoherence :=
  match s.methods with
  | Policy.EE => commitEE s pid tid globalClock
  | Policy.LL => commitLL s pid tid globalClock

/-- The call `(this->*abortPtr)(pthread, tid)`, with `pid = pthread->getPid()`. -/
def abort (s : transCoherence) (pid : Nat) (tid : Int) (globalClock : Nat) :
    GCMFinalRet × transCoherence :=
  match s.methods with
  | Policy.EE => abortEE s pid tid globalClock
  | Policy.LL => abortLL s pid tid globalClock

/-- Modelled from the spec: `stallUntil(pid, cycles)` is declared in
`transCoherence.h`, which is not among the sources; the spec has the caller
install a stall duration for `pid` through it. -/
def stallUntil (s : transCoherence) (pid : Nat) (cycles : Int) : transCoherence :=
  { s with stallCycle := Function.update s.stallCycle pid cycles }

/-- One call into the module by the host simulator. -/
inductive Op where
  | read (pid : Nat) (tid : Int) (raddr : Nat)
  | write (pid : Nat) (tid : Int) (raddr : Nat)
  | begin (pid : Nat) (picode : icode) (globalClock : Nat)
  | commit (pid : Nat) (tid : Int) (globalClock : Nat)
  | abort (pid : Nat) (tid : Int) (globalClock : Nat)
  | checkAbort (pid : Nat) (tid : Int)
  | stallUntil (pid : Nat) (cycles : Int)
  deriving DecidableEq, Repr

/-- The module after one call. -/
def step (s : transCoherence) : Op → transCoherence
  | Op.read pid tid raddr => (read s pid tid raddr).2
  | Op.write pid tid raddr => (write s pid tid raddr).2
  | Op.begin pid picode globalClock => (begin s pid picode globalClock).2
  | Op.commit pid tid globalClock => (commit s pid tid globalClock).2
  | Op.abort pid tid globalClock => (abort s pid tid globalClock).2
  | Op.checkAbort pid tid => (checkAbort s pid tid).2
  | Op.stallUntil pid cycles => stallUntil s pid cycles

/-- The module after a sequence of calls, the first call first. -/
def run (s : transCoherence) (ops : List Op) : transCoherence :=
  ops.foldl step s

/-- The storage of a module object before its constructor runs, all zero. -/
def rawZero : transCoherence :=
  { conflictDetection := 0, versioning := 0, cacheLineSize := 0, methods := Policy.EE, utid := 0,
    permCache := [],
    transState := fun _ =>
      { timestamp := 0, cycleFlag := false, state := condition.INVALID, beginPC := 0, utid := 0 },
    stallCycle := fun _ => 0, abortCount := fun _ => 0, abortReason := fun _ => (0, 0),
    tmDepth := fun _ => 0, currentCommitter := 0,
    cyclesOnBegin := fun _ => 0, cyclesOnAbort := fun _ => 0, cyclesOnCommit := fun _ => 0 }

/-- The eager module `transCoherence(out, 1, 1, 64)` built over zeroed storage. -/
def eagerInit : transCoherence :=
  (construct rawZero 1 1 64).getD rawZero

/-- The lazy module `transCoherence(out, 0, 0, 64)` built over zeroed storage. -/
def lazyInit : transCoherence :=
  (construct rawZero 0 0 64).getD rawZero

/-! ## The transaction context (`transContext.cpp`) -/

/-- A floating-point register: the bit pattern it was loaded with, or the value
an integer register converts to when it is assigned to the register. -/
inductive fpValue where
  | raw (bits : Nat)
  | ofInt (v : Int)
  deriving DecidableEq, Repr

/-- The fields of the host thread (`class ThreadContext`) that the transaction
context reads and writes. `pcIcode` is the pointer last given to
`setPCIcode`; `transContext` is the address of the active context; `tmBCFlag`
is `none` when it was assigned a field that the module had left unassigned. -/
structure ThreadContext where
  pid : Nat
  reg : Nat → Int
  fp : Nat → fpValue
  lo : Int
  hi : Int
  fcr0 : Int
  fcr31 : Int
  tmBCFlag : Option Int
  tmTid : Int
  tmAborting : Int
  tmNacking : Int
  tmDebug : Int
  abortCount : Int
  tmDepth : Int
  transContext : Option Nat
  pcIcode : icodePtr

/-- The fields of `class transactionContext`; `self` is the address of the
object, `memMap` the map of its speculative cache in key order. -/
structure transactionContext where
  self : Nat
  pid : Nat
  tid : Int
  tmBeginCode : icode
  reg : Nat → Int
  fp : Nat → fpValue
  lo : Int
  hi : Int
  fcr0 : Int
  fcr31 : Int
  depth : Int
  parent : Option Nat
  nackInstruction : icodePtr
  nackStallCycles : Int
  abortBaseStallCycles : Int
  abortVarStallCycles : Int
  commitBaseStallCycles : Int
  commitVarStallCycles : Int
  abortExpBackoff : Int
  abortLinBackoff : Int
  applyRandomization : Int
  memMap : List (Nat × Int)

/-- What a context operation works on: the global module `transGCM`, the host
thread and the real memory, one byte per address. -/
structure World where
  transGCM : transCoherence
  thread : ThreadContext
  memory : Nat → Nat

/-- The conversion of an `IntRegValue` to `unsigned int`. -/
def asUnsigned (v : Int) : Nat := (v % 2 ^ 32).toNat

/-- The store `*(unsigned int*) addr = value` on a little-endian host. -/
def storeWord32 (memory : Nat → Nat) (addr : Nat) (value : Int) : Nat → Nat :=
  fun b => if addr ≤ b ∧ b < addr + 4 then asUnsigned value / 256 ^ (b - addr) % 256 else memory b

/-- The load `*(unsigned int*) addr` on a little-endian host. -/
def loadWord32 (memory : Nat → Nat) (addr : Nat) : Nat :=
  memory addr + 256 * memory (addr + 1) + 65536 * memory (addr + 2) + 16777216 * memory (addr + 3)

/-- Modelled from the spec: `getRndDelay` is not among the sources; the spec has
it return `n` if `applyRandomization == 0` and a random draw from a window
around `n` otherwise. The draw is the argument `draw`. -/
def getRndDelay (ctx : transactionContext) (n draw : Int) : Int :=
  if ctx.applyRandomization = 0 then n else draw

/-- Stalls a thread for a given period. -/
def createStall (w : World) (stallLength : Int) : World :=
  { w with transGCM := stallUntil w.transGCM w.thread.pid stallLength }

/-- Stalls the GCM for a given period and keeps a copy of the instruction in
`nackInstruction`, to run it again after the stall; the copy has the fields
of `picode`. -/
def stallInstruction (ctx : transactionContext) (w : World) (picode : icode) (stallLength : Int) :
    World × transactionContext :=
  (createStall w stallLength, { ctx with nackInstruction := icodePtr.to picode })

/-- Aborts a transaction. The second component is the context afterwards, `none`
once `delete(this)` has run. -/
def abortTransaction (ctx : transactionContext) (w : World) (globalClock : Nat) (draw : Int) :
    World × Option transactionContext :=
  let retVal := abort w.transGCM w.thread.pid ctx.tid globalClock
  let w0 : World := { w with transGCM := retVal.2 }
  if retVal.1.ret = GCMRet.SUCCESS then
    let t := w0.thread
    let t1 : ThreadContext :=
      { t with
        abortCount := t.abortCount + 1
        tmDepth := t.tmDepth - 1
        fcr31 := ctx.fcr31
        fcr0 := ctx.fcr0
        lo := ctx.lo
        hi := ctx.hi
        reg := fun i => if i < 32 then ctx.reg i else if i = 32 then ctx.reg 32 else t.reg i
        fp := fun i => if i < 32 then fpValue.ofInt (ctx.reg i) else t.fp i }
    let t2 : ThreadContext :=
      { t1 with transContext := if t1.tmDepth > 0 then ctx.parent else none }
    let w1 := createStall { w0 with thread := t2 }
      (getRndDelay ctx (ctx.abortBaseStallCycles + ctx.abortVarStallCycles * (retVal.1.writeSetSize.getD 0)) draw)
    let t3 : ThreadContext := { w1.thread with pcIcode := icodePtr.to ctx.tmBeginCode, tmAborting := 1 }
    ({ w1 with thread := t3 }, none)
  else
    (w0, some ctx)

/-- The loop of `commitTransaction` over the speculative cache:
`*(unsigned int*) begin->first = begin->second` for every entry in key order. -/
def releaseCache (memMap : List (Nat × Int)) (memory : Nat → Nat) : Nat → Nat :=
  memMap.foldl (fun m e => storeWord32 m e.1 e.2) memory

/-- Commits a transaction. `debugBuild` tells whether the arguments of the
simulator's `ID(...)` macro are compiled (they are in a debug build only); with
them the loop that writes the cache to memory runs only if
`pthread->tmDebug == 0`. The second component is the context afterwards,
`none` once `delete(this)` has run. -/
def commitTransaction (debugBuild : Bool) (ctx : transactionContext) (w : World) (picode : icode)
    (globalClock : Nat) (draw : Int) : World × Option transactionContext :=
  let retVal := commit w.transGCM ctx.pid ctx.tid globalClock
  let w0 : World := { w with transGCM := retVal.2 }
  if retVal.1.ret = GCMRet.COMMIT_DELAY then
    let r := stallInstruction ctx w0 picode
      (getRndDelay ctx (ctx.commitBaseStallCycles + ctx.commitVarStallCycles * (retVal.1.writeSetSize.getD 0)) draw)
    ({ r.1 with thread := { r.1.thread with pcIcode := r.2.nackInstruction } }, some r.2)
  else if retVal.1.ret = GCMRet.IGNORE then
    ({ w0 with thread := { w0.thread with tmBCFlag := retVal.1.BCFlag, pcIcode := icodePtr.nextOf picode } },
      some ctx)
  else if retVal.1.ret = GCMRet.NACK then
    let r := stallInstruction ctx w0 picode ctx.nackStallCycles
    ({ r.1 with thread := { r.1.thread with pcIcode := r.2.nackInstruction } }, some r.2)
  else if retVal.1.ret = GCMRet.ABORT then
    abortTransaction ctx { w0 with thread := { w0.thread with tmNacking := 0 } } globalClock draw
  else
    let t1 : ThreadContext := { w0.thread with tmDepth := w0.thread.tmDepth - 1 }
    let memory1 :=
      if debugBuild = true ∧ t1.tmDebug ≠ 0 then w0.memory else releaseCache ctx.memMap w0.memory
    let t2 : ThreadContext := { t1 with tmBCFlag := retVal.1.BCFlag, pcIcode := icodePtr.nextOf picode }
    let t3 : ThreadContext := if t2.tmDepth > 0 then { t2 with transContext := ctx.parent } else t2
    ({ w0 with thread := t3, memory := memory1 }, none)

/-! ## Beginning a transaction and building a context -/

/-- The conversion `(int) pow(base, e)` of `beginTransaction`. For `e ≥ 0` the
power is an integer, which `pow` returns as it is when it lies in the range of
`int`; outside that range the conversion of the double is not defined by the
language and yields `outOfRange`. For `e < 0` the power is a fraction, cut to
0 unless the base is 1 or -1. -/
def powInt (base e outOfRange : Int) : Int :=
  if e < 0 then
    if base = 1 then 1 else if base = -1 then (-1) ^ e.natAbs else 0
  else if -(2 ^ 31) ≤ base ^ e.toNat ∧ base ^ e.toNat < 2 ^ 31 then base ^ e.toNat
  else outOfRange

/-- The product `a * b` of two `int`s: the product itself when it lies in the
range of `int`; outside that range the language does not define the result, and
it is `outOfRange`. -/
def mulInt (a b outOfRange : Int) : Int :=
  if -(2 ^ 31) ≤ a * b ∧ a * b < 2 ^ 31 then a * b else outOfRange

/-- Starts a transaction. `rand` is what `rand()` returns, `outOfRange` what an
`int` holds after a conversion or a product that left the range of `int`. The
second component is the context afterwards, `none` once `delete(this)` has
run. -/
def beginTransaction (ctx : transactionContext) (w : World) (picode : icode) (globalClock : Nat)
    (rand : Nat) (outOfRange : Int) : World × Option transactionContext :=
  let retval := begin w.transGCM w.thread.pid picode globalClock
  let w0 : World := { w with transGCM := retval.2 }
  if retval.1.ret = GCMRet.SUCCESS then
    let t := w0.thread
    let ctx1 : transactionContext :=
      { ctx with
        pid := t.pid
        tid := picode.immed
        tmBeginCode := picode
        lo := t.lo
        hi := t.hi
        fcr0 := t.fcr0
        fcr31 := t.fcr31
        reg := fun i => if i < 32 then t.reg i else if i = 32 then t.reg 32 else ctx.reg i
        fp := fun i => if i < 32 then t.fp i else ctx.fp i
        depth := t.tmDepth
        parent := if t.tmDepth > 0 then t.transContext else none }
    let t1 : ThreadContext :=
      { t with
        transContext := some ctx.self
        tmDepth := t.tmDepth + 1
        tmBCFlag := retval.1.BCFlag
        tmTid := picode.immed
        tmAborting := 0
        pcIcode := icodePtr.nextOf picode }
    ({ w0 with thread := t1 }, some ctx1)
  else if retval.1.ret = GCMRet.BACKOFF then
    let abortCount := Int.tmod (retval.1.abortCount.getD 0) 15
    let r :=
      if ctx.abortExpBackoff ≠ 0 then
        stallInstruction ctx w0 picode (powInt ctx.abortExpBackoff abortCount outOfRange)
      else
        stallInstruction ctx w0 picode
          (mulInt (Int.tmod (rand : Int) ctx.abortLinBackoff + 1) (retval.1.abortCount.getD 0)
            outOfRange)
    ({ r.1 with thread := { r.1.thread with pcIcode := r.2.nackInstruction } }, none)
  else if retval.1.ret = GCMRet.IGNORE then
    ({ w0 with thread := { w0.thread with tmBCFlag := retval.1.BCFlag,
                                          pcIcode := icodePtr.nextOf picode } }, none)
  else
    (w0, some ctx)

/-- The number of begins by `pid` along a sequence of calls that raise its depth:
those that return SUCCESS and those that return IGNORE (subsumed). -/
def depthIncrements (pid : Nat) (s : transCoherence) : List Op → Nat
  | [] => 0
  | Op.begin p picode globalClock :: rest =>
    (if p = pid ∧ ((begin s p picode globalClock).1.ret = GCMRet.SUCCESS ∨
        (begin s p picode globalClock).1.ret = GCMRet.IGNORE) then 1 else 0) +
      depthIncrements pid (step s (Op.begin p picode globalClock)) rest
  | op :: rest => depthIncrements pid (step s op) rest

/-- The number of commits by `pid` along a sequence of calls that return IGNORE
(subsumed commits). -/
def subsumedCommits (pid : Nat) (s : transCoherence) : List Op → Nat
  | [] => 0
  | Op.commit p tid globalClock :: rest =>
    (if p = pid ∧ (commit s p tid globalClock).1.ret = GCMRet.IGNORE then 1 else 0) +
      subsumedCommits pid (step s (Op.commit p tid globalClock)) rest
  | op :: rest => subsumedCommits pid (step s op) rest

/-- The number of commits by `pid` along a sequence of calls that return SUCCESS
(finalized commits). -/
def finalizedCommits (pid : Nat) (s : transCoherence) : List Op → Nat
  | [] => 0
  | Op.commit p tid globalClock :: rest =>
    (if p = pid ∧ (commit s p tid globalClock).1.ret = GCMRet.SUCCESS then 1 else 0) +
      finalizedCommits pid (step s (Op.commit p tid globalClock)) rest
  | op :: rest => finalizedCommits pid (step s op) rest

/-- The number of aborts by `pid` along a sequence of calls. -/
def abortsBy (pid : Nat) (s : transCoherence) : List Op → Nat
  | [] => 0
  | Op.abort p tid globalClock :: rest =>
    (if p = pid then 1 else 0) + abortsBy pid (step s (Op.abort p tid globalClock)) rest
  | op :: rest => abortsBy pid (step s op) rest

/-- The depth that the finalized commits and the aborts of `pid` take away along
a sequence of calls: for each of them, the depth `pid` had when it was called. -/
def depthDropped (pid : Nat) (s : transCoherence) : List Op → Int
  | [] => 0
  | Op.commit p tid globalClock :: rest =>
    (if p = pid ∧ (commit s p tid globalClock).1.ret = GCMRet.SUCCESS then s.tmDepth pid else 0) +
      depthDropped pid (step s (Op.commit p tid globalClock)) rest
  | Op.abort p tid globalClock :: rest =>
    (if p = pid then s.tmDepth pid else 0) +
      depthDropped pid (step s (Op.abort p tid globalClock)) rest
  | op :: rest => depthDropped pid (step s op) rest

/-- The marker of the line `caddr`, `none` for a line that has no entry. -/
def markerOf (s : transCoherence) (caddr : Nat) : Option perState :=
  (mapFind caddr s.permCache).map (fun per => per.state)

/-- A thread of process 0 inside one transaction, with `tmDebug` as given. -/
def sampleThread (tmDebug : Int) : ThreadContext :=
  { pid := 0, reg := fun _ => 0, fp := fun _ => fpValue.raw 0, lo := 0, hi := 0, fcr0 := 0,
    fcr31 := 0, tmBCFlag := none, tmTid := 0, tmAborting := 0, tmNacking := 0, tmDebug := tmDebug,
    abortCount := 0, tmDepth := 1, transContext := some 1, pcIcode := icodePtr.null }

/-- The context of process 0 whose speculative cache holds the word 7 for
address 0x400. -/
def sampleContext : transactionContext :=
  { self := 1, pid := 0, tid := 0, tmBeginCode := ⟨0, 0⟩, reg := fun _ => 0,
    fp := fun _ => fpValue.raw 0, lo := 0, hi := 0, fcr0 := 0, fcr31 := 0, depth := 0,
    parent := none, nackInstruction := icodePtr.null, nackStallCycles := 1,
    abortBaseStallCycles := 1, abortVarStallCycles := 1, commitBaseStallCycles := 1,
    commitVarStallCycles := 1, abortExpBackoff := 2, abortLinBackoff := 1,
    applyRandomization := 0, memMap := [(1024, 7)] }

/-- Process 0 has begun, written the line of 0x400 and called commit once (the
answer was COMMIT_DELAY); real memory is all zero. -/
def sampleWorld (tmDebug : Int) : World :=
  { transGCM := run eagerInit [Op.begin 0 ⟨0, 0⟩ 10, Op.write 0 0 1024, Op.commit 0 0 30],
    thread := sampleThread tmDebug,
    memory := fun _ => 0 }

/-! ## Invariants of the reachable states -/

/-- A line with a writer has exactly that one writer and no reader but it. -/
def lineExcl (c : cacheState) : Prop :=
  c.writers.length ≤ 1 ∧ ∀ w ∈ c.writers, ∀ r ∈ c.readers, r = w

/-- The invariant of the eager module: the eager methods are installed and
every line is exclusive to its writer. -/
def EagerInv (s : transCoherence) : Prop :=
  s.methods = Policy.EE ∧ ∀ e ∈ s.permCache, lineExcl e.2

/-- The readers of the line `caddr`, an absent line having none. -/
def readersOf (s : transCoherence) (caddr : Nat) : List Nat :=
  match mapFind caddr s.permCache with
  | some per => per.readers
  | none => []

/-- The writers of the line `caddr`, an absent line having none. -/
def writersOf (s : transCoherence) (caddr : Nat) : List Nat :=
  match mapFind caddr s.permCache with
  | some per => per.writers
  | none => []

/-- The representation invariant of `std::set<int>`: the readers and the writers
of every line are held in strictly increasing order, so without repetition. -/
def SetsWF (s : transCoherence) : Prop :=
  ∀ e ∈ s.permCache, e.2.readers.Pairwise (· < ·) ∧ e.2.writers.Pairwise (· < ·)

/-- Process `q` is among the readers or the writers of a line of `m` that `pid`
has written. -/
def sharesWritten (pid q : Nat) (m : List (Nat × cacheState)) : Prop :=
  ∃ e ∈ m, pid ∈ e.2.writers ∧ (q ∈ e.2.readers ∨ q ∈ e.2.writers)

/-- The invariant of the lazy module: the lazy methods are installed and a
process in state COMMITTING is the current committer. -/
def LazyInv (s : transCoherence) : Prop :=
  s.methods = Policy.LL ∧
    ∀ p, (s.transState p).state = condition.COMMITTING → s.currentCommitter = (p : Int)

/-! ## Outcomes of conflicting accesses, and traces of calls -/

/-- What a conflicting eager access that does not abort leaves behind, `nackPid`
being the offender: the result is NACK, the state of `pid` is NACKED, the line
table is as before, the cycle flag of the offender is raised if its timestamp
is not below that of `pid`, and no other cycle flag changes (none at all if the
offender's timestamp is below that of `pid`). -/
def nackOutcome (s : transCoherence) (pid nackPid : Nat) (r : GCMRet × transCoherence) : Prop :=
  r.1 = GCMRet.NACK ∧
  (r.2.transState pid).state = condition.NACKED ∧
  r.2.permCache = s.permCache ∧
  ((s.transState nackPid).timestamp ≥ (s.transState pid).timestamp →
    (r.2.transState nackPid).cycleFlag = true) ∧
  (∀ q, (q ≠ nackPid ∨ (s.transState nackPid).timestamp < (s.transState pid).timestamp) →
    (r.2.transState q).cycleFlag = (s.transState q).cycleFlag)

/-- The record returned by a call of begin, commit or abort; `none` for the
other calls. -/
def stepFinal (s : transCoherence) : Op → Option GCMFinalRet
  | Op.begin pid picode globalClock => some (begin s pid picode globalClock).1
  | Op.commit pid tid globalClock => some (commit s pid tid globalClock).1
  | Op.abort pid tid globalClock => some (abort s pid tid globalClock).1
  | _ => none

/-- The records returned along a sequence of calls, the first call first. -/
def trace (s : transCoherence) : List Op → List (Option GCMFinalRet)
  | [] => []
  | op :: rest => stepFinal s op :: trace (step s op) rest

/-- The result code, the BCFlag and the tuid of a returned record. -/
def outcome (r : Option GCMFinalRet) : Option (GCMRet × Option Int × Option Nat) :=
  r.map (fun x => (x.ret, x.BCFlag, x.tuid))

/-- The tuids returned by the calls of begin that return SUCCESS along a
sequence of calls, in the order of the calls. -/
def beginTuids (s : transCoherence) : List Op → List (Option Nat)
  | [] => []
  | Op.begin pid picode globalClock :: rest =>
    if (begin s pid picode globalClock).1.ret = GCMRet.SUCCESS then
      (begin s pid picode globalClock).1.tuid ::
        beginTuids (step s (Op.begin pid picode globalClock)) rest
    else beginTuids (step s (Op.begin pid picode globalClock)) rest
  | op :: rest => beginTuids (step s op) rest

/-- The tuid returned by the last call of begin by `pid` that returned SUCCESS
along a sequence of calls, `acc` if there is none. -/
def enclosingTuid (pid : Nat) (s : transCoherence) : List Op → Option Nat → Option Nat
  | [], acc => acc
  | Op.begin p picode globalClock :: rest, acc =>
    enclosingTuid pid (step s (Op.begin p picode globalClock)) rest
      (if p = pid ∧ (begin s p picode globalClock).1.ret = GCMRet.SUCCESS then
        (begin s p picode globalClock).1.tuid
      else acc)
  | op :: rest, acc => enclosingTuid pid (step s op) rest acc

/-- State `t` keeps the transaction ids of state `s`: the counter and the utid
of every process are the same, and no process has entered a transaction. -/
def KeepsIds (s t : transCoherence) : Prop :=
  t.utid = s.utid ∧ (∀ q, (t.transState q).utid = (s.transState q).utid) ∧
    (∀ q, t.tmDepth q > 0 → s.tmDepth q > 0)

/-- Process `pid` is `d` levels deep in a transaction with record `me`, under the
methods `m`, and no process holds the commit slot. -/
def Nested (m : Policy) (pid : Nat) (me : tmState) (d : Int) (t : transCoherence) : Prop :=
  t.methods = m ∧ t.tmDepth pid = d ∧ t.transState pid = me ∧ t.currentCommitter = -1

/-! ## Sample worlds for the context operations -/

/-- A thread of process 0 outside any transaction, whose registers hold
different values: `reg[i] = 100 + i`, `lo = 3`, `hi = 4`, `fcr0 = 5`,
`fcr31 = 6`. -/
def idleThread : ThreadContext :=
  { pid := 0, reg := fun i => 100 + (i : Int), fp := fun _ => fpValue.raw 0, lo := 3, hi := 4,
    fcr0 := 5, fcr31 := 6, tmBCFlag := none, tmTid := 0, tmAborting := 0, tmNacking := 0,
    tmDebug := 0, abortCount := 0, tmDepth := 0, transContext := none,
    pcIcode := icodePtr.null }

/-- The thread `idleThread` over the module `s` and a memory that is all zero. -/
def idleWorld (s : transCoherence) : World :=
  { transGCM := s, thread := idleThread, memory := fun _ => 0 }

/-- The calls of `n` rounds in which process 0 aborts and begins again. -/
def abortRounds : Nat → List Op
  | 0 => []
  | n + 1 => Op.abort 0 1 20 :: Op.begin 0 ⟨4096, 1⟩ 21 :: abortRounds n

/-- Process 0 of an eager module has begun a transaction and aborted ten times;
after each of the first nine aborts it called begin once (the answer was
BACKOFF). The begin that follows is answered BACKOFF with abort count 10. -/
def backoffWorld : World :=
  idleWorld (run eagerInit (Op.begin 0 ⟨4096, 1⟩ 10 :: abortRounds 9 ++ [Op.abort 0 1 50]))

/-! ## States that no process is in -/

/-- No process is in the state `bad`. -/
def NoneIn (bad : condition) (s : transCoherence) : Prop :=
  ∀ p, (s.transState p).state ≠ bad

/-- The commit slot is held by `c` while no process is in state COMMITTING, under
the lazy methods. -/
def TokenStuck (c : Int) (s : transCoherence) : Prop :=
  s.methods = Policy.LL ∧ s.currentCommitter = c ∧ 0 ≤ c ∧ NoneIn condition.COMMITTING s

/-! ## Buffers (`cacheReadBuffer`) -/

/-- The calls issued by a loop `for(i = 0; i < n; i++)` whose body issues the
calls `body i` and assigns neither `i` nor `n`: those of the first `n - 1`
rounds, then those of round `n - 1`. -/
def forLoop {α : Type} (body : Nat → List α) : Nat → List α
  | 0 => []
  | n + 1 => forLoop body n ++ body n

/-- The local `int bytes = count % 4` of `cacheReadBuffer`. -/
def bufferBytes (count : Int) : Int := Int.tmod count 4

/-- The local `int words = (int)((count - bytes)/4)` of `cacheReadBuffer`. -/
def bufferWords (count : Int) : Int := Int.tdiv (count - bufferBytes count) 4

/-- Read entire buffer from TM cache: the calls `cacheSB(raddr, value)` that
`cacheReadBuffer(pthread, picode, buff, buffBegin, count)` issues, in the order
in which it issues them, each as the pair of its arguments. The two-argument
`cacheSB` is declared in `transContext.h`; the test
`retval == SUCCESS || retval == NACK` is on a variable just set to SUCCESS.
A loop bound that is not positive gives no round. -/
def cacheReadBuffer (buff : Nat → Int) (buffBegin : Nat) (count : Int) : List (Nat × Int) :=
  let bytes := bufferBytes count
  let words := bufferWords count
  forLoop (fun i =>
      [(buffBegin + 4 * i, buff (4 * i)),
       (buffBegin + 4 * i + 1, buff (4 * i + 1)),
       (buffBegin + 4 * i + 2, buff (4 * i + 2)),
       (buffBegin + 4 * i + 3, buff (4 * i + 3))]) words.toNat ++
    forLoop (fun i => [(buffBegin + 4 * words.toNat + i, buff (4 * words.toNat + i))]) bytes.toNat

/-! ## The stalls that a context installs -/

theorem mem_setInsert (p x : Nat) (s : List Nat) : x ∈ setInsert p s ↔ x = p ∨ x ∈ s := by
  induction s with
  | nil => simp [setInsert]
  | cons q qs ih =>
    unfold setInsert
    split_ifs with h1 h2
    · simp
    · subst h2; simp
    · simp only [List.mem_cons, ih]; tauto

theorem mem_setErase (p x : Nat) (s : List Nat) : x ∈ setErase p s ↔ x ∈ s ∧ x ≠ p := by
  simp [setErase]

theorem length_setErase_le (p : Nat) (s : List Nat) : (setErase p s).length ≤ s.length := by
  unfold setErase
  exact List.length_filter_le _ _

theorem setInsert_singleton_self (p : Nat) : setInsert p [p] = [p] := by
  simp [setInsert]

theorem mapFind_mapSet_self (k : Nat) (v : cacheState) (m : List (Nat × cacheState)) :
    mapFind k (mapSet k v m) = some v := by
  induction m with
  | nil => simp [mapSet, mapFind]
  | cons e rest ih =>
    obtain ⟨k0, v0⟩ := e
    unfold mapSet
    split_ifs with h1 h2
    · simp [mapFind]
    · simp [mapFind]
    · simp [mapFind, h2, ih]

theorem mapFind_mapSet_ne (k k1 : Nat) (v : cacheState) (m : List (Nat × cacheState)) (h : k1 ≠ k) :
    mapFind k1 (mapSet k v m) = mapFind k1 m := by
  induction m with
  | nil => simp [mapSet, mapFind, h]
  | cons e rest ih =>
    obtain ⟨k0, v0⟩ := e
    unfold mapSet
    split_ifs with h1 h2
    · simp [mapFind, h]
    · subst h2; simp [mapFind, h]
    · simp [mapFind, ih]

theorem mem_mapSet (k : Nat) (v : cacheState) (m : List (Nat × cacheState)) (e : Nat × cacheState)
    (h : e ∈ mapSet k v m) : e = (k, v) ∨ e ∈ m := by
  induction m with
  | nil => simpa [mapSet] using h
  | cons e0 rest ih =>
    obtain ⟨k0, v0⟩ := e0
    unfold mapSet at h
    split_ifs at h with h1 h2
    · simpa using h
    · simp only [List.mem_cons] at h ⊢; tauto
    · simp only [List.mem_cons] at h ⊢
      rcases h with h | h
      · tauto
      · have := ih h; tauto

theorem mapFind_mem (k : Nat) (v : cacheState) (m : List (Nat × cacheState))
    (h : mapFind k m = some v) : (k, v) ∈ m := by
  induction m with
  | nil => simp [mapFind] at h
  | cons e0 rest ih =>
    obtain ⟨k0, v0⟩ := e0
    unfold mapFind at h
    split_ifs at h with h1
    · simp only [Option.some.injEq] at h; subst h; subst h1; simp
    · exact List.mem_cons_of_mem _ (ih h)

/-- A list of length at most one in which `p` occurs exactly once whenever it is
not empty is `[]` or `[p]`. -/
theorem short_set_cases (p : Nat) (s : List Nat)
    (h : ¬ (s.length > 1 ∨ (s.length = 1 ∧ s.count p ≠ 1))) : s = [] ∨ s = [p] := by
  match s with
  | [] => simp
  | [q] =>
    right
    by_cases hq : q = p
    · simp [hq]
    · exfalso; apply h; right
      simp [List.count_cons, hq]
  | _ :: _ :: _ => exfalso; apply h; left; simp

/-! ## The eager invariant -/

theorem lineExcl_mapSet (k : Nat) (v : cacheState) (m : List (Nat × cacheState))
    (hm : ∀ e ∈ m, lineExcl e.2) (hv : lineExcl v) : ∀ e ∈ mapSet k v m, lineExcl e.2 := by
  intro e he
  rcases mem_mapSet k v m e he with h | h
  · subst h; exact hv
  · exact hm e h

theorem lineExcl_eraseEverywhere (pid : Nat) (m : List (Nat × cacheState))
    (hm : ∀ e ∈ m, lineExcl e.2) : ∀ e ∈ eraseEverywhere pid m, lineExcl e.2 := by
  intro e he
  simp only [eraseEverywhere, List.mem_map] at he
  obtain ⟨e0, he0, rfl⟩ := he
  obtain ⟨h1, h2⟩ := hm e0 he0
  refine ⟨le_trans (length_setErase_le _ _) h1, ?_⟩
  intro w hw r hr
  simp only [mem_setErase] at hw hr
  exact h2 w hw.1 r hr.1

theorem nackOrAbort_permCache (s : transCoherence) (pid nackPid : Nat) :
    (nackOrAbort s pid nackPid).2.permCache = s.permCache ∧
    (nackOrAbort s pid nackPid).2.methods = s.methods ∧
    (nackOrAbort s pid nackPid).1 ≠ GCMRet.SUCCESS := by
  unfold nackOrAbort
  simp only
  split_ifs <;> simp [setState, raiseCycleFlag]

/-- A line that lets `readEE` through, once `pid` is among its readers. -/
theorem lineExcl_read (pid : Nat) (per : cacheState) (hp : lineExcl per)
    (h : ¬ (per.writers.length ≥ 1 ∧ per.writers.count pid ≠ 1)) :
    lineExcl { per with readers := setInsert pid per.readers } ∧
    ∀ w ∈ per.writers, w = pid := by
  obtain ⟨h1, h2⟩ := hp
  have hw : ∀ w ∈ per.writers, w = pid := by
    intro w hw
    match hws : per.writers with
    | [] => rw [hws] at hw; simp at hw
    | [q] =>
      rw [hws] at hw
      simp only [List.mem_singleton] at hw
      subst hw
      by_contra hne
      apply h
      rw [hws]
      simp [List.count_cons, hne]
    | _ :: _ :: _ => rw [hws] at h1; simp at h1
  refine ⟨⟨h1, ?_⟩, hw⟩
  intro w hw1 r hr
  simp only [mem_setInsert] at hr
  rcases hr with hr | hr
  · rw [hr, hw w hw1]
  · exact h2 w hw1 r hr

/-- A line that lets `writeEE` through, once `pid` is among its writers. -/
theorem lineExcl_write (pid : Nat) (per : cacheState)
    (hr : ¬ (per.readers.length > 1 ∨ (per.readers.length = 1 ∧ per.readers.count pid ≠ 1)))
    (hw : ¬ (per.writers.length > 1 ∨ (per.writers.length = 1 ∧ per.writers.count pid ≠ 1))) :
    lineExcl { per with writers := setInsert pid per.writers } ∧
    setInsert pid per.writers = [pid] := by
  have hws : setInsert pid per.writers = [pid] := by
    rcases short_set_cases pid per.writers hw with h | h <;> rw [h] <;> simp [setInsert]
  refine ⟨⟨by simp [hws], ?_⟩, hws⟩
  intro w hw1 r hr1
  simp only [hws, List.mem_singleton] at hw1
  subst hw1
  rcases short_set_cases w per.readers hr with h | h <;> rw [h] at hr1 <;> simp at hr1
  exact hr1

theorem lineExcl_newReadState (pid : Nat) : lineExcl (newReadState pid) := by
  simp [lineExcl, newReadState]

theorem lineExcl_newWriteState (pid : Nat) : lineExcl (newWriteState pid) := by
  simp [lineExcl, newWriteState, setInsert]

theorem eagerInv_readEE (s : transCoherence) (pid : Nat) (tid : Int) (raddr : Nat)
    (h : EagerInv s) : EagerInv (readEE s pid tid raddr).2 := by
  obtain ⟨hm, hl⟩ := h
  unfold readEE
  simp only
  split
  · rename_i per hper
    split_ifs with hc
    · obtain ⟨h1, h2, _⟩ := nackOrAbort_permCache s pid (per.writers.headD 0)
      exact ⟨by rw [h2]; exact hm, by rw [h1]; exact hl⟩
    · refine ⟨by simpa [setState] using hm, ?_⟩
      have hp := hl _ (mapFind_mem _ _ _ hper)
      simpa [setState] using lineExcl_mapSet _ _ _ hl (lineExcl_read pid per hp hc).1
  · refine ⟨by simpa [setState] using hm, ?_⟩
    simpa [setState] using lineExcl_mapSet _ _ _ hl (lineExcl_newReadState pid)

theorem eagerInv_writeEE (s : transCoherence) (pid : Nat) (tid : Int) (raddr : Nat)
    (h : EagerInv s) : EagerInv (writeEE s pid tid raddr).2 := by
  obtain ⟨hm, hl⟩ := h
  unfold writeEE
  simp only
  split
  · rename_i per hper
    split_ifs with hc1 hc2
    · obtain ⟨h1, h2, _⟩ := nackOrAbort_permCache s pid (firstOther pid per.readers)
      exact ⟨by rw [h2]; exact hm, by rw [h1]; exact hl⟩
    · obtain ⟨h1, h2, _⟩ := nackOrAbort_permCache s pid (firstOther pid per.writers)
      exact ⟨by rw [h2]; exact hm, by rw [h1]; exact hl⟩
    · refine ⟨by simpa [setState] using hm, ?_⟩
      simpa [setState] using lineExcl_mapSet _ _ _ hl (lineExcl_write pid per hc1 hc2).1
  · refine ⟨by simpa [setState] using hm, ?_⟩
    simpa [setState] using lineExcl_mapSet _ _ _ hl (lineExcl_newWriteState pid)

theorem eagerInv_beginEE (s : transCoherence) (pid : Nat) (picode : icode) (globalClock : Nat)
    (h : EagerInv s) : EagerInv (beginEE s pid picode globalClock).2 := by
  obtain ⟨hm, hl⟩ := h
  have he := lineExcl_eraseEverywhere pid s.permCache hl
  unfold beginEE
  simp only
  split_ifs <;> first
    | exact ⟨by simpa [setState] using hm, by simpa [setState] using hl⟩
    | exact ⟨by simpa [setState] using hm, by simpa [setState] using he⟩

theorem eagerInv_commitEE (s : transCoherence) (pid : Nat) (tid : Int) (globalClock : Nat)
    (h : EagerInv s) : EagerInv (commitEE s pid tid globalClock).2 := by
  obtain ⟨hm, hl⟩ := h
  have he := lineExcl_eraseEverywhere pid s.permCache hl
  unfold commitEE
  simp only
  split_ifs <;> first
    | exact ⟨by simpa [setState] using hm, by simpa [setState] using hl⟩
    | exact ⟨by simpa [setState, resetTrans, commitEraseEE] using hm,
        by simpa [setState, resetTrans, commitEraseEE] using he⟩

theorem eagerInv_abortEE (s : transCoherence) (pid : Nat) (tid : Int) (globalClock : Nat)
    (h : EagerInv s) : EagerInv (abortEE s pid tid globalClock).2 := by
  obtain ⟨hm, hl⟩ := h
  exact ⟨by simpa [abortEE, setState, resetTrans] using hm,
    by simpa [abortEE, setState, resetTrans] using hl⟩

theorem eagerInv_step (s : transCoherence) (op : Op) (h : EagerInv s) : EagerInv (step s op) := by
  have hm := h.1
  cases op with
  | read pid tid raddr => simpa [step, read, hm] using eagerInv_readEE s pid tid raddr h
  | write pid tid raddr => simpa [step, write, hm] using eagerInv_writeEE s pid tid raddr h
  | «begin» pid picode clk => simpa [step, begin, hm] using eagerInv_beginEE s pid picode clk h
  | commit pid tid clk => simpa [step, commit, hm] using eagerInv_commitEE s pid tid clk h
  | abort pid tid clk => simpa [step, abort, hm] using eagerInv_abortEE s pid tid clk h
  | checkAbort pid tid =>
    simp only [step, checkAbort]
    split_ifs
    · exact ⟨by simpa [setState] using hm, by simpa [setState] using h.2⟩
    · exact h
  | stallUntil pid cycles => exact ⟨by simpa [stallUntil] using hm, by simpa [stallUntil] using h.2⟩

theorem eagerInv_run (ops : List Op) (s : transCoherence) (h : EagerInv s) : EagerInv (run s ops) := by
  induction ops generalizing s with
  | nil => exact h
  | cons op rest ih => exact ih (step s op) (eagerInv_step s op h)

theorem eagerInv_construct (raw s0 : transCoherence) (conflicts versioning : Int) (cacheLineSize : Nat)
    (hc : conflicts ≠ 0) (h0 : construct raw conflicts versioning cacheLineSize = some s0) :
    EagerInv s0 := by
  unfold construct at h0
  by_cases hv : versioning = 0
  · simp [hv, hc] at h0
    subst h0
    simp [EagerInv]
  · simp [hv, hc] at h0
    subst h0
    simp [EagerInv]

/-! ## What a successful eager write does -/

/-- In a set without repetition the test of `writeEE`, "more than one member, or
one member that is not `pid`", holds exactly when a member differs from `pid`. -/
theorem blocked_iff (pid : Nat) (set : List Nat) (hs : set.Pairwise (· < ·)) :
    (set.length > 1 ∨ (set.length = 1 ∧ set.count pid ≠ 1)) ↔ ∃ q ∈ set, q ≠ pid := by
  constructor
  · intro h
    match set, hs, h with
    | [], _, h => simp at h
    | [q], _, h =>
      refine ⟨q, by simp, ?_⟩
      intro hq
      subst hq
      simp at h
    | a :: b :: rest, hs, _ =>
      have hab : a < b := by
        have := (List.pairwise_cons.mp hs).1 b (by simp)
        exact this
      by_cases ha : a = pid
      · exact ⟨b, by simp, by omega⟩
      · exact ⟨a, by simp, ha⟩
  · rintro ⟨q, hq, hne⟩
    by_contra hcon
    rcases short_set_cases pid set hcon with h | h
    · rw [h] at hq; simp at hq
    · rw [h] at hq; simp at hq; exact hne hq

theorem writeEE_success_iff_unblocked (s : transCoherence) (pid : Nat) (tid : Int) (raddr : Nat) :
    (writeEE s pid tid raddr).1 = GCMRet.SUCCESS ↔
      ¬ ((readersOf s (addrToCacheLine s raddr)).length > 1 ∨
          ((readersOf s (addrToCacheLine s raddr)).length = 1 ∧
            (readersOf s (addrToCacheLine s raddr)).count pid ≠ 1)) ∧
      ¬ ((writersOf s (addrToCacheLine s raddr)).length > 1 ∨
          ((writersOf s (addrToCacheLine s raddr)).length = 1 ∧
            (writersOf s (addrToCacheLine s raddr)).count pid ≠ 1)) := by
  unfold writeEE readersOf writersOf
  simp only
  split
  · rename_i per hper
    split_ifs with hc1 hc2
    · have := (nackOrAbort_permCache s pid (firstOther pid per.readers)).2.2
      simp only [this, false_iff, not_and]
      intro h; exact absurd hc1 h
    · have := (nackOrAbort_permCache s pid (firstOther pid per.writers)).2.2
      simp only [this, false_iff, not_and]
      intro _ h; exact absurd hc2 h
    · simp only [true_iff]
      exact ⟨hc1, hc2⟩
  · simp

theorem writeEE_success_effect (s : transCoherence) (pid : Nat) (tid : Int) (raddr : Nat)
    (hS : (writeEE s pid tid raddr).1 = GCMRet.SUCCESS) :
    writersOf (writeEE s pid tid raddr).2 (addrToCacheLine s raddr) =
        setInsert pid (writersOf s (addrToCacheLine s raddr)) ∧
      readersOf (writeEE s pid tid raddr).2 (addrToCacheLine s raddr) =
        readersOf s (addrToCacheLine s raddr) ∧
      (∀ a, a ≠ addrToCacheLine s raddr →
        mapFind a (writeEE s pid tid raddr).2.permCache = mapFind a s.permCache) ∧
      ((writeEE s pid tid raddr).2.transState pid).state = condition.RUNNING := by
  unfold writeEE readersOf writersOf at *
  simp only at *
  split at hS
  · rename_i per hper
    split_ifs at hS ⊢ with hc1 hc2
    · exact absurd hS (nackOrAbort_permCache s pid (firstOther pid per.readers)).2.2
    · exact absurd hS (nackOrAbort_permCache s pid (firstOther pid per.writers)).2.2
    · simp only [hper]
      refine ⟨by simp [setState, mapFind_mapSet_self], by simp [setState, mapFind_mapSet_self], ?_, ?_⟩
      · intro a ha; simp [setState, mapFind_mapSet_ne _ _ _ _ ha]
      · simp [setState]
  · rename_i hnone
    simp only [hnone]
    refine ⟨by simp [setState, mapFind_mapSet_self, newWriteState],
      by simp [setState, mapFind_mapSet_self, newWriteState], ?_, ?_⟩
    · intro a ha; simp [setState, mapFind_mapSet_ne _ _ _ _ ha]
    · simp [setState]

theorem setsWF_line (s : transCoherence) (h : SetsWF s) (caddr : Nat) :
    (readersOf s caddr).Pairwise (· < ·) ∧ (writersOf s caddr).Pairwise (· < ·) := by
  unfold readersOf writersOf
  split
  · rename_i per hper
    exact h _ (mapFind_mem _ _ _ hper)
  · simp

/-- The line of `raddr` after a successful `readEE` from a state of the eager
invariant. -/
theorem readEE_success_line (s : transCoherence) (pid : Nat) (tid : Int) (raddr : Nat)
    (hinv : EagerInv s) (hS : (readEE s pid tid raddr).1 = GCMRet.SUCCESS) :
    ∃ per, mapFind (addrToCacheLine s raddr) (readEE s pid tid raddr).2.permCache = some per ∧
      (∀ w ∈ per.writers, w = pid) ∧ pid ∈ per.readers := by
  obtain ⟨hm, hl⟩ := hinv
  unfold readEE at hS ⊢
  simp only at hS ⊢
  split at hS
  · rename_i per hper
    split_ifs at hS ⊢ with hcond
    · exact absurd hS (nackOrAbort_permCache s pid (per.writers.headD 0)).2.2
    · refine ⟨{ per with readers := setInsert pid per.readers }, ?_, ?_, ?_⟩
      · simp [setState, mapFind_mapSet_self]
      · exact (lineExcl_read pid per (hl _ (mapFind_mem _ _ _ hper)) hcond).2
      · simp [mem_setInsert]
  · refine ⟨newReadState pid, ?_, ?_, ?_⟩
    · simp [setState, mapFind_mapSet_self]
    · simp [newReadState]
    · simp [newReadState, setInsert]

/-! ## Eager reads and writes -/

/-- C1. Eager exclusion: in every state reached from the constructor's state of
an eager module (`conflicts ≠ 0`) by any sequence of calls, a `read` that returns
SUCCESS leaves the entry of the line of `raddr` with no writer but `pid` and
with `pid` among its readers. -/
theorem eager_read_exclusion (raw s0 : transCoherence) (conflicts versioning : Int)
    (cacheLineSize : Nat) (hc : conflicts ≠ 0)
    (h0 : construct raw conflicts versioning cacheLineSize = some s0)
    (ops : List Op) (pid : Nat) (tid : Int) (raddr : Nat)
    (hS : (read (run s0 ops) pid tid raddr).1 = GCMRet.SUCCESS) :
    ∃ per, mapFind (addrToCacheLine (run s0 ops) raddr)
        (read (run s0 ops) pid tid raddr).2.permCache = some per ∧
      (∀ w ∈ per.writers, w = pid) ∧ pid ∈ per.readers := by
  have hinv := eagerInv_run ops s0 (eagerInv_construct raw s0 conflicts versioning cacheLineSize hc h0)
  generalize run s0 ops = s at hinv hS ⊢
  have hm := hinv.1
  simp only [read, hm] at hS ⊢
  exact readEE_success_line s pid tid raddr hinv hS

/-- Witness of C1: process 0 writes the line of 0x100 and then reads it. -/
theorem eager_read_exclusion_witness :
    (read (run eagerInit [Op.begin 0 ⟨0, 0⟩ 10, Op.write 0 0 256]) 0 0 256).1 = GCMRet.SUCCESS ∧
    ∃ per, mapFind (addrToCacheLine (run eagerInit [Op.begin 0 ⟨0, 0⟩ 10, Op.write 0 0 256]) 256)
        (read (run eagerInit [Op.begin 0 ⟨0, 0⟩ 10, Op.write 0 0 256]) 0 0 256).2.permCache = some per ∧
      (∀ w ∈ per.writers, w = 0) ∧ 0 ∈ per.readers :=
  ⟨by decide,
    eager_read_exclusion rawZero eagerInit 1 1 64 (by decide) rfl
      [Op.begin 0 ⟨0, 0⟩ 10, Op.write 0 0 256] 0 0 256 (by decide)⟩

/-- C3. Single writer: in every state reached from the constructor's state of an
eager module by any sequence of calls, every entry of the line table has at
most one writer. -/
theorem eager_single_writer (raw s0 : transCoherence) (conflicts versioning : Int)
    (cacheLineSize : Nat) (hc : conflicts ≠ 0)
    (h0 : construct raw conflicts versioning cacheLineSize = some s0) (ops : List Op) :
    ∀ e ∈ (run s0 ops).permCache, e.2.writers.length ≤ 1 := by
  intro e he
  exact ((eagerInv_run ops s0
    (eagerInv_construct raw s0 conflicts versioning cacheLineSize hc h0)).2 e he).1

/-- Witness of C3: two processes compete for the line of 0x100; process 0 stays
its only writer. -/
theorem eager_single_writer_witness :
    ((256, ⟨perState.W, [], [0]⟩) : Nat × cacheState) ∈
      (run eagerInit [Op.begin 0 ⟨0, 0⟩ 10, Op.write 0 0 256, Op.begin 1 ⟨0, 0⟩ 20,
        Op.write 1 0 256]).permCache ∧
    ((256, ⟨perState.W, [], [0]⟩) : Nat × cacheState).2.writers.length ≤ 1 :=
  ⟨by decide,
    eager_single_writer rawZero eagerInit 1 1 64 (by decide) rfl
      [Op.begin 0 ⟨0, 0⟩ 10, Op.write 0 0 256, Op.begin 1 ⟨0, 0⟩ 20, Op.write 1 0 256]
      (256, ⟨perState.W, [], [0]⟩) (by decide)⟩

/-- C2. For every state of the module (the readers and writers of a line being
sets) `writeEE` returns SUCCESS exactly when the line of `raddr` has no reader
and no writer other than `pid`, an absent line having none; on SUCCESS `pid` is
added to the writers of that line, its readers and every other line are as
before, and the state of `pid` is RUNNING. -/
theorem writeEE_success_iff (s : transCoherence) (hwf : SetsWF s) (pid : Nat) (tid : Int)
    (raddr : Nat) :
    ((writeEE s pid tid raddr).1 = GCMRet.SUCCESS ↔
      (∀ q ∈ readersOf s (addrToCacheLine s raddr), q = pid) ∧
      (∀ q ∈ writersOf s (addrToCacheLine s raddr), q = pid)) ∧
    ((writeEE s pid tid raddr).1 = GCMRet.SUCCESS →
      writersOf (writeEE s pid tid raddr).2 (addrToCacheLine s raddr) =
          setInsert pid (writersOf s (addrToCacheLine s raddr)) ∧
        (∀ q, q ∈ writersOf (writeEE s pid tid raddr).2 (addrToCacheLine s raddr) ↔
          q = pid ∨ q ∈ writersOf s (addrToCacheLine s raddr)) ∧
        readersOf (writeEE s pid tid raddr).2 (addrToCacheLine s raddr) =
          readersOf s (addrToCacheLine s raddr) ∧
        (∀ a, a ≠ addrToCacheLine s raddr →
          mapFind a (writeEE s pid tid raddr).2.permCache = mapFind a s.permCache) ∧
        ((writeEE s pid tid raddr).2.transState pid).state = condition.RUNNING) := by
  obtain ⟨hr, hw⟩ := setsWF_line s hwf (addrToCacheLine s raddr)
  constructor
  · rw [writeEE_success_iff_unblocked, blocked_iff pid _ hr, blocked_iff pid _ hw]
    simp only [not_exists, not_and, not_not]
  · intro hS
    obtain ⟨h1, h2, h3, h4⟩ := writeEE_success_effect s pid tid raddr hS
    refine ⟨h1, ?_, h2, h3, h4⟩
    intro q
    rw [h1, mem_setInsert]

/-- Witness of C2: process 1 writes a line that process 0 has read. -/
theorem writeEE_success_iff_witness :
    SetsWF (run eagerInit [Op.begin 0 ⟨0, 0⟩ 10, Op.read 0 0 256]) ∧
    ¬ (writeEE (run eagerInit [Op.begin 0 ⟨0, 0⟩ 10, Op.read 0 0 256]) 1 0 256).1 = GCMRet.SUCCESS ∧
    (writeEE (run eagerInit [Op.begin 0 ⟨0, 0⟩ 10, Op.read 0 0 256]) 0 0 256).1 = GCMRet.SUCCESS ∧
    writersOf (writeEE (run eagerInit [Op.begin 0 ⟨0, 0⟩ 10, Op.read 0 0 256]) 0 0 256).2 256 = [0] :=
  have hwf : SetsWF (run eagerInit [Op.begin 0 ⟨0, 0⟩ 10, Op.read 0 0 256]) := by
    intro e he
    have h : e = (256, ⟨perState.R, [0], []⟩) := by
      have hp : (run eagerInit [Op.begin 0 ⟨0, 0⟩ 10, Op.read 0 0 256]).permCache =
          [(256, ⟨perState.R, [0], []⟩)] := by decide
      rw [hp] at he
      simpa using he
    subst h
    simp
  have h0 := writeEE_success_iff _ hwf 0 0 256
  ⟨hwf, by decide, by decide, (h0.2 (by decide)).1.trans (by decide)⟩

/-- Counterexample to C4 as stated: process 0 reads the line of 0x100 and then
writes it; the write returns SUCCESS and leaves 0 among both the writers and
the readers of the line. -/
theorem eager_rw_disjoint_counterexample :
    (write (run eagerInit [Op.begin 0 ⟨0, 0⟩ 10, Op.read 0 0 256]) 0 0 256).1 = GCMRet.SUCCESS ∧
    ¬ (∀ e ∈ (write (run eagerInit [Op.begin 0 ⟨0, 0⟩ 10, Op.read 0 0 256]) 0 0 256).2.permCache,
        ∀ p ∈ e.2.writers, p ∉ e.2.readers) := by
  decide

/-- C4, amended. In every state reached from the constructor's state of an eager
module, when `read` or `write` by `pid` returns SUCCESS, then on every entry of
the line table a reader of a line that has a writer is that writer, and on the
line of `raddr` no process but `pid` is a writer; so the writers and the readers
of a line share no process but the line's single writer, and on the accessed
line none but `pid`. -/
theorem eager_rw_overlap (raw s0 : transCoherence) (conflicts versioning : Int)
    (cacheLineSize : Nat) (hc : conflicts ≠ 0)
    (h0 : construct raw conflicts versioning cacheLineSize = some s0)
    (ops : List Op) (pid : Nat) (tid : Int) (raddr : Nat) :
    ((read (run s0 ops) pid tid raddr).1 = GCMRet.SUCCESS →
      (∀ e ∈ (read (run s0 ops) pid tid raddr).2.permCache,
        ∀ w ∈ e.2.writers, ∀ r ∈ e.2.readers, r = w) ∧
      (∀ x ∈ writersOf (read (run s0 ops) pid tid raddr).2 (addrToCacheLine (run s0 ops) raddr),
        x = pid)) ∧
    ((write (run s0 ops) pid tid raddr).1 = GCMRet.SUCCESS →
      (∀ e ∈ (write (run s0 ops) pid tid raddr).2.permCache,
        ∀ w ∈ e.2.writers, ∀ r ∈ e.2.readers, r = w) ∧
      (∀ x ∈ writersOf (write (run s0 ops) pid tid raddr).2 (addrToCacheLine (run s0 ops) raddr),
        x = pid)) := by
  have hinv := eagerInv_run ops s0 (eagerInv_construct raw s0 conflicts versioning cacheLineSize hc h0)
  generalize run s0 ops = s at hinv ⊢
  have hm := hinv.1
  simp only [read, write, hm]
  constructor
  · intro hS
    refine ⟨fun e he => ((eagerInv_readEE s pid tid raddr hinv).2 e he).2, ?_⟩
    obtain ⟨per, hper, hw, _⟩ := readEE_success_line s pid tid raddr hinv hS
    intro x hx
    simp only [writersOf, hper] at hx
    exact hw x hx
  · intro hS
    refine ⟨fun e he => ((eagerInv_writeEE s pid tid raddr hinv).2 e he).2, ?_⟩
    obtain ⟨h1, _, _, _⟩ := writeEE_success_effect s pid tid raddr hS
    have hunb := ((writeEE_success_iff_unblocked s pid tid raddr).mp hS).2
    intro x hx
    rw [h1] at hx
    rw [mem_setInsert] at hx
    rcases hx with hx | hx
    · exact hx
    · rcases short_set_cases pid _ hunb with h | h
      · rw [h] at hx; simp at hx
      · rw [h] at hx; simpa using hx

/-- Witness of the amended C4, at the input of the counterexample. -/
theorem eager_rw_overlap_witness :
    (write (run eagerInit [Op.begin 0 ⟨0, 0⟩ 10, Op.read 0 0 256]) 0 0 256).1 = GCMRet.SUCCESS ∧
    (∀ e ∈ (write (run eagerInit [Op.begin 0 ⟨0, 0⟩ 10, Op.read 0 0 256]) 0 0 256).2.permCache,
        ∀ w ∈ e.2.writers, ∀ r ∈ e.2.readers, r = w) ∧
    (∀ x ∈ writersOf (write (run eagerInit [Op.begin 0 ⟨0, 0⟩ 10, Op.read 0 0 256]) 0 0 256).2
        (addrToCacheLine (run eagerInit [Op.begin 0 ⟨0, 0⟩ 10, Op.read 0 0 256]) 256), x = 0) :=
  ⟨by decide,
    (eager_rw_overlap rawZero eagerInit 1 1 64 (by decide) rfl
      [Op.begin 0 ⟨0, 0⟩ 10, Op.read 0 0 256] 0 0 256).2 (by decide)⟩

/-! ## The final loop of the lazy commit -/

theorem forceAbort_fold (pid line : Nat) (l : List Nat) (s : transCoherence) :
    l.foldl (forceAbort pid line) s =
        { s with transState := (l.foldl (forceAbort pid line) s).transState,
                 abortReason := (l.foldl (forceAbort pid line) s).abortReason } ∧
    ∀ q, ((q ∈ l ∧ q ≠ pid) →
        (l.foldl (forceAbort pid line) s).transState q =
            { s.transState q with state := condition.DOABORT } ∧
          (l.foldl (forceAbort pid line) s).abortReason q = (pid, line)) ∧
      (¬ (q ∈ l ∧ q ≠ pid) →
        (l.foldl (forceAbort pid line) s).transState q = s.transState q ∧
          (l.foldl (forceAbort pid line) s).abortReason q = s.abortReason q) := by
  induction l generalizing s with
  | nil => simp
  | cons x l ih =>
    simp only [List.foldl_cons]
    obtain ⟨ih1, ih2⟩ := ih (forceAbort pid line s x)
    have hx : forceAbort pid line s x =
        { s with transState := (forceAbort pid line s x).transState,
                 abortReason := (forceAbort pid line s x).abortReason } := by
      unfold forceAbort; split_ifs <;> rfl
    constructor
    · rw [ih1, hx]
    · intro q
      obtain ⟨ihq1, ihq2⟩ := ih2 q
      by_cases hql : q ∈ l ∧ q ≠ pid
      · obtain ⟨e1, e2⟩ := ihq1 hql
        refine ⟨fun _ => ⟨?_, e2⟩, fun hn => absurd ⟨List.mem_cons_of_mem _ hql.1, hql.2⟩ hn⟩
        rw [e1]
        unfold forceAbort
        split_ifs with hxp
        · by_cases hqx : q = x
          · subst hqx; simp
          · simp [Function.update_noteq hqx]
        · rfl
      · obtain ⟨e1, e2⟩ := ihq2 hql
        rw [e1, e2]
        constructor
        · rintro ⟨hmem, hne⟩
          have hqx : q = x := by
            rcases List.mem_cons.mp hmem with h | h
            · exact h
            · exact absurd ⟨h, hne⟩ hql
          subst hqx
          unfold forceAbort
          simp [hne]
        · intro hn
          unfold forceAbort
          split_ifs with hxp
          · have hqx : q ≠ x := by
              intro h; subst h; exact hn ⟨by simp, hxp⟩
            simp [Function.update_noteq hqx]
          · exact ⟨rfl, rfl⟩

/-- The two inner loops of the final `commitLL` on one line that `pid` wrote. -/
theorem forceAbort_line (pid : Nat) (e : Nat × cacheState) (s : transCoherence) :
    e.2.readers.foldl (forceAbort pid e.1) ((setErase pid e.2.writers).foldl (forceAbort pid e.1) s) =
        { s with
          transState := (e.2.readers.foldl (forceAbort pid e.1)
            ((setErase pid e.2.writers).foldl (forceAbort pid e.1) s)).transState,
          abortReason := (e.2.readers.foldl (forceAbort pid e.1)
            ((setErase pid e.2.writers).foldl (forceAbort pid e.1) s)).abortReason } ∧
    ∀ q, ((q ≠ pid ∧ (q ∈ e.2.readers ∨ q ∈ e.2.writers)) →
        (e.2.readers.foldl (forceAbort pid e.1)
            ((setErase pid e.2.writers).foldl (forceAbort pid e.1) s)).transState q =
            { s.transState q with state := condition.DOABORT } ∧
          (e.2.readers.foldl (forceAbort pid e.1)
            ((setErase pid e.2.writers).foldl (forceAbort pid e.1) s)).abortReason q = (pid, e.1)) ∧
      (¬ (q ≠ pid ∧ (q ∈ e.2.readers ∨ q ∈ e.2.writers)) →
        (e.2.readers.foldl (forceAbort pid e.1)
            ((setErase pid e.2.writers).foldl (forceAbort pid e.1) s)).transState q = s.transState q ∧
          (e.2.readers.foldl (forceAbort pid e.1)
            ((setErase pid e.2.writers).foldl (forceAbort pid e.1) s)).abortReason q =
            s.abortReason q) := by
  obtain ⟨a1, a2⟩ := forceAbort_fold pid e.1 (setErase pid e.2.writers) s
  generalize (setErase pid e.2.writers).foldl (forceAbort pid e.1) s = s1 at a1 a2 ⊢
  obtain ⟨b1, b2⟩ := forceAbort_fold pid e.1 e.2.readers s1
  generalize e.2.readers.foldl (forceAbort pid e.1) s1 = s2 at b1 b2 ⊢
  constructor
  · rw [b1, a1]
  · intro q
    obtain ⟨a21, a22⟩ := a2 q
    obtain ⟨b21, b22⟩ := b2 q
    simp only [mem_setErase] at a21 a22
    constructor
    · rintro ⟨hne, hmem⟩
      by_cases hr : q ∈ e.2.readers
      · obtain ⟨c1, c2⟩ := b21 ⟨hr, hne⟩
        refine ⟨?_, c2⟩
        rw [c1]
        by_cases hw : q ∈ e.2.writers
        · rw [(a21 ⟨⟨hw, hne⟩, hne⟩).1]
        · rw [(a22 (fun h => hw h.1.1)).1]
      · have hw : q ∈ e.2.writers := by tauto
        obtain ⟨c1, c2⟩ := b22 (fun h => hr h.1)
        obtain ⟨d1, d2⟩ := a21 ⟨⟨hw, hne⟩, hne⟩
        exact ⟨by rw [c1, d1], by rw [c2, d2]⟩
    · intro hn
      obtain ⟨c1, c2⟩ := b22 (fun h => hn ⟨h.2, Or.inl h.1⟩)
      obtain ⟨d1, d2⟩ := a22 (fun h => hn ⟨h.2, Or.inr h.1.1⟩)
      exact ⟨by rw [c1, d1], by rw [c2, d2]⟩

/-- The lines as the final loop of `commitLL` leaves them. -/
theorem commitLoopLL_lines (pid : Nat) (m : List (Nat × cacheState)) (acc : Int × transCoherence) :
    (commitLoopLL pid m acc).2 =
      m.map (fun e =>
        if pid ∈ e.2.writers then (e.1, { e.2 with writers := [], readers := [] })
        else (e.1, { e.2 with readers := setErase pid e.2.readers })) := by
  induction m generalizing acc with
  | nil => simp [commitLoopLL]
  | cons e rest ih =>
    simp only [commitLoopLL, List.map_cons]
    by_cases hw : pid ∈ e.2.writers
    · have hc : List.count pid e.2.writers ≠ 0 := by
        simpa [List.count_eq_zero] using hw
      rw [if_pos hc, if_pos hw, ih]
    · have hc : List.count pid e.2.writers = 0 := List.count_eq_zero.mpr hw
      have he : setErase pid e.2.writers = e.2.writers := by
        unfold setErase
        rw [List.filter_eq_self]
        intro a ha
        simp only [ne_eq, decide_not, Bool.not_eq_true', decide_eq_false_iff_not]
        intro h; subst h; exact hw ha
      rw [if_neg (not_not.mpr hc), if_neg hw, ih, he]

/-- The write set size that the final loop of `commitLL` counts. -/
theorem commitLoopLL_count (pid : Nat) (m : List (Nat × cacheState)) (acc : Int × transCoherence) :
    (commitLoopLL pid m acc).1.1 =
      acc.1 + ((m.filter (fun e => decide (pid ∈ e.2.writers))).length : Int) := by
  induction m generalizing acc with
  | nil => simp [commitLoopLL]
  | cons e rest ih =>
    simp only [commitLoopLL]
    by_cases hw : pid ∈ e.2.writers
    · have hc : List.count pid e.2.writers ≠ 0 := by
        simpa [List.count_eq_zero] using hw
      rw [if_pos hc, ih]
      simp [List.filter_cons, hw]
      ring
    · have hc : List.count pid e.2.writers = 0 := List.count_eq_zero.mpr hw
      rw [if_neg (not_not.mpr hc), ih]
      simp [List.filter_cons, hw]

/-- Whom the final loop of `commitLL` orders to abort, and with which reason. -/
theorem commitLoopLL_marks (pid : Nat) (m : List (Nat × cacheState)) (acc : Int × transCoherence) :
    (commitLoopLL pid m acc).1.2 =
        { acc.2 with transState := (commitLoopLL pid m acc).1.2.transState,
                     abortReason := (commitLoopLL pid m acc).1.2.abortReason } ∧
    ∀ q, ((q ≠ pid ∧ sharesWritten pid q m) →
        (commitLoopLL pid m acc).1.2.transState q =
            { acc.2.transState q with state := condition.DOABORT } ∧
          ∃ e ∈ m, pid ∈ e.2.writers ∧ (q ∈ e.2.readers ∨ q ∈ e.2.writers) ∧
            (commitLoopLL pid m acc).1.2.abortReason q = (pid, e.1)) ∧
      (¬ (q ≠ pid ∧ sharesWritten pid q m) →
        (commitLoopLL pid m acc).1.2.transState q = acc.2.transState q ∧
          (commitLoopLL pid m acc).1.2.abortReason q = acc.2.abortReason q) := by
  induction m generalizing acc with
  | nil => simp [commitLoopLL, sharesWritten]
  | cons e rest ih =>
    simp only [commitLoopLL]
    by_cases hw : pid ∈ e.2.writers
    · have hc : List.count pid e.2.writers ≠ 0 := by
        simpa [List.count_eq_zero] using hw
      rw [if_pos hc]
      obtain ⟨l1, l2⟩ := forceAbort_line pid e acc.2
      generalize e.2.readers.foldl (forceAbort pid e.1)
        ((setErase pid e.2.writers).foldl (forceAbort pid e.1) acc.2) = s2 at l1 l2 ⊢
      obtain ⟨i1, i2⟩ := ih (acc.1 + 1, s2)
      generalize commitLoopLL pid rest (acc.1 + 1, s2) = r at i1 i2 ⊢
      simp only at i1 i2
      constructor
      · rw [i1, l1]
      · intro q
        obtain ⟨i21, i22⟩ := i2 q
        obtain ⟨l21, l22⟩ := l2 q
        constructor
        · rintro ⟨hne, hsh⟩
          by_cases hrest : sharesWritten pid q rest
          · obtain ⟨c1, e1, he1, c2, c3, c4⟩ := i21 ⟨hne, hrest⟩
            refine ⟨?_, e1, List.mem_cons_of_mem _ he1, c2, c3, c4⟩
            rw [c1]
            by_cases hline : q ∈ e.2.readers ∨ q ∈ e.2.writers
            · rw [(l21 ⟨hne, hline⟩).1]
            · rw [(l22 (fun h => hline h.2)).1]
          · obtain ⟨c1, c2⟩ := i22 (fun h => hrest h.2)
            have hline : q ∈ e.2.readers ∨ q ∈ e.2.writers := by
              obtain ⟨e1, he1, _, hq⟩ := hsh
              rcases List.mem_cons.mp he1 with h | h
              · subst h; exact hq
              · exact absurd ⟨e1, h, by assumption, hq⟩ hrest
            obtain ⟨d1, d2⟩ := l21 ⟨hne, hline⟩
            exact ⟨by rw [c1, d1], e, by simp, hw, hline, by rw [c2, d2]⟩
        · intro hn
          have hrest : ¬ (q ≠ pid ∧ sharesWritten pid q rest) := by
            rintro ⟨h1, e1, he1, h2, h3⟩
            exact hn ⟨h1, e1, List.mem_cons_of_mem _ he1, h2, h3⟩
          have hline : ¬ (q ≠ pid ∧ (q ∈ e.2.readers ∨ q ∈ e.2.writers)) := by
            rintro ⟨h1, h2⟩
            exact hn ⟨h1, e, by simp, hw, h2⟩
          obtain ⟨c1, c2⟩ := i22 hrest
          obtain ⟨d1, d2⟩ := l22 hline
          exact ⟨by rw [c1, d1], by rw [c2, d2]⟩
    · have hc : List.count pid e.2.writers = 0 := List.count_eq_zero.mpr hw
      rw [if_neg (not_not.mpr hc)]
      obtain ⟨i1, i2⟩ := ih acc
      refine ⟨i1, ?_⟩
      intro q
      obtain ⟨i21, i22⟩ := i2 q
      have hiff : sharesWritten pid q (e :: rest) ↔ sharesWritten pid q rest := by
        constructor
        · rintro ⟨e1, he1, h2, h3⟩
          rcases List.mem_cons.mp he1 with h | h
          · subst h; exact absurd h2 hw
          · exact ⟨e1, h, h2, h3⟩
        · rintro ⟨e1, he1, h2, h3⟩
          exact ⟨e1, List.mem_cons_of_mem _ he1, h2, h3⟩
      constructor
      · rintro ⟨hne, hsh⟩
        obtain ⟨c1, e1, he1, c2, c3, c4⟩ := i21 ⟨hne, hiff.mp hsh⟩
        exact ⟨c1, e1, List.mem_cons_of_mem _ he1, c2, c3, c4⟩
      · intro hn
        exact i22 (fun h => hn ⟨h.1, hiff.mpr h.2⟩)

/-! ## The lazy invariant -/

/-- A call that keeps the methods and the committer, and puts no process in
state COMMITTING, keeps the lazy invariant. -/
theorem lazyInv_of_frame (s t : transCoherence) (h : LazyInv s) (hm : t.methods = s.methods)
    (hc : t.currentCommitter = s.currentCommitter)
    (hst : ∀ p, (t.transState p).state = condition.COMMITTING →
      (s.transState p).state = condition.COMMITTING) : LazyInv t :=
  ⟨hm.trans h.1, fun p hp => hc.trans (h.2 p (hst p hp))⟩

theorem setState_state (s : transCoherence) (pid p : Nat) (c : condition)
    (h : ((setState s pid c).transState p).state = condition.COMMITTING)
    (hc : c ≠ condition.COMMITTING) : (s.transState p).state = condition.COMMITTING := by
  unfold setState at h
  by_cases hp : p = pid
  · subst hp; simp at h; exact absurd h hc
  · simpa [Function.update_noteq hp] using h

theorem lazyInv_readLL (s : transCoherence) (pid : Nat) (tid : Int) (raddr : Nat)
    (h : LazyInv s) : LazyInv (readLL s pid tid raddr).2 := by
  unfold readLL
  simp only
  split_ifs
  · exact lazyInv_of_frame s _ h rfl rfl (fun p hp => setState_state s pid p _ hp (by decide))
  · split <;>
      exact lazyInv_of_frame s _ h rfl rfl (fun p hp => setState_state _ pid p _ hp (by decide))

theorem lazyInv_writeLL (s : transCoherence) (pid : Nat) (tid : Int) (raddr : Nat)
    (h : LazyInv s) : LazyInv (writeLL s pid tid raddr).2 := by
  unfold writeLL
  simp only
  split_ifs
  · exact lazyInv_of_frame s _ h rfl rfl (fun p hp => setState_state s pid p _ hp (by decide))
  · split <;>
      exact lazyInv_of_frame s _ h rfl rfl (fun p hp => setState_state _ pid p _ hp (by decide))

theorem lazyInv_beginLL (s : transCoherence) (pid : Nat) (picode : icode) (globalClock : Nat)
    (h : LazyInv s) : LazyInv (beginLL s pid picode globalClock).2 := by
  unfold beginLL
  simp only
  split_ifs <;>
  · refine lazyInv_of_frame s _ h rfl rfl (fun p hp => ?_)
    first
      | exact hp
      | by_cases hpp : p = pid
        · subst hpp; simp at hp
        · simpa [setState, Function.update_noteq hpp] using hp

theorem lazyInv_abortLL (s : transCoherence) (pid : Nat) (tid : Int) (globalClock : Nat)
    (h : LazyInv s) : LazyInv (abortLL s pid tid globalClock).2 := by
  unfold abortLL
  refine lazyInv_of_frame s _ h rfl rfl (fun p hp => ?_)
  by_cases hpp : p = pid
  · subst hpp; simp [setState] at hp
  · simpa [setState, resetTrans, Function.update_noteq hpp] using hp

/-- The final branch of `commitLL`, entered with depth at most one and state
COMMITTING. -/
theorem commitLL_final (s : transCoherence) (pid : Nat) (tid : Int) (globalClock : Nat)
    (hd : ¬ s.tmDepth pid > 1) (hs : (s.transState pid).state = condition.COMMITTING) :
    commitLL s pid tid globalClock =
      (let s1 := resetTrans s pid
       let s2 : transCoherence :=
         { s1 with
           abortCount := Function.update s1.abortCount pid 0
           tmDepth := Function.update s1.tmDepth pid 0 }
       let r := commitLoopLL pid s2.permCache (0, s2)
       let s3 : transCoherence := { r.1.2 with permCache := r.2, currentCommitter := -1 }
       let s4 := setState s3 pid condition.COMMITTED
       ({ ret := GCMRet.SUCCESS, BCFlag := some 0, writeSetSize := some r.1.1,
          tuid := some (s4.transState pid).utid },
         { s4 with cyclesOnCommit := addCycles s4.cyclesOnCommit pid globalClock (s4.cyclesOnBegin pid) })) := by
  unfold commitLL
  rw [if_neg (by rw [hs]; decide), if_neg hd, if_pos hs]

theorem lazyInv_commitLL (s : transCoherence) (pid : Nat) (tid : Int) (globalClock : Nat)
    (h : LazyInv s) : LazyInv (commitLL s pid tid globalClock).2 := by
  by_cases h1 : (s.transState pid).state = condition.DOABORT
  · unfold commitLL
    rw [if_pos h1]
    exact lazyInv_of_frame s _ h rfl rfl (fun p hp => setState_state s pid p _ hp (by decide))
  by_cases h2 : s.tmDepth pid > 1
  · unfold commitLL
    rw [if_neg h1, if_pos h2]
    exact lazyInv_of_frame s _ h rfl rfl (fun p hp => hp)
  by_cases h3 : (s.transState pid).state = condition.COMMITTING
  · rw [commitLL_final s pid tid globalClock h2 h3]
    simp only
    obtain ⟨m1, m2⟩ := commitLoopLL_marks pid (resetTrans s pid).permCache
      (0, { resetTrans s pid with
            abortCount := Function.update (resetTrans s pid).abortCount pid 0
            tmDepth := Function.update (resetTrans s pid).tmDepth pid 0 })
    generalize commitLoopLL pid (resetTrans s pid).permCache
      (0, { resetTrans s pid with
            abortCount := Function.update (resetTrans s pid).abortCount pid 0
            tmDepth := Function.update (resetTrans s pid).tmDepth pid 0 }) = r at m1 m2 ⊢
    simp only at m1 m2
    constructor
    · simp only [setState]
      rw [m1]
      simpa [resetTrans] using h.1
    · intro p hp
      exfalso
      by_cases hpp : p = pid
      · subst hpp; simp [setState] at hp
      · simp only [setState, Function.update_noteq hpp] at hp
        have hcc := h.2 pid h3
        by_cases hsh : p ≠ pid ∧ sharesWritten pid p (resetTrans s pid).permCache
        · rw [(m2 p).1 hsh |>.1] at hp
          simp at hp
        · rw [(m2 p).2 hsh |>.1] at hp
          simp only [resetTrans, Function.update_noteq hpp] at hp
          have := h.2 p hp
          rw [hcc] at this
          exact hpp (by exact_mod_cast this.symm)
  by_cases h4 : s.currentCommitter ≥ 0
  · unfold commitLL
    rw [if_neg h1, if_neg h2, if_neg h3, if_pos h4]
    exact lazyInv_of_frame s _ h rfl rfl (fun p hp => setState_state s pid p _ hp (by decide))
  · unfold commitLL
    rw [if_neg h1, if_neg h2, if_neg h3, if_neg h4]
    refine ⟨by simpa [setState] using h.1, ?_⟩
    intro p hp
    by_cases hpp : p = pid
    · subst hpp; simp [setState]
    · exfalso
      simp only [setState, Function.update_noteq hpp] at hp
      have := h.2 p hp
      omega

theorem lazyInv_step (s : transCoherence) (op : Op) (h : LazyInv s) : LazyInv (step s op) := by
  have hm := h.1
  cases op with
  | read pid tid raddr => simpa [step, read, hm] using lazyInv_readLL s pid tid raddr h
  | write pid tid raddr => simpa [step, write, hm] using lazyInv_writeLL s pid tid raddr h
  | «begin» pid picode clk => simpa [step, begin, hm] using lazyInv_beginLL s pid picode clk h
  | commit pid tid clk => simpa [step, commit, hm] using lazyInv_commitLL s pid tid clk h
  | abort pid tid clk => simpa [step, abort, hm] using lazyInv_abortLL s pid tid clk h
  | checkAbort pid tid =>
    simp only [step, checkAbort]
    split_ifs
    · exact lazyInv_of_frame s _ h rfl rfl (fun p hp => setState_state s pid p _ hp (by decide))
    · exact h
  | stallUntil pid cycles => exact lazyInv_of_frame s _ h rfl rfl (fun p hp => hp)

theorem lazyInv_run (ops : List Op) (s : transCoherence) (h : LazyInv s) : LazyInv (run s ops) := by
  induction ops generalizing s with
  | nil => exact h
  | cons op rest ih => exact ih (step s op) (lazyInv_step s op h)

theorem lazyInv_construct (raw s0 : transCoherence) (conflicts versioning : Int) (cacheLineSize : Nat)
    (hc : conflicts = 0) (h0 : construct raw conflicts versioning cacheLineSize = some s0) :
    LazyInv s0 := by
  unfold construct at h0
  by_cases hv : versioning = 0
  · simp [hv, hc] at h0
    subst h0
    simp [LazyInv]
  · simp [hv, hc] at h0

/-! ## The reader and writer sets stay sets -/

theorem setInsert_sorted (p : Nat) (s : List Nat) (h : s.Pairwise (· < ·)) :
    (setInsert p s).Pairwise (· < ·) := by
  induction s with
  | nil => simp [setInsert]
  | cons q qs ih =>
    obtain ⟨hq, hqs⟩ := List.pairwise_cons.mp h
    unfold setInsert
    split_ifs with h1 h2
    · refine List.pairwise_cons.mpr ⟨?_, h⟩
      intro a ha
      rcases List.mem_cons.mp ha with ha | ha
      · omega
      · have := hq a ha; omega
    · exact h
    · refine List.pairwise_cons.mpr ⟨?_, ih hqs⟩
      intro a ha
      rcases (mem_setInsert p a qs).mp ha with ha | ha
      · omega
      · exact hq a ha

theorem setErase_sorted (p : Nat) (s : List Nat) (h : s.Pairwise (· < ·)) :
    (setErase p s).Pairwise (· < ·) := by
  unfold setErase
  exact List.Pairwise.filter _ h

theorem setsWF_mapSet (s : transCoherence) (k : Nat) (v : cacheState) (h : SetsWF s)
    (hv : v.readers.Pairwise (· < ·) ∧ v.writers.Pairwise (· < ·)) :
    ∀ e ∈ mapSet k v s.permCache, e.2.readers.Pairwise (· < ·) ∧ e.2.writers.Pairwise (· < ·) := by
  intro e he
  rcases mem_mapSet k v s.permCache e he with h1 | h1
  · subst h1; exact hv
  · exact h e h1

theorem setsWF_eraseEverywhere (s : transCoherence) (pid : Nat) (h : SetsWF s) :
    ∀ e ∈ eraseEverywhere pid s.permCache,
      e.2.readers.Pairwise (· < ·) ∧ e.2.writers.Pairwise (· < ·) := by
  intro e he
  simp only [eraseEverywhere, List.mem_map] at he
  obtain ⟨e0, he0, rfl⟩ := he
  exact ⟨setErase_sorted _ _ (h e0 he0).1, setErase_sorted _ _ (h e0 he0).2⟩

theorem setsWF_step (s : transCoherence) (op : Op) (h : SetsWF s) : SetsWF (step s op) := by
  cases op with
  | read pid tid raddr =>
    simp only [step, read]
    cases s.methods
    · simp only
      unfold readEE
      simp only
      split
      · rename_i per hper
        have hp := h _ (mapFind_mem _ _ _ hper)
        split_ifs
        · unfold SetsWF
          rw [(nackOrAbort_permCache s pid (per.writers.headD 0)).1]
          exact h
        · exact setsWF_mapSet s _ _ h ⟨setInsert_sorted _ _ hp.1, hp.2⟩
      · exact setsWF_mapSet s _ _ h (by simp [newReadState, setInsert])
    · simp only
      unfold readLL
      simp only
      split_ifs
      · exact h
      · split
        · rename_i per hper
          have hp := h _ (mapFind_mem _ _ _ hper)
          exact setsWF_mapSet s _ _ h ⟨setInsert_sorted _ _ hp.1, hp.2⟩
        · exact setsWF_mapSet s _ _ h (by simp [newReadState, setInsert])
  | write pid tid raddr =>
    simp only [step, write]
    cases s.methods
    · simp only
      unfold writeEE
      simp only
      split
      · rename_i per hper
        have hp := h _ (mapFind_mem _ _ _ hper)
        split_ifs
        · unfold SetsWF
          rw [(nackOrAbort_permCache s pid (firstOther pid per.readers)).1]
          exact h
        · unfold SetsWF
          rw [(nackOrAbort_permCache s pid (firstOther pid per.writers)).1]
          exact h
        · exact setsWF_mapSet s _ _ h ⟨hp.1, setInsert_sorted _ _ hp.2⟩
      · exact setsWF_mapSet s _ _ h (by simp [newWriteState, setInsert])
    · simp only
      unfold writeLL
      simp only
      split_ifs
      · exact h
      · split
        · rename_i per hper
          have hp := h _ (mapFind_mem _ _ _ hper)
          exact setsWF_mapSet s _ _ h ⟨hp.1, setInsert_sorted _ _ hp.2⟩
        · exact setsWF_mapSet s _ _ h (by simp [newWriteState, setInsert])
  | «begin» pid picode clk =>
    simp only [step, begin]
    cases s.methods
    · simp only
      unfold beginEE
      simp only
      split_ifs <;> first
        | exact h
        | exact setsWF_eraseEverywhere s pid h
    · simp only
      unfold beginLL
      simp only
      split_ifs <;> exact h
  | commit pid tid clk =>
    simp only [step, commit]
    cases s.methods
    · simp only
      unfold commitEE
      simp only
      split_ifs <;> first
        | exact h
        | exact setsWF_eraseEverywhere s pid h
    · simp only
      by_cases h1 : (s.transState pid).state = condition.DOABORT
      · unfold commitLL; rw [if_pos h1]; exact h
      by_cases h2 : s.tmDepth pid > 1
      · unfold commitLL; rw [if_neg h1, if_pos h2]; exact h
      by_cases h3 : (s.transState pid).state = condition.COMMITTING
      · rw [commitLL_final s pid tid clk h2 h3]
        simp only
        intro e he
        simp only [setState] at he
        rw [commitLoopLL_lines] at he
        simp only [List.mem_map] at he
        obtain ⟨e0, he0, rfl⟩ := he
        have hp := h e0 he0
        split_ifs
        · simp
        · exact ⟨setErase_sorted _ _ hp.1, hp.2⟩
      by_cases h4 : s.currentCommitter ≥ 0
      · unfold commitLL; rw [if_neg h1, if_neg h2, if_neg h3, if_pos h4]; exact h
      · unfold commitLL; rw [if_neg h1, if_neg h2, if_neg h3, if_neg h4]; exact h
  | abort pid tid clk =>
    simp only [step, abort]
    cases s.methods <;> exact h
  | checkAbort pid tid =>
    simp only [step, checkAbort]
    split_ifs <;> exact h
  | stallUntil pid cycles => exact h

/-- In every state reached from a constructed module, under either policy, the
readers and the writers of every line are in strictly increasing order. -/
theorem setsWF_run (raw s0 : transCoherence) (conflicts versioning : Int) (cacheLineSize : Nat)
    (h0 : construct raw conflicts versioning cacheLineSize = some s0) (ops : List Op) :
    SetsWF (run s0 ops) := by
  have hinit : SetsWF s0 := by
    unfold construct at h0
    simp only at h0
    split at h0
    · simp at h0
    · simp only [Option.some.injEq] at h0
      subst h0
      intro e he
      simp at he
  clear h0
  induction ops generalizing s0 with
  | nil => exact hinit
  | cons op rest ih => exact ih (step s0 op) (setsWF_step s0 op hinit)

/-! ## Lazy commits -/

/-- C5. Lazy commit atomicity: in every state reached from the constructor's
state of a lazy module (`conflicts = 0`) in which `currentCommitter` is some
`q ≥ 0`, a commit by a process `p ≠ q` returns neither SUCCESS nor COMMIT_DELAY
(it returns NACK, ABORT or IGNORE) and leaves `currentCommitter` as it is. -/
theorem lazy_commit_atomicity (raw s0 : transCoherence) (conflicts versioning : Int)
    (cacheLineSize : Nat) (hc : conflicts = 0)
    (h0 : construct raw conflicts versioning cacheLineSize = some s0)
    (ops : List Op) (p : Nat) (tid : Int) (globalClock : Nat)
    (hq : 0 ≤ (run s0 ops).currentCommitter) (hp : (p : Int) ≠ (run s0 ops).currentCommitter) :
    (commit (run s0 ops) p tid globalClock).1.ret ≠ GCMRet.SUCCESS ∧
    (commit (run s0 ops) p tid globalClock).1.ret ≠ GCMRet.COMMIT_DELAY ∧
    ((commit (run s0 ops) p tid globalClock).1.ret = GCMRet.NACK ∨
      (commit (run s0 ops) p tid globalClock).1.ret = GCMRet.ABORT ∨
      (commit (run s0 ops) p tid globalClock).1.ret = GCMRet.IGNORE) ∧
    (commit (run s0 ops) p tid globalClock).2.currentCommitter = (run s0 ops).currentCommitter := by
  have hinv := lazyInv_run ops s0 (lazyInv_construct raw s0 conflicts versioning cacheLineSize hc h0)
  generalize run s0 ops = s at hinv hq hp ⊢
  obtain ⟨hm, hcom⟩ := hinv
  have h3 : ¬ (s.transState p).state = condition.COMMITTING := fun h => hp (hcom p h).symm
  simp only [commit, hm]
  unfold commitLL
  by_cases h1 : (s.transState p).state = condition.DOABORT
  · rw [if_pos h1]; simp [setState]
  by_cases h2 : s.tmDepth p > 1
  · rw [if_neg h1, if_pos h2]; simp
  · rw [if_neg h1, if_neg h2, if_neg h3, if_pos (ge_iff_le.mpr hq)]; simp [setState]

/-- Witness of C5: process 0 holds the commit slot when process 1 commits. -/
theorem lazy_commit_atomicity_witness :
    (run lazyInit [Op.begin 0 ⟨0, 0⟩ 10, Op.begin 1 ⟨0, 0⟩ 20, Op.write 0 0 512,
      Op.commit 0 0 30]).currentCommitter = 0 ∧
    (commit (run lazyInit [Op.begin 0 ⟨0, 0⟩ 10, Op.begin 1 ⟨0, 0⟩ 20, Op.write 0 0 512,
      Op.commit 0 0 30]) 1 0 40).1.ret = GCMRet.NACK ∧
    (commit (run lazyInit [Op.begin 0 ⟨0, 0⟩ 10, Op.begin 1 ⟨0, 0⟩ 20, Op.write 0 0 512,
      Op.commit 0 0 30]) 1 0 40).2.currentCommitter = 0 :=
  ⟨by decide, by decide,
    (lazy_commit_atomicity rawZero lazyInit 0 0 64 rfl rfl
      [Op.begin 0 ⟨0, 0⟩ 10, Op.begin 1 ⟨0, 0⟩ 20, Op.write 0 0 512, Op.commit 0 0 30]
      1 0 40 (by decide) (by decide)).2.2.2.trans (by decide)⟩

/-- C6. Commit token: in every state reached from the constructor's state of a
lazy module, a process in state COMMITTING is `currentCommitter`, and at most
one process is in state COMMITTING. -/
theorem lazy_commit_token (raw s0 : transCoherence) (conflicts versioning : Int)
    (cacheLineSize : Nat) (hc : conflicts = 0)
    (h0 : construct raw conflicts versioning cacheLineSize = some s0) (ops : List Op) :
    (∀ p, ((run s0 ops).transState p).state = condition.COMMITTING →
      (run s0 ops).currentCommitter = (p : Int)) ∧
    (∀ p1 p2, ((run s0 ops).transState p1).state = condition.COMMITTING →
      ((run s0 ops).transState p2).state = condition.COMMITTING → p1 = p2) := by
  have hinv := lazyInv_run ops s0 (lazyInv_construct raw s0 conflicts versioning cacheLineSize hc h0)
  refine ⟨hinv.2, ?_⟩
  intro p1 p2 h1 h2
  have e1 := hinv.2 p1 h1
  have e2 := hinv.2 p2 h2
  rw [e1] at e2
  exact_mod_cast e2

/-- Witness of C6: process 0 is committing and holds the slot. -/
theorem lazy_commit_token_witness :
    ((run lazyInit [Op.begin 0 ⟨0, 0⟩ 10, Op.write 0 0 512, Op.commit 0 0 30]).transState 0).state =
      condition.COMMITTING ∧
    (run lazyInit [Op.begin 0 ⟨0, 0⟩ 10, Op.write 0 0 512, Op.commit 0 0 30]).currentCommitter =
      ((0 : Nat) : Int) :=
  ⟨by decide,
    (lazy_commit_token rawZero lazyInit 0 0 64 rfl rfl
      [Op.begin 0 ⟨0, 0⟩ 10, Op.write 0 0 512, Op.commit 0 0 30]).1 0 (by decide)⟩

/-- C7. Lazy commit finalize: `commitLL` entered with depth at most one and
state COMMITTING returns SUCCESS with `writeSetSize` the number of lines whose
writers held `pid`. A process `q ≠ pid` that was a reader or a writer of a line
that `pid` had written gets state DOABORT and `abortReason` = (`pid`, address of
such a line); every other `q ≠ pid` keeps its record and its abort reason. A
line that `pid` had written ends with no readers and no writers, and every
other line only loses `pid` from its readers. `currentCommitter` becomes -1 and
the state of `pid` COMMITTED. -/
theorem commitLL_finalize (s : transCoherence) (pid : Nat) (tid : Int) (globalClock : Nat)
    (hd : s.tmDepth pid ≤ 1) (hs : (s.transState pid).state = condition.COMMITTING) :
    (commitLL s pid tid globalClock).1.ret = GCMRet.SUCCESS ∧
    (commitLL s pid tid globalClock).1.writeSetSize =
      some ((s.permCache.filter (fun e => decide (pid ∈ e.2.writers))).length : Int) ∧
    (∀ q, q ≠ pid →
      (sharesWritten pid q s.permCache →
        ((commitLL s pid tid globalClock).2.transState q).state = condition.DOABORT ∧
        ∃ e ∈ s.permCache, pid ∈ e.2.writers ∧ (q ∈ e.2.readers ∨ q ∈ e.2.writers) ∧
          (commitLL s pid tid globalClock).2.abortReason q = (pid, e.1)) ∧
      (¬ sharesWritten pid q s.permCache →
        (commitLL s pid tid globalClock).2.transState q = s.transState q ∧
        (commitLL s pid tid globalClock).2.abortReason q = s.abortReason q)) ∧
    (commitLL s pid tid globalClock).2.permCache =
      s.permCache.map (fun e =>
        if pid ∈ e.2.writers then (e.1, { e.2 with writers := [], readers := [] })
        else (e.1, { e.2 with readers := setErase pid e.2.readers })) ∧
    (commitLL s pid tid globalClock).2.currentCommitter = -1 ∧
    ((commitLL s pid tid globalClock).2.transState pid).state = condition.COMMITTED := by
  rw [commitLL_final s pid tid globalClock (not_lt.mpr hd) hs]
  simp only
  have hl := commitLoopLL_lines pid (resetTrans s pid).permCache
    (0, { resetTrans s pid with
          abortCount := Function.update (resetTrans s pid).abortCount pid 0
          tmDepth := Function.update (resetTrans s pid).tmDepth pid 0 })
  have hn := commitLoopLL_count pid (resetTrans s pid).permCache
    (0, { resetTrans s pid with
          abortCount := Function.update (resetTrans s pid).abortCount pid 0
          tmDepth := Function.update (resetTrans s pid).tmDepth pid 0 })
  obtain ⟨m1, m2⟩ := commitLoopLL_marks pid (resetTrans s pid).permCache
    (0, { resetTrans s pid with
          abortCount := Function.update (resetTrans s pid).abortCount pid 0
          tmDepth := Function.update (resetTrans s pid).tmDepth pid 0 })
  generalize commitLoopLL pid (resetTrans s pid).permCache
    (0, { resetTrans s pid with
          abortCount := Function.update (resetTrans s pid).abortCount pid 0
          tmDepth := Function.update (resetTrans s pid).tmDepth pid 0 }) = r at hl hn m1 m2 ⊢
  have hperm : (resetTrans s pid).permCache = s.permCache := rfl
  rw [hperm] at hl hn m2
  simp only at m1 m2 hn
  refine ⟨trivial, ?_, ?_, ?_, ?_, ?_⟩
  · rw [hn]; simp
  · intro q hq
    constructor
    · intro hsh
      obtain ⟨c1, e, he, c2, c3, c4⟩ := (m2 q).1 ⟨hq, hsh⟩
      refine ⟨?_, e, he, c2, c3, ?_⟩
      · simp only [setState, Function.update_noteq hq]
        rw [c1]
      · simpa [setState] using c4
    · intro hsh
      obtain ⟨c1, c2⟩ := (m2 q).2 (fun h => hsh h.2)
      constructor
      · simp only [setState, Function.update_noteq hq]
        rw [c1]
        simp [resetTrans, Function.update_noteq hq]
      · simp only [setState]
        rw [c2]
        simp [resetTrans]
  · simpa [setState] using hl
  · simp [setState]
  · simp [setState]

/-- Witness of C7: process 0 publishes a line that process 1 has read. -/
theorem commitLL_finalize_witness :
    (commitLL (run lazyInit [Op.begin 0 ⟨0, 0⟩ 10, Op.begin 1 ⟨0, 0⟩ 20, Op.read 0 0 512,
      Op.read 1 0 512, Op.write 0 0 512, Op.commit 0 0 30]) 0 0 40).1.ret = GCMRet.SUCCESS ∧
    (commitLL (run lazyInit [Op.begin 0 ⟨0, 0⟩ 10, Op.begin 1 ⟨0, 0⟩ 20, Op.read 0 0 512,
      Op.read 1 0 512, Op.write 0 0 512, Op.commit 0 0 30]) 0 0 40).1.writeSetSize = some 1 ∧
    ((commitLL (run lazyInit [Op.begin 0 ⟨0, 0⟩ 10, Op.begin 1 ⟨0, 0⟩ 20, Op.read 0 0 512,
      Op.read 1 0 512, Op.write 0 0 512, Op.commit 0 0 30]) 0 0 40).2.transState 1).state =
      condition.DOABORT ∧
    (commitLL (run lazyInit [Op.begin 0 ⟨0, 0⟩ 10, Op.begin 1 ⟨0, 0⟩ 20, Op.read 0 0 512,
      Op.read 1 0 512, Op.write 0 0 512, Op.commit 0 0 30]) 0 0 40).2.abortReason 1 = (0, 512) :=
  have h := commitLL_finalize (run lazyInit [Op.begin 0 ⟨0, 0⟩ 10, Op.begin 1 ⟨0, 0⟩ 20,
    Op.read 0 0 512, Op.read 1 0 512, Op.write 0 0 512, Op.commit 0 0 30]) 0 0 40
    (by decide) (by decide)
  ⟨h.1, h.2.1.trans (by decide), by decide, by decide⟩

/-! ## Lazy reads and writes -/

/-- C8. Forced abort is observed: in a lazy module, when the state of `pid` is
DOABORT, the next `read`, `write` or `commit` by `pid` returns ABORT and leaves
the state of `pid` ABORTING, with the line table, the depth of `pid` and
`currentCommitter` as before; for `commit` whatever the depth is. -/
theorem forced_abort_observed (s : transCoherence) (hm : s.methods = Policy.LL) (pid : Nat)
    (tid : Int) (raddr globalClock : Nat)
    (hs : (s.transState pid).state = condition.DOABORT) :
    (read s pid tid raddr).1 = GCMRet.ABORT ∧
    (write s pid tid raddr).1 = GCMRet.ABORT ∧
    (commit s pid tid globalClock).1.ret = GCMRet.ABORT ∧
    ∀ t, (t = (read s pid tid raddr).2 ∨ t = (write s pid tid raddr).2 ∨
        t = (commit s pid tid globalClock).2) →
      (t.transState pid).state = condition.ABORTING ∧ t.permCache = s.permCache ∧
      t.tmDepth pid = s.tmDepth pid ∧ t.currentCommitter = s.currentCommitter := by
  have hr : read s pid tid raddr = (GCMRet.ABORT, setState s pid condition.ABORTING) := by
    simp only [read, hm]
    unfold readLL
    simp only
    rw [if_pos hs]
  have hw : write s pid tid raddr = (GCMRet.ABORT, setState s pid condition.ABORTING) := by
    simp only [write, hm]
    unfold writeLL
    simp only
    rw [if_pos hs]
  have hc : commit s pid tid globalClock =
      ({ ret := GCMRet.ABORT, BCFlag := some 0 }, setState s pid condition.ABORTING) := by
    simp only [commit, hm]
    unfold commitLL
    rw [if_pos hs]
  rw [hr, hw, hc]
  refine ⟨rfl, rfl, rfl, ?_⟩
  intro t ht
  have : t = setState s pid condition.ABORTING := by
    rcases ht with h | h | h <;> exact h
  subst this
  simp [setState]

/-- Witness of C8: process 1, nested twice, has been ordered to abort by the
commit of process 0. -/
theorem forced_abort_observed_witness :
    ((run lazyInit [Op.begin 0 ⟨0, 0⟩ 10, Op.begin 1 ⟨0, 0⟩ 20, Op.begin 1 ⟨4, 0⟩ 21,
      Op.read 1 0 512, Op.write 0 0 512, Op.commit 0 0 30, Op.commit 0 0 40]).transState 1).state =
      condition.DOABORT ∧
    (run lazyInit [Op.begin 0 ⟨0, 0⟩ 10, Op.begin 1 ⟨0, 0⟩ 20, Op.begin 1 ⟨4, 0⟩ 21,
      Op.read 1 0 512, Op.write 0 0 512, Op.commit 0 0 30, Op.commit 0 0 40]).tmDepth 1 = 2 ∧
    (commit (run lazyInit [Op.begin 0 ⟨0, 0⟩ 10, Op.begin 1 ⟨0, 0⟩ 20, Op.begin 1 ⟨4, 0⟩ 21,
      Op.read 1 0 512, Op.write 0 0 512, Op.commit 0 0 30, Op.commit 0 0 40]) 1 0 50).1.ret =
      GCMRet.ABORT :=
  ⟨by decide, by decide,
    (forced_abort_observed (run lazyInit [Op.begin 0 ⟨0, 0⟩ 10, Op.begin 1 ⟨0, 0⟩ 20,
      Op.begin 1 ⟨4, 0⟩ 21, Op.read 1 0 512, Op.write 0 0 512, Op.commit 0 0 30, Op.commit 0 0 40])
      (by decide) 1 0 512 50 (by decide)).2.2.1⟩

/-- C9. Lazy accesses never stall: when the state of `pid` is not DOABORT,
`readLL` (`writeLL`) returns SUCCESS whoever reads or writes the line; it adds
`pid` to the readers (writers) of the line of `raddr`, leaves the writers
(readers) of that line and every other line as they are, and sets the state of
`pid` to RUNNING. -/
theorem lazy_access_never_stalls (s : transCoherence) (pid : Nat) (tid : Int) (raddr : Nat)
    (hs : (s.transState pid).state ≠ condition.DOABORT) :
    ((readLL s pid tid raddr).1 = GCMRet.SUCCESS ∧
      readersOf (readLL s pid tid raddr).2 (addrToCacheLine s raddr) =
        setInsert pid (readersOf s (addrToCacheLine s raddr)) ∧
      (∀ q, q ∈ readersOf (readLL s pid tid raddr).2 (addrToCacheLine s raddr) ↔
        q = pid ∨ q ∈ readersOf s (addrToCacheLine s raddr)) ∧
      writersOf (readLL s pid tid raddr).2 (addrToCacheLine s raddr) =
        writersOf s (addrToCacheLine s raddr) ∧
      (∀ a, a ≠ addrToCacheLine s raddr →
        mapFind a (readLL s pid tid raddr).2.permCache = mapFind a s.permCache) ∧
      ((readLL s pid tid raddr).2.transState pid).state = condition.RUNNING) ∧
    ((writeLL s pid tid raddr).1 = GCMRet.SUCCESS ∧
      writersOf (writeLL s pid tid raddr).2 (addrToCacheLine s raddr) =
        setInsert pid (writersOf s (addrToCacheLine s raddr)) ∧
      (∀ q, q ∈ writersOf (writeLL s pid tid raddr).2 (addrToCacheLine s raddr) ↔
        q = pid ∨ q ∈ writersOf s (addrToCacheLine s raddr)) ∧
      readersOf (writeLL s pid tid raddr).2 (addrToCacheLine s raddr) =
        readersOf s (addrToCacheLine s raddr) ∧
      (∀ a, a ≠ addrToCacheLine s raddr →
        mapFind a (writeLL s pid tid raddr).2.permCache = mapFind a s.permCache) ∧
      ((writeLL s pid tid raddr).2.transState pid).state = condition.RUNNING) := by
  constructor
  · unfold readLL readersOf writersOf
    simp only
    rw [if_neg hs]
    split
    · rename_i per hper
      simp only [hper]
      refine ⟨trivial, by simp [setState, mapFind_mapSet_self], ?_,
        by simp [setState, mapFind_mapSet_self], ?_, by simp [setState]⟩
      · intro q; simp [setState, mapFind_mapSet_self, mem_setInsert]
      · intro a ha; simp [setState, mapFind_mapSet_ne _ _ _ _ ha]
    · rename_i hnone
      simp only [hnone]
      refine ⟨trivial, by simp [setState, mapFind_mapSet_self, newReadState], ?_,
        by simp [setState, mapFind_mapSet_self, newReadState], ?_, by simp [setState]⟩
      · intro q; simp [setState, mapFind_mapSet_self, newReadState, mem_setInsert]
      · intro a ha; simp [setState, mapFind_mapSet_ne _ _ _ _ ha]
  · unfold writeLL readersOf writersOf
    simp only
    rw [if_neg hs]
    split
    · rename_i per hper
      simp only [hper]
      refine ⟨trivial, by simp [setState, mapFind_mapSet_self], ?_,
        by simp [setState, mapFind_mapSet_self], ?_, by simp [setState]⟩
      · intro q; simp [setState, mapFind_mapSet_self, mem_setInsert]
      · intro a ha; simp [setState, mapFind_mapSet_ne _ _ _ _ ha]
    · rename_i hnone
      simp only [hnone]
      refine ⟨trivial, by simp [setState, mapFind_mapSet_self, newWriteState], ?_,
        by simp [setState, mapFind_mapSet_self, newWriteState], ?_, by simp [setState]⟩
      · intro q; simp [setState, mapFind_mapSet_self, newWriteState, mem_setInsert]
      · intro a ha; simp [setState, mapFind_mapSet_ne _ _ _ _ ha]

/-- Witness of C9: process 1 writes a line that process 0 has read and written. -/
theorem lazy_access_never_stalls_witness :
    (writeLL (run lazyInit [Op.begin 0 ⟨0, 0⟩ 10, Op.begin 1 ⟨0, 0⟩ 20, Op.read 0 0 512,
      Op.write 0 0 512]) 1 0 512).1 = GCMRet.SUCCESS ∧
    writersOf (writeLL (run lazyInit [Op.begin 0 ⟨0, 0⟩ 10, Op.begin 1 ⟨0, 0⟩ 20, Op.read 0 0 512,
      Op.write 0 0 512]) 1 0 512).2 512 = [0, 1] :=
  have h := lazy_access_never_stalls (run lazyInit [Op.begin 0 ⟨0, 0⟩ 10, Op.begin 1 ⟨0, 0⟩ 20,
    Op.read 0 0 512, Op.write 0 0 512]) 1 0 512 (by decide)
  ⟨h.2.1, by decide⟩

/-! ## Release of the speculative cache on commit -/

theorem asUnsigned_lt (v : Int) : asUnsigned v < 4294967296 := by
  unfold asUnsigned
  have h1 : 0 ≤ v % 2 ^ 32 := Int.emod_nonneg _ (by norm_num)
  have h2 : v % 2 ^ 32 < 2 ^ 32 := Int.emod_lt_of_pos _ (by norm_num)
  omega

theorem storeWord32_outside (memory : Nat → Nat) (addr : Nat) (value : Int) (b : Nat)
    (h : b < addr ∨ addr + 4 ≤ b) : storeWord32 memory addr value b = memory b := by
  unfold storeWord32
  rw [if_neg (by omega)]

theorem loadWord32_storeWord32 (memory : Nat → Nat) (addr : Nat) (value : Int) :
    loadWord32 (storeWord32 memory addr value) addr = asUnsigned value := by
  have hlt := asUnsigned_lt value
  unfold loadWord32 storeWord32
  rw [if_pos (by omega), if_pos (by omega), if_pos (by omega), if_pos (by omega)]
  have e0 : addr - addr = 0 := by omega
  have e1 : addr + 1 - addr = 1 := by omega
  have e2 : addr + 2 - addr = 2 := by omega
  have e3 : addr + 3 - addr = 3 := by omega
  rw [e0, e1, e2, e3]
  norm_num
  omega

/-- The word at `addr` only depends on the four bytes from `addr` on. -/
theorem loadWord32_congr (m1 m2 : Nat → Nat) (addr : Nat)
    (h : ∀ b, addr ≤ b → b < addr + 4 → m1 b = m2 b) : loadWord32 m1 addr = loadWord32 m2 addr := by
  unfold loadWord32
  rw [h addr (by omega) (by omega), h (addr + 1) (by omega) (by omega),
    h (addr + 2) (by omega) (by omega), h (addr + 3) (by omega) (by omega)]

theorem releaseCache_outside (memMap : List (Nat × Int)) (memory : Nat → Nat) (b : Nat)
    (h : ∀ e ∈ memMap, b < e.1 ∨ e.1 + 4 ≤ b) : releaseCache memMap memory b = memory b := by
  induction memMap generalizing memory with
  | nil => rfl
  | cons e rest ih =>
    simp only [releaseCache, List.foldl_cons]
    have := ih (storeWord32 memory e.1 e.2) (fun e1 he1 => h e1 (List.mem_cons_of_mem _ he1))
    simp only [releaseCache] at this
    rw [this]
    exact storeWord32_outside memory e.1 e.2 b (h e (by simp))

theorem releaseCache_entry (memMap : List (Nat × Int)) (memory : Nat → Nat)
    (hsorted : (memMap.map Prod.fst).Pairwise (· < ·)) (halign : ∀ e ∈ memMap, e.1 % 4 = 0) :
    ∀ e ∈ memMap, loadWord32 (releaseCache memMap memory) e.1 = asUnsigned e.2 := by
  induction memMap generalizing memory with
  | nil => simp
  | cons e0 rest ih =>
    intro e he
    simp only [List.map_cons, List.pairwise_cons] at hsorted
    obtain ⟨hlt, hrest⟩ := hsorted
    have hal0 := halign e0 (by simp)
    have hstep : releaseCache (e0 :: rest) memory = releaseCache rest (storeWord32 memory e0.1 e0.2) := by
      simp [releaseCache]
    rw [hstep]
    rcases List.mem_cons.mp he with h | h
    · subst h
      rw [loadWord32_congr _ (storeWord32 memory e.1 e.2) e.1, loadWord32_storeWord32]
      intro b hb1 hb2
      apply releaseCache_outside
      intro e1 he1
      have h1 := hlt e1.1 (List.mem_map_of_mem _ he1)
      have h2 := halign e1 (List.mem_cons_of_mem _ he1)
      omega
    · exact ih _ hrest (fun e1 he1 => halign e1 (List.mem_cons_of_mem _ he1)) e h

/-- The memory after a `commitTransaction` whose call to the module's commit
returned SUCCESS. -/
theorem commitTransaction_memory (debugBuild : Bool) (ctx : transactionContext) (w : World)
    (picode : icode) (globalClock : Nat) (draw : Int)
    (hS : (commit w.transGCM ctx.pid ctx.tid globalClock).1.ret = GCMRet.SUCCESS) :
    (commitTransaction debugBuild ctx w picode globalClock draw).1.memory =
      if debugBuild = true ∧ w.thread.tmDebug ≠ 0 then w.memory
      else releaseCache ctx.memMap w.memory := by
  unfold commitTransaction
  simp only [hS]
  rw [if_neg (by decide), if_neg (by decide), if_neg (by decide), if_neg (by decide)]

/-- Counterexample to C10 as stated: in a debug build, with `tmDebug` set on the
thread, the module's commit returns SUCCESS and `commitTransaction` leaves the
word at 0x400 at 0, although the speculative cache holds 7 for it. -/
theorem commit_visibility_counterexample :
    (commit (sampleWorld 1).transGCM sampleContext.pid sampleContext.tid 40).1.ret = GCMRet.SUCCESS ∧
    (1024, 7) ∈ sampleContext.memMap ∧
    loadWord32 (commitTransaction true sampleContext (sampleWorld 1) ⟨8, 0⟩ 40 0).1.memory 1024 = 0 ∧
    asUnsigned 7 = 7 := by
  decide

/-- C10, amended. Whenever the module's commit called by `commitTransaction`
returns SUCCESS, and the build is not a debug build or `tmDebug` is 0 on the
thread, then for a speculative cache with word-aligned keys: afterwards the
word of real memory at `addr` holds `v` for every entry `(addr, v)` of the
cache, the word at every word-aligned address that is not in the cache is as
before, and so is every byte outside the words of the cache. -/
theorem commit_write_visibility (debugBuild : Bool) (ctx : transactionContext) (w : World)
    (picode : icode) (globalClock : Nat) (draw : Int)
    (hS : (commit w.transGCM ctx.pid ctx.tid globalClock).1.ret = GCMRet.SUCCESS)
    (hdbg : debugBuild = false ∨ w.thread.tmDebug = 0)
    (hsorted : (ctx.memMap.map Prod.fst).Pairwise (· < ·))
    (halign : ∀ e ∈ ctx.memMap, e.1 % 4 = 0) :
    (∀ e ∈ ctx.memMap,
      loadWord32 (commitTransaction debugBuild ctx w picode globalClock draw).1.memory e.1 =
        asUnsigned e.2) ∧
    (∀ a, a % 4 = 0 → (∀ e ∈ ctx.memMap, e.1 ≠ a) →
      loadWord32 (commitTransaction debugBuild ctx w picode globalClock draw).1.memory a =
        loadWord32 w.memory a) ∧
    (∀ b, (∀ e ∈ ctx.memMap, b < e.1 ∨ e.1 + 4 ≤ b) →
      (commitTransaction debugBuild ctx w picode globalClock draw).1.memory b = w.memory b) := by
  rw [commitTransaction_memory debugBuild ctx w picode globalClock draw hS]
  have hno : ¬ (debugBuild = true ∧ w.thread.tmDebug ≠ 0) := by
    rintro ⟨h1, h2⟩
    rcases hdbg with h | h
    · rw [h] at h1; exact Bool.false_ne_true h1
    · exact h2 h
  rw [if_neg hno]
  refine ⟨releaseCache_entry ctx.memMap w.memory hsorted halign, ?_, ?_⟩
  · intro a ha hne
    apply loadWord32_congr
    intro b hb1 hb2
    apply releaseCache_outside
    intro e he
    have h1 := halign e he
    have h2 := hne e he
    omega
  · intro b hb
    exact releaseCache_outside ctx.memMap w.memory b hb

/-- Witness of the amended C10: the commit of the counterexample with `tmDebug`
at 0. -/
theorem commit_write_visibility_witness :
    (commit (sampleWorld 0).transGCM sampleContext.pid sampleContext.tid 40).1.ret = GCMRet.SUCCESS ∧
    loadWord32 (commitTransaction true sampleContext (sampleWorld 0) ⟨8, 0⟩ 40 0).1.memory 1024 =
      asUnsigned 7 :=
  ⟨by decide,
    (commit_write_visibility true sampleContext (sampleWorld 0) ⟨8, 0⟩ 40 0 (by decide)
      (Or.inr rfl) (by simp [sampleContext]) (by simp [sampleContext])).1 (1024, 7)
      (by simp [sampleContext])⟩

/-! ## Counting the write set -/

theorem count_of_sorted (p : Nat) (l : List Nat) (h : l.Pairwise (· < ·)) :
    (l.count p : Int) = if p ∈ l then 1 else 0 := by
  have hnd : l.Nodup := h.imp (fun hab => Nat.ne_of_lt hab)
  split_ifs with hp
  · rw [List.count_eq_one_of_mem hnd hp]; rfl
  · rw [List.count_eq_zero_of_not_mem hp]; rfl

theorem foldl_count_eq (pid : Nat) (m : List (Nat × cacheState)) (a : Int)
    (h : ∀ e ∈ m, e.2.writers.Pairwise (· < ·)) :
    m.foldl (fun acc e => acc + (e.2.writers.count pid : Int)) a =
      a + ((m.filter (fun e => decide (pid ∈ e.2.writers))).length : Int) := by
  induction m generalizing a with
  | nil => simp
  | cons e rest ih =>
    simp only [List.foldl_cons]
    rw [ih _ (fun e1 he1 => h e1 (List.mem_cons_of_mem _ he1)),
      count_of_sorted pid _ (h e (by simp))]
    by_cases hp : pid ∈ e.2.writers
    · simp [List.filter_cons, hp]; ring
    · simp [List.filter_cons, hp]

theorem countWrites_eq (pid : Nat) (s : transCoherence) (h : SetsWF s) :
    countWrites pid s.permCache =
      ((s.permCache.filter (fun e => decide (pid ∈ e.2.writers))).length : Int) := by
  unfold countWrites
  rw [foldl_count_eq pid _ 0 (fun e he => (h e he).2)]
  simp

/-! ## Abort and the real memory -/

theorem abortTransaction_memory (ctx : transactionContext) (w : World) (globalClock : Nat)
    (draw : Int) : (abortTransaction ctx w globalClock draw).1.memory = w.memory := by
  unfold abortTransaction
  simp only
  split_ifs <;> rfl

/-- C11. Write invisibility on abort: `abortTransaction` leaves real memory as it
was, whatever the speculative cache of the context holds; and so does
`commitTransaction` when the module's commit returns COMMIT_DELAY, NACK, IGNORE
or ABORT. -/
theorem abort_write_invisibility (debugBuild : Bool) (ctx : transactionContext) (w : World)
    (picode : icode) (globalClock : Nat) (draw : Int) :
    (abortTransaction ctx w globalClock draw).1.memory = w.memory ∧
    (((commit w.transGCM ctx.pid ctx.tid globalClock).1.ret = GCMRet.COMMIT_DELAY ∨
      (commit w.transGCM ctx.pid ctx.tid globalClock).1.ret = GCMRet.NACK ∨
      (commit w.transGCM ctx.pid ctx.tid globalClock).1.ret = GCMRet.IGNORE ∨
      (commit w.transGCM ctx.pid ctx.tid globalClock).1.ret = GCMRet.ABORT) →
      (commitTransaction debugBuild ctx w picode globalClock draw).1.memory = w.memory) := by
  refine ⟨abortTransaction_memory ctx w globalClock draw, ?_⟩
  intro h
  unfold commitTransaction
  simp only
  rcases h with h | h | h | h
  · rw [if_pos h]; rfl
  · rw [h, if_neg (by decide), if_neg (by decide), if_pos rfl]; rfl
  · rw [h, if_neg (by decide), if_pos rfl]
  · rw [h, if_neg (by decide), if_neg (by decide), if_neg (by decide), if_pos rfl]
    exact abortTransaction_memory _ _ _ _

/-- Witness of C11: a first commit, answered COMMIT_DELAY, with the word 7 for
0x400 in the cache. -/
theorem abort_write_invisibility_witness :
    (commit ({ sampleWorld 0 with transGCM := run eagerInit [Op.begin 0 ⟨0, 0⟩ 10, Op.write 0 0 1024] } :
      World).transGCM sampleContext.pid sampleContext.tid 40).1.ret = GCMRet.COMMIT_DELAY ∧
    (commitTransaction false sampleContext
      { sampleWorld 0 with transGCM := run eagerInit [Op.begin 0 ⟨0, 0⟩ 10, Op.write 0 0 1024] }
      ⟨8, 0⟩ 40 0).1.memory = (sampleWorld 0).memory :=
  ⟨by decide,
    (abort_write_invisibility false sampleContext
      { sampleWorld 0 with transGCM := run eagerInit [Op.begin 0 ⟨0, 0⟩ 10, Op.write 0 0 1024] }
      ⟨8, 0⟩ 40 0).2 (Or.inl (by decide))⟩

/-! ## Eager begin, commit and abort -/

/-- C17. Fresh eager begin: `beginEE` by `pid` with depth 0 and state neither
ABORTING nor ABORTED returns SUCCESS with the tuid the global counter had, and
adds one to the counter; the record of `pid` gets timestamp `globalClock`,
begin PC `picode.addr`, cycle flag false, state RUNNING and that utid; the depth
is 1; BCFlag is 1 if `abortCount[pid] > 0` and 0 otherwise; the line table, the
abort counters and reasons, and the record and depth of every other process are
as before. -/
theorem beginEE_fresh (s : transCoherence) (pid : Nat) (picode : icode) (globalClock : Nat)
    (hd : s.tmDepth pid = 0) (h1 : (s.transState pid).state ≠ condition.ABORTING)
    (h2 : (s.transState pid).state ≠ condition.ABORTED) :
    (beginEE s pid picode globalClock).1.ret = GCMRet.SUCCESS ∧
    (beginEE s pid picode globalClock).1.tuid = some s.utid ∧
    (beginEE s pid picode globalClock).2.utid = s.utid + 1 ∧
    (beginEE s pid picode globalClock).2.transState pid =
      { timestamp := globalClock, cycleFlag := false, state := condition.RUNNING,
        beginPC := picode.addr, utid := s.utid } ∧
    (beginEE s pid picode globalClock).2.tmDepth pid = 1 ∧
    (beginEE s pid picode globalClock).1.BCFlag = some (if s.abortCount pid > 0 then 1 else 0) ∧
    (beginEE s pid picode globalClock).2.permCache = s.permCache ∧
    (beginEE s pid picode globalClock).2.abortCount = s.abortCount ∧
    (beginEE s pid picode globalClock).2.abortReason = s.abortReason ∧
    ∀ q, q ≠ pid →
      (beginEE s pid picode globalClock).2.transState q = s.transState q ∧
      (beginEE s pid picode globalClock).2.tmDepth q = s.tmDepth q := by
  unfold beginEE
  simp only
  rw [if_neg (by omega), if_neg h1, if_neg h2]
  refine ⟨rfl, rfl, rfl, by simp, by simp [hd], rfl, rfl, rfl, rfl, ?_⟩
  intro q hq
  simp [Function.update_noteq hq]

/-- Witness of C17: the first begin of process 0 in a new eager module. -/
theorem beginEE_fresh_witness :
    (eagerInit.tmDepth 0 = 0 ∧ (eagerInit.transState 0).state = condition.INVALID) ∧
    (beginEE eagerInit 0 ⟨64, 0⟩ 10).1.ret = GCMRet.SUCCESS ∧
    (beginEE eagerInit 0 ⟨64, 0⟩ 10).1.tuid = some 0 ∧
    (beginEE eagerInit 0 ⟨64, 0⟩ 10).2.utid = 1 :=
  have h := beginEE_fresh eagerInit 0 ⟨64, 0⟩ 10 (by decide) (by decide) (by decide)
  ⟨by decide, h.1, h.2.1, h.2.2.1⟩

/-- What the final loop of `commitEE` and the loop of `beginEE` do to the lines. -/
theorem eraseEverywhere_forall2 (pid : Nat) (m : List (Nat × cacheState)) :
    List.Forall₂
      (fun e e1 => e1.1 = e.1 ∧ e1.2.state = e.2.state ∧
        (∀ q, q ∈ e1.2.readers ↔ q ∈ e.2.readers ∧ q ≠ pid) ∧
        (∀ q, q ∈ e1.2.writers ↔ q ∈ e.2.writers ∧ q ≠ pid))
      m (eraseEverywhere pid m) := by
  induction m with
  | nil => exact List.Forall₂.nil
  | cons e rest ih =>
    refine List.Forall₂.cons ⟨rfl, rfl, ?_, ?_⟩ ih
    · intro q; exact mem_setErase pid q _
    · intro q; exact mem_setErase pid q _

theorem eraseEverywhere_not_mem (pid : Nat) (m : List (Nat × cacheState)) :
    ∀ e ∈ eraseEverywhere pid m, pid ∉ e.2.readers ∧ pid ∉ e.2.writers := by
  intro e he
  simp only [eraseEverywhere, List.mem_map] at he
  obtain ⟨e0, _, rfl⟩ := he
  simp [mem_setErase]

/-- The final branch of `commitEE`: result code and write set size. -/
theorem commitEE_second (s : transCoherence) (hwf : SetsWF s) (pid : Nat) (tid : Int)
    (globalClock : Nat) (hd : s.tmDepth pid ≤ 1)
    (hs : (s.transState pid).state = condition.COMMITTING) :
    (commitEE s pid tid globalClock).1.ret = GCMRet.SUCCESS ∧
    (commitEE s pid tid globalClock).1.writeSetSize =
      some ((s.permCache.filter (fun e => decide (pid ∈ e.2.writers))).length : Int) := by
  have hn := countWrites_eq pid s hwf
  unfold countWrites at hn
  unfold commitEE
  simp only
  rw [if_neg (by omega), if_pos hs]
  refine ⟨rfl, ?_⟩
  simp only [commitEraseEE, resetTrans]
  rw [hn]

/-- C19. Eager commit finalize: `commitEE` by `pid` with depth at most 1 and state
COMMITTING returns SUCCESS with `writeSetSize` the number of lines whose writers
held `pid`. The line table keeps every entry, in order, with its marker;
`pid` is in no readers or writers afterwards and the memberships of every
other process are as before. The record of `pid` has the timestamp
`~0ULL - 1024`, begin PC 0, cycle flag false, state COMMITTED and its utid
unchanged; `abortCount[pid]` and the depth are 0. -/
theorem commitEE_finalize (s : transCoherence) (hwf : SetsWF s) (pid : Nat) (tid : Int)
    (globalClock : Nat) (hd : s.tmDepth pid ≤ 1)
    (hs : (s.transState pid).state = condition.COMMITTING) :
    (commitEE s pid tid globalClock).1.ret = GCMRet.SUCCESS ∧
    (commitEE s pid tid globalClock).1.writeSetSize =
      some ((s.permCache.filter (fun e => decide (pid ∈ e.2.writers))).length : Int) ∧
    List.Forall₂
      (fun e e1 => e1.1 = e.1 ∧ e1.2.state = e.2.state ∧
        (∀ q, q ∈ e1.2.readers ↔ q ∈ e.2.readers ∧ q ≠ pid) ∧
        (∀ q, q ∈ e1.2.writers ↔ q ∈ e.2.writers ∧ q ≠ pid))
      s.permCache (commitEE s pid tid globalClock).2.permCache ∧
    (∀ e ∈ (commitEE s pid tid globalClock).2.permCache,
      pid ∉ e.2.readers ∧ pid ∉ e.2.writers) ∧
    (commitEE s pid tid globalClock).2.transState pid =
      { timestamp := noTimestamp, cycleFlag := false, state := condition.COMMITTED, beginPC := 0,
        utid := (s.transState pid).utid } ∧
    (commitEE s pid tid globalClock).2.abortCount pid = 0 ∧
    (commitEE s pid tid globalClock).2.tmDepth pid = 0 ∧
    (commitEE s pid tid globalClock).1.tuid = some (s.transState pid).utid := by
  have hn := countWrites_eq pid s hwf
  unfold countWrites at hn
  unfold commitEE
  simp only
  rw [if_neg (by omega), if_pos hs]
  refine ⟨rfl, ?_, ?_, ?_, ?_, ?_, ?_, ?_⟩
  · simp only [commitEraseEE, resetTrans]
    rw [hn]
  · simpa [setState, commitEraseEE, resetTrans] using eraseEverywhere_forall2 pid s.permCache
  · simpa [setState, commitEraseEE, resetTrans] using eraseEverywhere_not_mem pid s.permCache
  · simp [setState, resetTrans]
  · simp [setState, resetTrans]
  · simp [setState, resetTrans]
  · simp [setState, resetTrans]

/-- Witness of C19: process 0 commits one written line. -/
theorem commitEE_finalize_witness :
    SetsWF (run eagerInit [Op.begin 0 ⟨0, 0⟩ 10, Op.write 0 0 1024, Op.commit 0 0 30]) ∧
    (commitEE (run eagerInit [Op.begin 0 ⟨0, 0⟩ 10, Op.write 0 0 1024, Op.commit 0 0 30])
      0 0 40).1.ret = GCMRet.SUCCESS ∧
    (commitEE (run eagerInit [Op.begin 0 ⟨0, 0⟩ 10, Op.write 0 0 1024, Op.commit 0 0 30])
      0 0 40).1.writeSetSize = some 1 :=
  have hwf := setsWF_run rawZero eagerInit 1 1 64 rfl
    [Op.begin 0 ⟨0, 0⟩ 10, Op.write 0 0 1024, Op.commit 0 0 30]
  have h := commitEE_finalize _ hwf 0 0 40 (by decide) (by decide)
  ⟨hwf, h.1, h.2.1.trans (by decide)⟩

/-- C18. Two-phase eager commit: `commitEE` by `pid` with depth at most 1 and
state other than COMMITTING returns COMMIT_DELAY with `writeSetSize` the number
of lines whose writers hold `pid`, sets the state of `pid` to COMMITTING and
leaves the line table, every depth and every timestamp as they were; called
again right away it returns SUCCESS with the same `writeSetSize`. -/
theorem commitEE_two_phase (s : transCoherence) (hwf : SetsWF s) (pid : Nat) (tid tid2 : Int)
    (globalClock globalClock2 : Nat) (hd : s.tmDepth pid ≤ 1)
    (hs : (s.transState pid).state ≠ condition.COMMITTING) :
    (commitEE s pid tid globalClock).1.ret = GCMRet.COMMIT_DELAY ∧
    (commitEE s pid tid globalClock).1.writeSetSize =
      some ((s.permCache.filter (fun e => decide (pid ∈ e.2.writers))).length : Int) ∧
    ((commitEE s pid tid globalClock).2.transState pid).state = condition.COMMITTING ∧
    (commitEE s pid tid globalClock).2.permCache = s.permCache ∧
    (commitEE s pid tid globalClock).2.tmDepth = s.tmDepth ∧
    (∀ q, ((commitEE s pid tid globalClock).2.transState q).timestamp =
      (s.transState q).timestamp) ∧
    (commitEE (commitEE s pid tid globalClock).2 pid tid2 globalClock2).1.ret = GCMRet.SUCCESS ∧
    (commitEE (commitEE s pid tid globalClock).2 pid tid2 globalClock2).1.writeSetSize =
      (commitEE s pid tid globalClock).1.writeSetSize := by
  have hn := countWrites_eq pid s hwf
  have hfirst : commitEE s pid tid globalClock =
      ({ ret := GCMRet.COMMIT_DELAY, BCFlag := some 0,
         writeSetSize := some (countWrites pid s.permCache),
         tuid := some ((setState s pid condition.COMMITTING).transState pid).utid },
        setState s pid condition.COMMITTING) := by
    unfold commitEE
    simp only
    rw [if_neg (by omega), if_neg hs]
  have hwf2 : SetsWF (setState s pid condition.COMMITTING) := hwf
  have hsec := commitEE_second (setState s pid condition.COMMITTING) hwf2 pid tid2 globalClock2
    (by simpa [setState] using hd) (by simp [setState])
  rw [hfirst]
  refine ⟨rfl, ?_, by simp [setState], rfl, rfl, ?_, hsec.1, ?_⟩
  · simp only; rw [hn]
  · intro q
    simp only [setState]
    by_cases hq : q = pid
    · subst hq; simp
    · simp [Function.update_noteq hq]
  · rw [hsec.2]
    simp only [setState]
    rw [hn]

/-- Witness of C18: process 0 commits one written line in two calls. -/
theorem commitEE_two_phase_witness :
    SetsWF (run eagerInit [Op.begin 0 ⟨0, 0⟩ 10, Op.write 0 0 1024]) ∧
    (commitEE (run eagerInit [Op.begin 0 ⟨0, 0⟩ 10, Op.write 0 0 1024]) 0 0 30).1.ret =
      GCMRet.COMMIT_DELAY ∧
    (commitEE (run eagerInit [Op.begin 0 ⟨0, 0⟩ 10, Op.write 0 0 1024]) 0 0 30).1.writeSetSize =
      some 1 ∧
    (commitEE (commitEE (run eagerInit [Op.begin 0 ⟨0, 0⟩ 10, Op.write 0 0 1024]) 0 0 30).2
      0 0 40).1.ret = GCMRet.SUCCESS :=
  have hwf := setsWF_run rawZero eagerInit 1 1 64 rfl [Op.begin 0 ⟨0, 0⟩ 10, Op.write 0 0 1024]
  have h := commitEE_two_phase _ hwf 0 0 0 30 40 (by decide) (by decide)
  ⟨hwf, h.1, h.2.1.trans (by decide), h.2.2.2.2.2.2.1⟩

/-- C20. Abort postcondition: under either policy `abort` for `pid` returns
SUCCESS; the record of `pid` gets the timestamp `~0ULL - 1024`, begin PC 0,
cycle flag false and state ABORTING (its utid stays); the depth of `pid` is 0
whatever it was; the line table and the abort counters are as before; the
`writeSetSize` reported is the number of lines whose writers hold `pid` under
the eager methods and 0 under the lazy ones. -/
theorem abort_postcondition (s : transCoherence) (hwf : SetsWF s) (pid : Nat) (tid : Int)
    (globalClock : Nat) :
    (abort s pid tid globalClock).1.ret = GCMRet.SUCCESS ∧
    (abort s pid tid globalClock).2.transState pid =
      { timestamp := noTimestamp, cycleFlag := false, state := condition.ABORTING, beginPC := 0,
        utid := (s.transState pid).utid } ∧
    (abort s pid tid globalClock).2.tmDepth pid = 0 ∧
    (abort s pid tid globalClock).2.permCache = s.permCache ∧
    (abort s pid tid globalClock).2.abortCount = s.abortCount ∧
    (s.methods = Policy.EE →
      (abort s pid tid globalClock).1.writeSetSize =
        some ((s.permCache.filter (fun e => decide (pid ∈ e.2.writers))).length : Int)) ∧
    (s.methods = Policy.LL → (abort s pid tid globalClock).1.writeSetSize = some 0) := by
  have hn := countWrites_eq pid s hwf
  unfold abort
  cases hm : s.methods
  · simp only
    unfold abortEE
    refine ⟨rfl, by simp [setState, resetTrans], by simp [setState, resetTrans], rfl, rfl, ?_, ?_⟩
    · intro _
      simp only [resetTrans]
      rw [hn]
    · intro h; exact absurd h (by decide)
  · simp only
    unfold abortLL
    refine ⟨rfl, by simp [setState, resetTrans], by simp [setState, resetTrans], rfl, rfl, ?_, ?_⟩
    · intro h; exact absurd h (by decide)
    · intro _; rfl

/-- Witness of C20: process 0 aborts at depth 2 with one written line. -/
theorem abort_postcondition_witness :
    SetsWF (run eagerInit [Op.begin 0 ⟨0, 0⟩ 10, Op.begin 0 ⟨4, 0⟩ 11, Op.write 0 0 1024]) ∧
    (run eagerInit [Op.begin 0 ⟨0, 0⟩ 10, Op.begin 0 ⟨4, 0⟩ 11, Op.write 0 0 1024]).tmDepth 0 = 2 ∧
    (abort (run eagerInit [Op.begin 0 ⟨0, 0⟩ 10, Op.begin 0 ⟨4, 0⟩ 11, Op.write 0 0 1024])
      0 0 40).1.ret = GCMRet.SUCCESS ∧
    (abort (run eagerInit [Op.begin 0 ⟨0, 0⟩ 10, Op.begin 0 ⟨4, 0⟩ 11, Op.write 0 0 1024])
      0 0 40).2.tmDepth 0 = 0 ∧
    (abort (run eagerInit [Op.begin 0 ⟨0, 0⟩ 10, Op.begin 0 ⟨4, 0⟩ 11, Op.write 0 0 1024])
      0 0 40).1.writeSetSize = some 1 :=
  have hwf := setsWF_run rawZero eagerInit 1 1 64 rfl
    [Op.begin 0 ⟨0, 0⟩ 10, Op.begin 0 ⟨4, 0⟩ 11, Op.write 0 0 1024]
  have h := abort_postcondition _ hwf 0 0 40
  ⟨hwf, by decide, h.1, h.2.2.1, (h.2.2.2.2.2.1 (by decide)).trans (by decide)⟩

/-! ## The abort counter is never negative -/

theorem abortCount_nonneg_step (s : transCoherence) (op : Op) (h : ∀ p, 0 ≤ s.abortCount p) :
    ∀ p, 0 ≤ (step s op).abortCount p := by
  have hupd0 : ∀ pid p, 0 ≤ Function.update s.abortCount pid 0 p := by
    intro pid p
    by_cases hp : p = pid
    · subst hp; simp
    · rw [Function.update_noteq hp]; exact h p
  have hupd1 : ∀ pid p, 0 ≤ Function.update s.abortCount pid (s.abortCount pid + 1) p := by
    intro pid p
    by_cases hp : p = pid
    · subst hp; simp; have := h p; omega
    · rw [Function.update_noteq hp]; exact h p
  cases op with
  | read pid tid raddr =>
    simp only [step, read]
    cases s.methods
    · simp only
      unfold readEE
      simp only
      split
      · split_ifs
        · unfold nackOrAbort
          simp only
          split_ifs <;> exact h
        · exact h
      · exact h
    · simp only
      unfold readLL
      simp only
      split_ifs
      · exact h
      · split <;> exact h
  | write pid tid raddr =>
    simp only [step, write]
    cases s.methods
    · simp only
      unfold writeEE
      simp only
      split
      · split_ifs
        · unfold nackOrAbort
          simp only
          split_ifs <;> exact h
        · unfold nackOrAbort
          simp only
          split_ifs <;> exact h
        · exact h
      · exact h
    · simp only
      unfold writeLL
      simp only
      split_ifs
      · exact h
      · split <;> exact h
  | «begin» pid picode clk =>
    simp only [step, begin]
    cases s.methods
    · simp only
      unfold beginEE
      simp only
      split_ifs <;> first
        | exact h
        | exact hupd1 pid
    · simp only
      unfold beginLL
      simp only
      split_ifs <;> first
        | exact h
        | exact hupd1 pid
  | commit pid tid clk =>
    simp only [step, commit]
    cases s.methods
    · simp only
      unfold commitEE
      simp only
      split_ifs <;> first
        | exact h
        | exact hupd0 pid
    · simp only
      by_cases h1 : (s.transState pid).state = condition.DOABORT
      · unfold commitLL; rw [if_pos h1]; exact h
      by_cases h2 : s.tmDepth pid > 1
      · unfold commitLL; rw [if_neg h1, if_pos h2]; exact h
      by_cases h3 : (s.transState pid).state = condition.COMMITTING
      · rw [commitLL_final s pid tid clk h2 h3]
        simp only
        obtain ⟨m1, _⟩ := commitLoopLL_marks pid (resetTrans s pid).permCache
          (0, { resetTrans s pid with
                abortCount := Function.update (resetTrans s pid).abortCount pid 0
                tmDepth := Function.update (resetTrans s pid).tmDepth pid 0 })
        simp only [setState]
        rw [m1]
        exact hupd0 pid
      by_cases h4 : s.currentCommitter ≥ 0
      · unfold commitLL; rw [if_neg h1, if_neg h2, if_neg h3, if_pos h4]; exact h
      · unfold commitLL; rw [if_neg h1, if_neg h2, if_neg h3, if_neg h4]; exact h
  | abort pid tid clk =>
    simp only [step, abort]
    cases s.methods <;> exact h
  | checkAbort pid tid =>
    simp only [step, checkAbort]
    split_ifs <;> exact h
  | stallUntil pid cycles => exact h

/-- In every state reached from a constructed module no abort counter is
negative. -/
theorem abortCount_nonneg_run (raw s0 : transCoherence) (conflicts versioning : Int)
    (cacheLineSize : Nat) (h0 : construct raw conflicts versioning cacheLineSize = some s0)
    (ops : List Op) : ∀ p, 0 ≤ (run s0 ops).abortCount p := by
  have hinit : ∀ p, 0 ≤ s0.abortCount p := by
    unfold construct at h0
    simp only at h0
    split at h0
    · simp at h0
    · simp only [Option.some.injEq] at h0
      subst h0
      intro p
      simp
  clear h0
  induction ops generalizing s0 with
  | nil => exact hinit
  | cons op rest ih => exact ih (step s0 op) (abortCount_nonneg_step s0 op hinit)

/-- C16. Backoff replay under the eager policy: in a state reached from the
constructor's state of an eager module, a begin by `pid` with depth 0 and state
ABORTING returns BACKOFF carrying `abortCount[pid] + 1`, which is the new
`abortCount[pid]`; it removes `pid` from the readers and the writers of every
line and nothing else from them; the record of `pid` only changes its state,
to RUNNING (timestamp and utid stay), the depth stays 0 and the global counter
stays; the begin by `pid` right after it returns SUCCESS with BCFlag 1. When
`abortCount[pid]` was 0, the BACKOFF carries 1. -/
theorem eager_backoff_replay (raw s0 : transCoherence) (conflicts versioning : Int)
    (cacheLineSize : Nat) (hc : conflicts ≠ 0)
    (h0 : construct raw conflicts versioning cacheLineSize = some s0) (ops : List Op)
    (pid : Nat) (picode picode2 : icode) (globalClock globalClock2 : Nat)
    (hd : (run s0 ops).tmDepth pid = 0)
    (hs : ((run s0 ops).transState pid).state = condition.ABORTING) :
    (begin (run s0 ops) pid picode globalClock).1.ret = GCMRet.BACKOFF ∧
    (begin (run s0 ops) pid picode globalClock).1.abortCount =
      some ((run s0 ops).abortCount pid + 1) ∧
    (begin (run s0 ops) pid picode globalClock).2.abortCount pid =
      (run s0 ops).abortCount pid + 1 ∧
    List.Forall₂
      (fun e e1 => e1.1 = e.1 ∧ e1.2.state = e.2.state ∧
        (∀ q, q ∈ e1.2.readers ↔ q ∈ e.2.readers ∧ q ≠ pid) ∧
        (∀ q, q ∈ e1.2.writers ↔ q ∈ e.2.writers ∧ q ≠ pid))
      (run s0 ops).permCache (begin (run s0 ops) pid picode globalClock).2.permCache ∧
    (begin (run s0 ops) pid picode globalClock).2.transState pid =
      { (run s0 ops).transState pid with state := condition.RUNNING } ∧
    (begin (run s0 ops) pid picode globalClock).2.tmDepth pid = 0 ∧
    (begin (run s0 ops) pid picode globalClock).2.utid = (run s0 ops).utid ∧
    (begin (begin (run s0 ops) pid picode globalClock).2 pid picode2 globalClock2).1.ret =
      GCMRet.SUCCESS ∧
    (begin (begin (run s0 ops) pid picode globalClock).2 pid picode2 globalClock2).1.BCFlag =
      some 1 ∧
    ((run s0 ops).abortCount pid = 0 →
      (begin (run s0 ops) pid picode globalClock).1.abortCount = some 1) := by
  have hinv := eagerInv_run ops s0 (eagerInv_construct raw s0 conflicts versioning cacheLineSize hc h0)
  have hac := abortCount_nonneg_run raw s0 conflicts versioning cacheLineSize h0 ops pid
  generalize run s0 ops = s at hinv hac hd hs ⊢
  have hm := hinv.1
  have hfirst : begin s pid picode globalClock =
      ({ ret := GCMRet.BACKOFF, abortCount := some (s.abortCount pid + 1) },
        { s with
          permCache := eraseEverywhere pid s.permCache
          transState := Function.update s.transState pid
            { s.transState pid with state := condition.RUNNING }
          abortCount := Function.update s.abortCount pid (s.abortCount pid + 1)
          cyclesOnBegin := Function.update s.cyclesOnBegin pid globalClock }) := by
    simp only [begin, hm]
    unfold beginEE
    simp only
    rw [if_neg (by omega), if_pos hs]
    simp [setState, hm]
  rw [hfirst]
  refine ⟨rfl, rfl, by simp, eraseEverywhere_forall2 pid s.permCache, by simp, hd, rfl, ?_, ?_, ?_⟩
  · simp only [begin, hm]
    unfold beginEE
    simp only
    rw [if_neg (by omega)]
    simp
  · simp only [begin, hm]
    unfold beginEE
    simp only
    rw [if_neg (by omega)]
    simp
    omega
  · intro h; simp [h]

/-- Witness of C16: process 0 begins again after its first abort. -/
theorem eager_backoff_replay_witness :
    ((run eagerInit [Op.begin 0 ⟨0, 0⟩ 10, Op.write 0 0 1024, Op.abort 0 0 20]).tmDepth 0 = 0 ∧
      ((run eagerInit [Op.begin 0 ⟨0, 0⟩ 10, Op.write 0 0 1024, Op.abort 0 0 20]).transState 0).state =
        condition.ABORTING) ∧
    (begin (run eagerInit [Op.begin 0 ⟨0, 0⟩ 10, Op.write 0 0 1024, Op.abort 0 0 20])
      0 ⟨0, 0⟩ 30).1.ret = GCMRet.BACKOFF ∧
    (begin (run eagerInit [Op.begin 0 ⟨0, 0⟩ 10, Op.write 0 0 1024, Op.abort 0 0 20])
      0 ⟨0, 0⟩ 30).1.abortCount = some 1 :=
  have h := eager_backoff_replay rawZero eagerInit 1 1 64 (by decide) rfl
    [Op.begin 0 ⟨0, 0⟩ 10, Op.write 0 0 1024, Op.abort 0 0 20] 0 ⟨0, 0⟩ ⟨0, 0⟩ 30 40
    (by decide) (by decide)
  ⟨⟨by decide, by decide⟩, h.1, h.2.2.2.2.2.2.2.2.2 (by decide)⟩

/-! ## Conflicting eager accesses -/

theorem nackOrAbort_abort (s : transCoherence) (pid nackPid : Nat)
    (h : (s.transState nackPid).timestamp ≤ (s.transState pid).timestamp ∧
      (s.transState pid).cycleFlag = true) :
    nackOrAbort s pid nackPid = (GCMRet.ABORT, setState s pid condition.ABORTING) := by
  unfold nackOrAbort
  simp only
  rw [if_pos h]

theorem nackOrAbort_nack (s : transCoherence) (pid nackPid : Nat)
    (h : ¬ ((s.transState nackPid).timestamp ≤ (s.transState pid).timestamp ∧
      (s.transState pid).cycleFlag = true)) :
    nackOutcome s pid nackPid (nackOrAbort s pid nackPid) := by
  unfold nackOrAbort nackOutcome
  simp only
  rw [if_neg h]
  by_cases hge : (s.transState nackPid).timestamp ≥ (s.transState pid).timestamp
  · rw [if_pos hge]
    refine ⟨rfl, by simp [setState], by simp [setState, raiseCycleFlag], ?_, ?_⟩
    · intro _
      by_cases hp : nackPid = pid
      · subst hp; simp [setState, raiseCycleFlag]
      · simp [setState, raiseCycleFlag, Function.update_noteq hp]
    · intro q hq
      have hne : q ≠ nackPid := by
        rcases hq with hq | hq
        · exact hq
        · omega
      by_cases hp : q = pid
      · subst hp; simp [setState, raiseCycleFlag, Function.update_noteq hne]
      · simp [setState, raiseCycleFlag, Function.update_noteq hp, Function.update_noteq hne]
  · rw [if_neg hge]
    refine ⟨rfl, by simp [setState], by simp [setState], fun h1 => absurd h1 hge, ?_⟩
    intro q _
    by_cases hp : q = pid
    · subst hp; simp [setState]
    · simp [setState, Function.update_noteq hp]

/-- On a set in increasing order that has a member other than `pid`, the
offender picked by `writeEE` is the smallest such member. -/
theorem firstOther_spec (pid : Nat) (set : List Nat) (hs : set.Pairwise (· < ·))
    (h : ∃ q ∈ set, q ≠ pid) :
    firstOther pid set ∈ set ∧ firstOther pid set ≠ pid ∧
      ∀ r ∈ set, r ≠ pid → firstOther pid set ≤ r := by
  obtain ⟨q, hq, hne⟩ := h
  match set, hs, hq with
  | a :: rest, hs, hq =>
    obtain ⟨ha, hrest⟩ := List.pairwise_cons.mp hs
    by_cases hap : a = pid
    · subst hap
      have hq1 : q ∈ rest := by
        rcases List.mem_cons.mp hq with h | h
        · exact absurd h hne
        · exact h
      match rest, hrest, hq1, ha with
      | b :: rest1, hrest, _, ha =>
        have hb : a < b := ha b (by simp)
        have hbr := (List.pairwise_cons.mp hrest).1
        refine ⟨by simp [firstOther], by simp [firstOther]; omega, ?_⟩
        intro r hr hrne
        simp only [firstOther, List.headD_cons, if_true, List.tail_cons]
        rcases List.mem_cons.mp hr with h | h
        · exact absurd h hrne
        · rcases List.mem_cons.mp h with h | h
          · omega
          · have := hbr r h; omega
    · refine ⟨by simp [firstOther, hap], by simp [firstOther, hap], ?_⟩
      intro r hr _
      simp only [firstOther, List.headD_cons, if_neg hap]
      rcases List.mem_cons.mp hr with h | h
      · omega
      · have := ha r h; omega

theorem readEE_conflict (s : transCoherence) (pid : Nat) (tid : Int) (raddr : Nat)
    (hw : writersOf s (addrToCacheLine s raddr) ≠ [])
    (hp : pid ∉ writersOf s (addrToCacheLine s raddr)) :
    readEE s pid tid raddr =
      nackOrAbort s pid ((writersOf s (addrToCacheLine s raddr)).headD 0) := by
  unfold readEE writersOf at *
  simp only at *
  split
  · rename_i per hper
    simp only [hper] at hw hp ⊢
    rw [if_pos]
    refine ⟨?_, by rw [List.count_eq_zero_of_not_mem hp]; decide⟩
    cases hws : per.writers with
    | nil => exact absurd hws hw
    | cons a l => simp
  · rename_i hnone
    simp only [hnone] at hw
    exact absurd rfl hw

theorem writeEE_reader_conflict (s : transCoherence) (hwf : SetsWF s) (pid : Nat) (tid : Int)
    (raddr : Nat) (hr : ∃ q ∈ readersOf s (addrToCacheLine s raddr), q ≠ pid) :
    writeEE s pid tid raddr =
      nackOrAbort s pid (firstOther pid (readersOf s (addrToCacheLine s raddr))) := by
  have hb := (blocked_iff pid _ (setsWF_line s hwf (addrToCacheLine s raddr)).1).mpr hr
  unfold writeEE readersOf at *
  simp only at *
  split
  · rename_i per hper
    simp only [hper] at hb ⊢
    rw [if_pos hb]
  · rename_i hnone
    simp only [hnone] at hb
    simp at hb

theorem writeEE_writer_conflict (s : transCoherence) (hwf : SetsWF s) (pid : Nat) (tid : Int)
    (raddr : Nat) (hr : ¬ ∃ q ∈ readersOf s (addrToCacheLine s raddr), q ≠ pid)
    (hw : ∃ q ∈ writersOf s (addrToCacheLine s raddr), q ≠ pid) :
    writeEE s pid tid raddr =
      nackOrAbort s pid (firstOther pid (writersOf s (addrToCacheLine s raddr))) := by
  have hb1 := (blocked_iff pid _ (setsWF_line s hwf (addrToCacheLine s raddr)).1).not.mpr hr
  have hb2 := (blocked_iff pid _ (setsWF_line s hwf (addrToCacheLine s raddr)).2).mpr hw
  unfold writeEE readersOf writersOf at *
  simp only at *
  split
  · rename_i per hper
    simp only [hper] at hb1 hb2 ⊢
    rw [if_neg hb1, if_pos hb2]
  · rename_i hnone
    simp only [hnone] at hb2
    simp at hb2

/-- C13. Eager NACK rule, for a state whose reader and writer sets are sets. When
`readEE` finds a writer and `pid` is not one, the offender is the first writer;
when `writeEE` finds a reader other than `pid`, the offender is the first such
reader, and when it finds none but a writer other than `pid`, the first such
writer. The offender is a member of the set and is not `pid`. If the abort
condition (offender's timestamp ≤ that of `pid`, and `cycleFlag[pid]`) is false,
the call returns NACK, sets the state of `pid` to NACKED, leaves the line table
as it was, raises the cycle flag of the offender if its timestamp is ≥ that of
`pid`, and changes no other cycle flag, none at all if the offender's
timestamp is below that of `pid`. -/
theorem eager_nack_rule (s : transCoherence) (hwf : SetsWF s) (pid : Nat) (tid : Int)
    (raddr : Nat) :
    (writersOf s (addrToCacheLine s raddr) ≠ [] → pid ∉ writersOf s (addrToCacheLine s raddr) →
      ((writersOf s (addrToCacheLine s raddr)).headD 0 ∈ writersOf s (addrToCacheLine s raddr) ∧
        (writersOf s (addrToCacheLine s raddr)).headD 0 ≠ pid) ∧
      (¬ ((s.transState ((writersOf s (addrToCacheLine s raddr)).headD 0)).timestamp ≤
            (s.transState pid).timestamp ∧ (s.transState pid).cycleFlag = true) →
        nackOutcome s pid ((writersOf s (addrToCacheLine s raddr)).headD 0)
          (readEE s pid tid raddr))) ∧
    ((∃ q ∈ readersOf s (addrToCacheLine s raddr), q ≠ pid) →
      (firstOther pid (readersOf s (addrToCacheLine s raddr)) ∈
          readersOf s (addrToCacheLine s raddr) ∧
        firstOther pid (readersOf s (addrToCacheLine s raddr)) ≠ pid) ∧
      (¬ ((s.transState (firstOther pid (readersOf s (addrToCacheLine s raddr)))).timestamp ≤
            (s.transState pid).timestamp ∧ (s.transState pid).cycleFlag = true) →
        nackOutcome s pid (firstOther pid (readersOf s (addrToCacheLine s raddr)))
          (writeEE s pid tid raddr))) ∧
    ((¬ ∃ q ∈ readersOf s (addrToCacheLine s raddr), q ≠ pid) →
      (∃ q ∈ writersOf s (addrToCacheLine s raddr), q ≠ pid) →
      (firstOther pid (writersOf s (addrToCacheLine s raddr)) ∈
          writersOf s (addrToCacheLine s raddr) ∧
        firstOther pid (writersOf s (addrToCacheLine s raddr)) ≠ pid) ∧
      (¬ ((s.transState (firstOther pid (writersOf s (addrToCacheLine s raddr)))).timestamp ≤
            (s.transState pid).timestamp ∧ (s.transState pid).cycleFlag = true) →
        nackOutcome s pid (firstOther pid (writersOf s (addrToCacheLine s raddr)))
          (writeEE s pid tid raddr))) := by
  obtain ⟨hsr, hsw⟩ := setsWF_line s hwf (addrToCacheLine s raddr)
  refine ⟨?_, ?_, ?_⟩
  · intro hw hp
    constructor
    · cases hws : writersOf s (addrToCacheLine s raddr) with
      | nil => exact absurd hws hw
      | cons a l =>
        rw [hws] at hp
        refine ⟨by simp, ?_⟩
        intro h
        apply hp
        simp only [List.headD_cons] at h
        simp [h]
    · intro hn
      rw [readEE_conflict s pid tid raddr hw hp]
      exact nackOrAbort_nack s pid _ hn
  · intro hr
    have hf := firstOther_spec pid _ hsr hr
    refine ⟨⟨hf.1, hf.2.1⟩, ?_⟩
    intro hn
    rw [writeEE_reader_conflict s hwf pid tid raddr hr]
    exact nackOrAbort_nack s pid _ hn
  · intro hr hw
    have hf := firstOther_spec pid _ hsw hw
    refine ⟨⟨hf.1, hf.2.1⟩, ?_⟩
    intro hn
    rw [writeEE_writer_conflict s hwf pid tid raddr hr hw]
    exact nackOrAbort_nack s pid _ hn

/-- Witness of C13: process 1 writes a line that the older process 0 has read. -/
theorem eager_nack_rule_witness :
    SetsWF (run eagerInit [Op.begin 0 ⟨0, 0⟩ 10, Op.read 0 0 256, Op.begin 1 ⟨0, 0⟩ 20]) ∧
    (∃ q ∈ readersOf (run eagerInit [Op.begin 0 ⟨0, 0⟩ 10, Op.read 0 0 256, Op.begin 1 ⟨0, 0⟩ 20])
      (addrToCacheLine (run eagerInit [Op.begin 0 ⟨0, 0⟩ 10, Op.read 0 0 256,
        Op.begin 1 ⟨0, 0⟩ 20]) 256), q ≠ 1) ∧
    (writeEE (run eagerInit [Op.begin 0 ⟨0, 0⟩ 10, Op.read 0 0 256, Op.begin 1 ⟨0, 0⟩ 20])
      1 0 256).1 = GCMRet.NACK :=
  have hwf := setsWF_run rawZero eagerInit 1 1 64 rfl
    [Op.begin 0 ⟨0, 0⟩ 10, Op.read 0 0 256, Op.begin 1 ⟨0, 0⟩ 20]
  have hr : ∃ q ∈ readersOf (run eagerInit [Op.begin 0 ⟨0, 0⟩ 10, Op.read 0 0 256,
      Op.begin 1 ⟨0, 0⟩ 20]) (addrToCacheLine (run eagerInit [Op.begin 0 ⟨0, 0⟩ 10,
      Op.read 0 0 256, Op.begin 1 ⟨0, 0⟩ 20]) 256), q ≠ 1 := ⟨0, by decide, by decide⟩
  have h := ((eager_nack_rule _ hwf 1 0 256).2.1 hr).2 (by decide)
  ⟨hwf, hr, h.1⟩

/-- Counterexample to C12 as stated: process 0 (timestamp 10) has its cycle flag
raised and writes the line of 0x100, read by process 1 (timestamp 20) and by
process 2 (timestamp 5). Process 2 is a conflicting reader that is not younger
than process 0, yet the write returns NACK: only process 1, the first reader,
is compared. -/
theorem cycle_flag_counterexample :
    ((run eagerInit [Op.begin 2 ⟨0, 0⟩ 5, Op.begin 0 ⟨0, 0⟩ 10, Op.begin 1 ⟨0, 0⟩ 20,
        Op.write 0 0 512, Op.read 2 0 512, Op.read 1 0 256, Op.read 2 0 256]).transState 0).cycleFlag
      = true ∧
    2 ∈ readersOf (run eagerInit [Op.begin 2 ⟨0, 0⟩ 5, Op.begin 0 ⟨0, 0⟩ 10, Op.begin 1 ⟨0, 0⟩ 20,
        Op.write 0 0 512, Op.read 2 0 512, Op.read 1 0 256, Op.read 2 0 256]) 256 ∧
    ((run eagerInit [Op.begin 2 ⟨0, 0⟩ 5, Op.begin 0 ⟨0, 0⟩ 10, Op.begin 1 ⟨0, 0⟩ 20,
        Op.write 0 0 512, Op.read 2 0 512, Op.read 1 0 256, Op.read 2 0 256]).transState 2).timestamp
      ≤ ((run eagerInit [Op.begin 2 ⟨0, 0⟩ 5, Op.begin 0 ⟨0, 0⟩ 10, Op.begin 1 ⟨0, 0⟩ 20,
        Op.write 0 0 512, Op.read 2 0 512, Op.read 1 0 256, Op.read 2 0 256]).transState 0).timestamp ∧
    (write (run eagerInit [Op.begin 2 ⟨0, 0⟩ 5, Op.begin 0 ⟨0, 0⟩ 10, Op.begin 1 ⟨0, 0⟩ 20,
        Op.write 0 0 512, Op.read 2 0 512, Op.read 1 0 256, Op.read 2 0 256]) 0 0 256).1 =
      GCMRet.NACK := by
  decide

/-- C12, amended. In a state reached from the constructor's state of an eager
module, let `cycleFlag[pid]` be set. A read by `pid` returns ABORT and sets the
state of `pid` to ABORTING when a writer of the line other than `pid` has a
timestamp ≤ that of `pid`. A write by `pid` does so when the smallest reader of
the line other than `pid` has a timestamp ≤ that of `pid`, and, when the line
has no reader other than `pid`, when a writer other than `pid` has one. -/
theorem cycle_flag_rule (raw s0 : transCoherence) (conflicts versioning : Int)
    (cacheLineSize : Nat) (hc : conflicts ≠ 0)
    (h0 : construct raw conflicts versioning cacheLineSize = some s0) (ops : List Op)
    (pid : Nat) (tid : Int) (raddr : Nat)
    (hflag : ((run s0 ops).transState pid).cycleFlag = true) :
    (∀ w ∈ writersOf (run s0 ops) (addrToCacheLine (run s0 ops) raddr), w ≠ pid →
      ((run s0 ops).transState w).timestamp ≤ ((run s0 ops).transState pid).timestamp →
      (read (run s0 ops) pid tid raddr).1 = GCMRet.ABORT ∧
      ((read (run s0 ops) pid tid raddr).2.transState pid).state = condition.ABORTING) ∧
    (∀ q ∈ readersOf (run s0 ops) (addrToCacheLine (run s0 ops) raddr), q ≠ pid →
      (∀ r ∈ readersOf (run s0 ops) (addrToCacheLine (run s0 ops) raddr), r ≠ pid → q ≤ r) →
      ((run s0 ops).transState q).timestamp ≤ ((run s0 ops).transState pid).timestamp →
      (write (run s0 ops) pid tid raddr).1 = GCMRet.ABORT ∧
      ((write (run s0 ops) pid tid raddr).2.transState pid).state = condition.ABORTING) ∧
    ((∀ r ∈ readersOf (run s0 ops) (addrToCacheLine (run s0 ops) raddr), r = pid) →
      ∀ w ∈ writersOf (run s0 ops) (addrToCacheLine (run s0 ops) raddr), w ≠ pid →
      ((run s0 ops).transState w).timestamp ≤ ((run s0 ops).transState pid).timestamp →
      (write (run s0 ops) pid tid raddr).1 = GCMRet.ABORT ∧
      ((write (run s0 ops) pid tid raddr).2.transState pid).state = condition.ABORTING) := by
  have hinv := eagerInv_run ops s0 (eagerInv_construct raw s0 conflicts versioning cacheLineSize hc h0)
  have hwf := setsWF_run raw s0 conflicts versioning cacheLineSize h0 ops
  generalize run s0 ops = s at hinv hwf hflag ⊢
  have hm := hinv.1
  obtain ⟨hsr, hsw⟩ := setsWF_line s hwf (addrToCacheLine s raddr)
  have hone : (writersOf s (addrToCacheLine s raddr)).length ≤ 1 := by
    unfold writersOf
    split
    · rename_i per hper
      exact (hinv.2 _ (mapFind_mem _ _ _ hper)).1
    · simp
  have hsingle : ∀ w ∈ writersOf s (addrToCacheLine s raddr),
      writersOf s (addrToCacheLine s raddr) = [w] := by
    intro w hw
    match hws : writersOf s (addrToCacheLine s raddr) with
    | [] => rw [hws] at hw; simp at hw
    | [a] => rw [hws] at hw; simp at hw; rw [hw]
    | _ :: _ :: _ => rw [hws] at hone; simp at hone
  simp only [read, write, hm]
  refine ⟨?_, ?_, ?_⟩
  · intro w hw hne hts
    have hws := hsingle w hw
    have hp : pid ∉ writersOf s (addrToCacheLine s raddr) := by
      rw [hws]; simp; exact fun h => hne h.symm
    rw [readEE_conflict s pid tid raddr (by rw [hws]; simp) hp, hws]
    simp only [List.headD_cons]
    rw [nackOrAbort_abort s pid w ⟨hts, hflag⟩]
    simp [setState]
  · intro q hq hne hmin hts
    obtain ⟨f1, f2, f3⟩ := firstOther_spec pid _ hsr ⟨q, hq, hne⟩
    have hfq : firstOther pid (readersOf s (addrToCacheLine s raddr)) = q :=
      le_antisymm (f3 q hq hne) (hmin _ f1 f2)
    rw [writeEE_reader_conflict s hwf pid tid raddr ⟨q, hq, hne⟩, hfq,
      nackOrAbort_abort s pid q ⟨hts, hflag⟩]
    simp [setState]
  · intro hr w hw hne hts
    have hws := hsingle w hw
    have hnr : ¬ ∃ q ∈ readersOf s (addrToCacheLine s raddr), q ≠ pid := by
      rintro ⟨q, hq, hqne⟩; exact hqne (hr q hq)
    rw [writeEE_writer_conflict s hwf pid tid raddr hnr ⟨w, hw, hne⟩, hws]
    have hf : firstOther pid [w] = w := by simp [firstOther, hne]
    rw [hf, nackOrAbort_abort s pid w ⟨hts, hflag⟩]
    simp [setState]

/-- Witness of the amended C12: process 0, with its cycle flag raised, writes a
line whose only reader is the older process 2. -/
theorem cycle_flag_rule_witness :
    ((run eagerInit [Op.begin 2 ⟨0, 0⟩ 5, Op.begin 0 ⟨0, 0⟩ 10, Op.write 0 0 512, Op.read 2 0 512,
        Op.read 2 0 256]).transState 0).cycleFlag = true ∧
    (write (run eagerInit [Op.begin 2 ⟨0, 0⟩ 5, Op.begin 0 ⟨0, 0⟩ 10, Op.write 0 0 512,
        Op.read 2 0 512, Op.read 2 0 256]) 0 0 256).1 = GCMRet.ABORT :=
  ⟨by decide,
    ((cycle_flag_rule rawZero eagerInit 1 1 64 (by decide) rfl
      [Op.begin 2 ⟨0, 0⟩ 5, Op.begin 0 ⟨0, 0⟩ 10, Op.write 0 0 512, Op.read 2 0 512,
        Op.read 2 0 256] 0 0 256 (by decide)).2.1 2 (by decide) (by decide) (by decide)
      (by decide)).1⟩

/-! ## Transaction ids along a run -/

theorem update_depth_pos (f : Nat → Int) (pid : Nat) (v : Int) (hv : v > 0 → f pid > 0) (q : Nat)
    (h : Function.update f pid v q > 0) : f q > 0 := by
  by_cases hq : q = pid
  · subst hq; simp at h; exact hv h
  · rwa [Function.update_noteq hq] at h

theorem keepsIds_refl (s : transCoherence) : KeepsIds s s :=
  ⟨rfl, fun _ => rfl, fun _ h => h⟩

theorem keepsIds_trans (s t u : transCoherence) (h1 : KeepsIds s t) (h2 : KeepsIds t u) :
    KeepsIds s u :=
  ⟨h2.1.trans h1.1, fun q => (h2.2.1 q).trans (h1.2.1 q), fun q h => h1.2.2 q (h2.2.2 q h)⟩

theorem keepsIds_setState (s : transCoherence) (pid : Nat) (c : condition) :
    KeepsIds s (setState s pid c) :=
  ⟨rfl, fun q => (by
    by_cases hq : q = pid
    · subst hq; simp [setState, raiseCycleFlag, resetTrans]
    · simp [setState, raiseCycleFlag, resetTrans, Function.update_noteq hq]), fun _ h => h⟩

theorem keepsIds_raiseCycleFlag (s : transCoherence) (pid : Nat) :
    KeepsIds s (raiseCycleFlag s pid) :=
  ⟨rfl, fun q => (by
    by_cases hq : q = pid
    · subst hq; simp [setState, raiseCycleFlag, resetTrans]
    · simp [setState, raiseCycleFlag, resetTrans, Function.update_noteq hq]), fun _ h => h⟩

theorem keepsIds_resetTrans (s : transCoherence) (pid : Nat) : KeepsIds s (resetTrans s pid) :=
  ⟨rfl, fun q => (by
    by_cases hq : q = pid
    · subst hq; simp [setState, raiseCycleFlag, resetTrans]
    · simp [setState, raiseCycleFlag, resetTrans, Function.update_noteq hq]), fun _ h => h⟩

theorem keepsIds_nackOrAbort (s : transCoherence) (pid nackPid : Nat) :
    KeepsIds s (nackOrAbort s pid nackPid).2 := by
  unfold nackOrAbort
  simp only
  split_ifs
  · exact keepsIds_setState s pid _
  · exact keepsIds_trans _ _ _ (keepsIds_raiseCycleFlag s nackPid) (keepsIds_setState _ pid _)
  · exact keepsIds_setState s pid _

/-- A state that differs from `s` in the line table only keeps the ids. -/
theorem keepsIds_permCache (s : transCoherence) (m : List (Nat × cacheState)) :
    KeepsIds s { s with permCache := m } :=
  ⟨rfl, fun _ => rfl, fun _ h => h⟩

theorem keepsIds_readEE (s : transCoherence) (pid : Nat) (tid : Int) (raddr : Nat) :
    KeepsIds s (readEE s pid tid raddr).2 := by
  unfold readEE
  simp only
  split
  · split_ifs
    · exact keepsIds_nackOrAbort s pid _
    · exact keepsIds_trans _ _ _ (keepsIds_permCache s _) (keepsIds_setState _ pid _)
  · exact keepsIds_trans _ _ _ (keepsIds_permCache s _) (keepsIds_setState _ pid _)

theorem keepsIds_writeEE (s : transCoherence) (pid : Nat) (tid : Int) (raddr : Nat) :
    KeepsIds s (writeEE s pid tid raddr).2 := by
  unfold writeEE
  simp only
  split
  · split_ifs
    · exact keepsIds_nackOrAbort s pid _
    · exact keepsIds_nackOrAbort s pid _
    · exact keepsIds_trans _ _ _ (keepsIds_permCache s _) (keepsIds_setState _ pid _)
  · exact keepsIds_trans _ _ _ (keepsIds_permCache s _) (keepsIds_setState _ pid _)

theorem keepsIds_readLL (s : transCoherence) (pid : Nat) (tid : Int) (raddr : Nat) :
    KeepsIds s (readLL s pid tid raddr).2 := by
  unfold readLL
  simp only
  split_ifs
  · exact keepsIds_setState s pid _
  · split <;>
      exact keepsIds_trans _ _ _ (keepsIds_permCache s _) (keepsIds_setState _ pid _)

theorem keepsIds_writeLL (s : transCoherence) (pid : Nat) (tid : Int) (raddr : Nat) :
    KeepsIds s (writeLL s pid tid raddr).2 := by
  unfold writeLL
  simp only
  split_ifs
  · exact keepsIds_setState s pid _
  · split <;>
      exact keepsIds_trans _ _ _ (keepsIds_permCache s _) (keepsIds_setState _ pid _)

theorem keepsIds_abort (s : transCoherence) (pid : Nat) (tid : Int) (globalClock : Nat) :
    KeepsIds s (abort s pid tid globalClock).2 := by
  unfold abort
  cases s.methods
  · simp only
    unfold abortEE
    refine ⟨rfl, fun q => ?_, fun q h => ?_⟩
    · by_cases hq : q = pid
      · subst hq; simp [setState, resetTrans]
      · simp [setState, resetTrans, Function.update_noteq hq]
    · exact update_depth_pos _ pid 0 (fun h0 => absurd h0 (by decide)) q h
  · simp only
    unfold abortLL
    refine ⟨rfl, fun q => ?_, fun q h => ?_⟩
    · by_cases hq : q = pid
      · subst hq; simp [setState, resetTrans]
      · simp [setState, resetTrans, Function.update_noteq hq]
    · exact update_depth_pos _ pid 0 (fun h0 => absurd h0 (by decide)) q h

theorem keepsIds_commitEE (s : transCoherence) (pid : Nat) (tid : Int) (globalClock : Nat) :
    KeepsIds s (commitEE s pid tid globalClock).2 := by
  unfold commitEE
  simp only
  split_ifs with h1 h2
  · exact ⟨rfl, fun _ => rfl, fun q h => update_depth_pos _ pid _ (fun _ => by omega) q h⟩
  · refine ⟨rfl, fun q => ?_, fun q h => ?_⟩
    · by_cases hq : q = pid
      · subst hq; simp [setState, resetTrans]
      · simp [setState, resetTrans, Function.update_noteq hq]
    · exact update_depth_pos _ pid 0 (fun h0 => absurd h0 (by decide)) q h
  · exact keepsIds_setState s pid _

theorem keepsIds_commitLL (s : transCoherence) (pid : Nat) (tid : Int) (globalClock : Nat) :
    KeepsIds s (commitLL s pid tid globalClock).2 := by
  by_cases h1 : (s.transState pid).state = condition.DOABORT
  · unfold commitLL; rw [if_pos h1]; exact keepsIds_setState s pid _
  by_cases h2 : s.tmDepth pid > 1
  · unfold commitLL; rw [if_neg h1, if_pos h2]
    exact ⟨rfl, fun _ => rfl, fun q h => update_depth_pos _ pid _ (fun _ => by omega) q h⟩
  by_cases h3 : (s.transState pid).state = condition.COMMITTING
  · rw [commitLL_final s pid tid globalClock h2 h3]
    simp only
    obtain ⟨m1, m2⟩ := commitLoopLL_marks pid (resetTrans s pid).permCache
      (0, { resetTrans s pid with
            abortCount := Function.update (resetTrans s pid).abortCount pid 0
            tmDepth := Function.update (resetTrans s pid).tmDepth pid 0 })
    generalize commitLoopLL pid (resetTrans s pid).permCache
      (0, { resetTrans s pid with
            abortCount := Function.update (resetTrans s pid).abortCount pid 0
            tmDepth := Function.update (resetTrans s pid).tmDepth pid 0 }) = r at m1 m2 ⊢
    simp only at m1 m2
    have hloop : ∀ q, (r.1.2.transState q).utid = (s.transState q).utid := by
      intro q
      by_cases hsh : q ≠ pid ∧ sharesWritten pid q (resetTrans s pid).permCache
      · rw [((m2 q).1 hsh).1]
        exact (keepsIds_resetTrans s pid).2.1 q
      · rw [((m2 q).2 hsh).1]
        exact (keepsIds_resetTrans s pid).2.1 q
    refine ⟨?_, fun q => ?_, fun q h => ?_⟩
    · simp only [setState]; rw [m1]; rfl
    · by_cases hq : q = pid
      · subst hq; simpa [setState] using hloop q
      · simpa [setState, Function.update_noteq hq] using hloop q
    · simp only [setState] at h
      rw [m1] at h
      exact update_depth_pos _ pid 0 (fun h0 => absurd h0 (by decide)) q h
  by_cases h4 : s.currentCommitter ≥ 0
  · unfold commitLL; rw [if_neg h1, if_neg h2, if_neg h3, if_pos h4]
    exact keepsIds_setState s pid _
  · unfold commitLL; rw [if_neg h1, if_neg h2, if_neg h3, if_neg h4]
    exact ⟨rfl, fun q => (by
    by_cases hq : q = pid
    · subst hq; simp [setState, raiseCycleFlag, resetTrans]
    · simp [setState, raiseCycleFlag, resetTrans, Function.update_noteq hq]), fun _ h => h⟩

/-- What a call of begin does to the transaction ids. -/
theorem begin_ids (s : transCoherence) (pid : Nat) (picode : icode) (globalClock : Nat) :
    ((begin s pid picode globalClock).1.ret = GCMRet.SUCCESS →
      (begin s pid picode globalClock).1.tuid = some s.utid ∧
      (begin s pid picode globalClock).2.utid = s.utid + 1 ∧
      ((begin s pid picode globalClock).2.transState pid).utid = s.utid ∧
      ∀ q, q ≠ pid →
        ((begin s pid picode globalClock).2.transState q).utid = (s.transState q).utid ∧
        ((begin s pid picode globalClock).2.tmDepth q > 0 → s.tmDepth q > 0)) ∧
    ((begin s pid picode globalClock).1.ret ≠ GCMRet.SUCCESS →
      KeepsIds s (begin s pid picode globalClock).2) ∧
    ((begin s pid picode globalClock).1.ret = GCMRet.IGNORE →
      s.tmDepth pid > 0 ∧
      (begin s pid picode globalClock).1.tuid = some (s.transState pid).utid) := by
  have hsucc : ∀ (s1 : transCoherence) (q : Nat), q ≠ pid → KeepsIds s s1 →
      (Function.update s1.transState pid
          { timestamp := globalClock, cycleFlag := false, state := condition.RUNNING,
            beginPC := picode.addr, utid := s1.utid } q).utid = (s.transState q).utid ∧
      (Function.update s1.tmDepth pid (s1.tmDepth pid + 1) q > 0 → s.tmDepth q > 0) := by
    intro s1 q hq hk
    rw [Function.update_noteq hq, Function.update_noteq hq]
    exact ⟨hk.2.1 q, hk.2.2 q⟩
  have hign : ∀ h : s.tmDepth pid > 0,
      KeepsIds s { s with tmDepth := Function.update s.tmDepth pid (s.tmDepth pid + 1) } :=
    fun h => ⟨rfl, fun _ => rfl, fun q hq => update_depth_pos _ pid _ (fun _ => h) q hq⟩
  unfold begin
  cases s.methods
  · simp only
    unfold beginEE
    simp only
    by_cases hd : s.tmDepth pid > 0
    · rw [if_pos hd]
      exact ⟨fun h => by simp at h, fun _ => hign hd, fun _ => ⟨hd, rfl⟩⟩
    · rw [if_neg hd]
      by_cases ha : (s.transState pid).state = condition.ABORTING
      · rw [if_pos ha, if_pos (by simp [setState])]
        refine ⟨fun h => by simp at h, fun _ => ?_, fun h => by simp at h⟩
        refine ⟨rfl, fun q => ?_, fun _ h => h⟩
        by_cases hq : q = pid
        · subst hq; simp [setState]
        · simp [setState, Function.update_noteq hq]
      · rw [if_neg ha]
        by_cases hb : (s.transState pid).state = condition.ABORTED
        · rw [if_pos hb]
          refine ⟨fun h => by simp at h, fun _ => ?_, fun h => by simp at h⟩
          exact ⟨rfl, fun q => (by
    by_cases hq : q = pid
    · subst hq; simp [setState, raiseCycleFlag, resetTrans]
    · simp [setState, raiseCycleFlag, resetTrans, Function.update_noteq hq]), fun _ h => h⟩
        · rw [if_neg hb]
          refine ⟨fun _ => ⟨rfl, rfl, by simp, fun q hq => hsucc s q hq (keepsIds_refl s)⟩,
            fun h => by simp at h, fun h => by simp at h⟩
  · simp only
    unfold beginLL
    simp only
    by_cases hd : s.tmDepth pid > 0
    · rw [if_pos hd]
      exact ⟨fun h => by simp at h, fun _ => hign hd, fun _ => ⟨hd, rfl⟩⟩
    · rw [if_neg hd]
      refine ⟨fun _ => ?_, fun h => by simp at h, fun h => by simp at h⟩
      by_cases ha : (s.transState pid).state = condition.ABORTING
      · simp only [if_pos ha]
        refine ⟨by simp [setState], by simp [setState], by simp [setState], fun q hq => ?_⟩
        simp [setState, Function.update_noteq hq]
      · simp only [if_neg ha]
        refine ⟨by simp, by simp, by simp, fun q hq => ?_⟩
        simp [Function.update_noteq hq]

/-- A call other than a begin keeps the transaction ids. -/
theorem keepsIds_step (s : transCoherence) (op : Op)
    (h : ∀ pid picode globalClock, op ≠ Op.begin pid picode globalClock) :
    KeepsIds s (step s op) := by
  cases op with
  | read pid tid raddr =>
    simp only [step, read]
    cases s.methods
    · exact keepsIds_readEE s pid tid raddr
    · exact keepsIds_readLL s pid tid raddr
  | write pid tid raddr =>
    simp only [step, write]
    cases s.methods
    · exact keepsIds_writeEE s pid tid raddr
    · exact keepsIds_writeLL s pid tid raddr
  | «begin» pid picode clk => exact absurd rfl (h pid picode clk)
  | commit pid tid clk =>
    simp only [step, commit]
    cases s.methods
    · exact keepsIds_commitEE s pid tid clk
    · exact keepsIds_commitLL s pid tid clk
  | abort pid tid clk => exact keepsIds_abort s pid tid clk
  | checkAbort pid tid =>
    simp only [step, checkAbort]
    split_ifs
    · exact keepsIds_setState s pid _
    · exact keepsIds_refl s
  | stallUntil pid cycles => exact ⟨rfl, fun _ => rfl, fun _ h => h⟩

theorem beginTuids_range (ops : List Op) (s : transCoherence) :
    beginTuids s ops = (List.range' s.utid (beginTuids s ops).length).map some ∧
    (run s ops).utid = s.utid + (beginTuids s ops).length := by
  induction ops generalizing s with
  | nil => simp [beginTuids, run]
  | cons op rest ih =>
    obtain ⟨ih1, ih2⟩ := ih (step s op)
    have hrun : run s (op :: rest) = run (step s op) rest := rfl
    have hkeep : KeepsIds s (step s op) →
        beginTuids s (op :: rest) = beginTuids (step s op) rest →
        beginTuids s (op :: rest) = (List.range' s.utid (beginTuids s (op :: rest)).length).map some ∧
          (run s (op :: rest)).utid = s.utid + (beginTuids s (op :: rest)).length := by
      intro hk he
      rw [hrun, he, ih2, ← hk.1]
      exact ⟨ih1, rfl⟩
    cases op with
    | «begin» pid picode clk =>
      obtain ⟨b1, b2, _⟩ := begin_ids s pid picode clk
      by_cases hsucc : (begin s pid picode clk).1.ret = GCMRet.SUCCESS
      · obtain ⟨c1, c2, _, _⟩ := b1 hsucc
        have hstep : (step s (Op.begin pid picode clk)).utid = s.utid + 1 := c2
        have he : beginTuids s (Op.begin pid picode clk :: rest) =
            some s.utid :: beginTuids (step s (Op.begin pid picode clk)) rest := by
          simp only [beginTuids]
          rw [if_pos hsucc, c1]
        rw [hrun, he, ih2, hstep]
        constructor
        · rw [List.length_cons, List.range'_succ, List.map_cons, ← hstep]
          exact congrArg _ ih1
        · rw [List.length_cons]; omega
      · apply hkeep (b2 hsucc)
        simp only [beginTuids]
        rw [if_neg hsucc]
    | read pid tid raddr => exact hkeep (keepsIds_step s _ (by intro _ _ _ h; cases h)) rfl
    | write pid tid raddr => exact hkeep (keepsIds_step s _ (by intro _ _ _ h; cases h)) rfl
    | commit pid tid clk => exact hkeep (keepsIds_step s _ (by intro _ _ _ h; cases h)) rfl
    | abort pid tid clk => exact hkeep (keepsIds_step s _ (by intro _ _ _ h; cases h)) rfl
    | checkAbort pid tid => exact hkeep (keepsIds_step s _ (by intro _ _ _ h; cases h)) rfl
    | stallUntil pid cycles => exact hkeep (keepsIds_step s _ (by intro _ _ _ h; cases h)) rfl

theorem enclosingTuid_inv (pid : Nat) (ops : List Op) (s : transCoherence) (acc : Option Nat)
    (h1 : ∀ t, acc = some t → (s.transState pid).utid = t)
    (h2 : s.tmDepth pid > 0 → acc.isSome = true) :
    (∀ t, enclosingTuid pid s ops acc = some t → ((run s ops).transState pid).utid = t) ∧
    ((run s ops).tmDepth pid > 0 → (enclosingTuid pid s ops acc).isSome = true) := by
  induction ops generalizing s acc with
  | nil => exact ⟨h1, h2⟩
  | cons op rest ih =>
    have hrun : run s (op :: rest) = run (step s op) rest := rfl
    have hkeep : KeepsIds s (step s op) →
        enclosingTuid pid s (op :: rest) acc = enclosingTuid pid (step s op) rest acc →
        (∀ t, enclosingTuid pid s (op :: rest) acc = some t →
          ((run s (op :: rest)).transState pid).utid = t) ∧
        ((run s (op :: rest)).tmDepth pid > 0 →
          (enclosingTuid pid s (op :: rest) acc).isSome = true) := by
      intro hk he
      rw [hrun, he]
      exact ih (step s op) acc (fun t ht => (hk.2.1 pid).trans (h1 t ht))
        (fun hd => h2 (hk.2.2 pid hd))
    cases op with
    | «begin» p picode clk =>
      obtain ⟨b1, b2, _⟩ := begin_ids s p picode clk
      by_cases hsucc : (begin s p picode clk).1.ret = GCMRet.SUCCESS
      · obtain ⟨c1, _, c3, c4⟩ := b1 hsucc
        by_cases hp : p = pid
        · subst hp
          have he : enclosingTuid p s (Op.begin p picode clk :: rest) acc =
              enclosingTuid p (step s (Op.begin p picode clk)) rest (some s.utid) := by
            simp only [enclosingTuid]
            rw [if_pos ⟨trivial, hsucc⟩, c1]
          rw [hrun, he]
          refine ih _ _ ?_ (fun _ => rfl)
          intro t ht
          simp only [Option.some.injEq] at ht
          rw [← ht]
          exact c3
        · have he : enclosingTuid pid s (Op.begin p picode clk :: rest) acc =
              enclosingTuid pid (step s (Op.begin p picode clk)) rest acc := by
            simp only [enclosingTuid]
            rw [if_neg (fun h => hp h.1)]
          rw [hrun, he]
          have hq := c4 pid (fun h => hp h.symm)
          exact ih _ _ (fun t ht => hq.1.trans (h1 t ht)) (fun hd => h2 (hq.2 hd))
      · apply hkeep (b2 hsucc)
        simp only [enclosingTuid]
        rw [if_neg (fun h => hsucc h.2)]
    | read _ tid raddr => exact hkeep (keepsIds_step s _ (by intro _ _ _ h; cases h)) rfl
    | write _ tid raddr => exact hkeep (keepsIds_step s _ (by intro _ _ _ h; cases h)) rfl
    | commit _ tid clk => exact hkeep (keepsIds_step s _ (by intro _ _ _ h; cases h)) rfl
    | abort _ tid clk => exact hkeep (keepsIds_step s _ (by intro _ _ _ h; cases h)) rfl
    | checkAbort _ tid => exact hkeep (keepsIds_step s _ (by intro _ _ _ h; cases h)) rfl
    | stallUntil _ cycles => exact hkeep (keepsIds_step s _ (by intro _ _ _ h; cases h)) rfl

theorem construct_ids (raw s0 : transCoherence) (conflicts versioning : Int) (cacheLineSize : Nat)
    (h0 : construct raw conflicts versioning cacheLineSize = some s0) :
    s0.utid = 0 ∧ ∀ p, s0.tmDepth p = 0 := by
  unfold construct at h0
  simp only at h0
  split at h0
  · simp at h0
  · simp only [Option.some.injEq] at h0
    subst h0
    simp

/-- C14. Utid monotonicity and uniqueness, for any sequence of calls on a module
built under either policy: the tuids returned by the successful begins are, in
the order of the calls, 0, 1, 2, ...; so each is above all earlier ones and no
two are equal; the next successful begin returns their number; and a begin
that returns IGNORE returns the tuid that the last successful begin of the same
process returned. -/
theorem utid_monotone (raw s0 : transCoherence) (conflicts versioning : Int)
    (cacheLineSize : Nat) (h0 : construct raw conflicts versioning cacheLineSize = some s0)
    (ops : List Op) :
    beginTuids s0 ops = (List.range (beginTuids s0 ops).length).map some ∧
    (beginTuids s0 ops).Pairwise (fun a b => ∃ x y, a = some x ∧ b = some y ∧ x < y) ∧
    (∀ pid picode globalClock,
      (begin (run s0 ops) pid picode globalClock).1.ret = GCMRet.SUCCESS →
      (begin (run s0 ops) pid picode globalClock).1.tuid = some (beginTuids s0 ops).length) ∧
    (∀ pid picode globalClock,
      (begin (run s0 ops) pid picode globalClock).1.ret = GCMRet.IGNORE →
      (enclosingTuid pid s0 ops none).isSome = true ∧
      (begin (run s0 ops) pid picode globalClock).1.tuid = enclosingTuid pid s0 ops none) := by
  obtain ⟨hu, hdep⟩ := construct_ids raw s0 conflicts versioning cacheLineSize h0
  obtain ⟨r1, r2⟩ := beginTuids_range ops s0
  rw [hu] at r1 r2
  have hrange : beginTuids s0 ops = (List.range (beginTuids s0 ops).length).map some := by
    rw [List.range_eq_range']; exact r1
  refine ⟨hrange, ?_, ?_, ?_⟩
  · rw [hrange, List.pairwise_map]
    exact (List.pairwise_lt_range _).imp (fun h => ⟨_, _, rfl, rfl, h⟩)
  · intro pid picode clk hs
    rw [((begin_ids (run s0 ops) pid picode clk).1 hs).1, r2]
    simp
  · intro pid picode clk hi
    obtain ⟨hd, ht⟩ := (begin_ids (run s0 ops) pid picode clk).2.2 hi
    obtain ⟨e1, e2⟩ := enclosingTuid_inv pid ops s0 none (fun t h => by simp at h)
      (fun h => by rw [hdep pid] at h; exact absurd h (by decide))
    have hsome := e2 hd
    refine ⟨hsome, ?_⟩
    obtain ⟨t, ht1⟩ := Option.isSome_iff_exists.mp hsome
    rw [ht, ht1, e1 t ht1]

/-- Witness of C14: three successful begins, then a subsumed begin of process 0. -/
theorem utid_monotone_witness :
    beginTuids lazyInit [Op.begin 0 ⟨0, 0⟩ 10, Op.begin 1 ⟨0, 0⟩ 20, Op.begin 0 ⟨4, 0⟩ 30,
      Op.abort 1 0 40, Op.begin 1 ⟨0, 0⟩ 50] = [some 0, some 1, some 2] ∧
    (begin (run lazyInit [Op.begin 0 ⟨0, 0⟩ 10, Op.begin 1 ⟨0, 0⟩ 20, Op.begin 0 ⟨4, 0⟩ 30,
      Op.abort 1 0 40, Op.begin 1 ⟨0, 0⟩ 50]) 0 ⟨8, 0⟩ 60).1.ret = GCMRet.IGNORE ∧
    (begin (run lazyInit [Op.begin 0 ⟨0, 0⟩ 10, Op.begin 1 ⟨0, 0⟩ 20, Op.begin 0 ⟨4, 0⟩ 30,
      Op.abort 1 0 40, Op.begin 1 ⟨0, 0⟩ 50]) 0 ⟨8, 0⟩ 60).1.tuid = some 0 :=
  have h := utid_monotone rawZero lazyInit 0 0 64 rfl
    [Op.begin 0 ⟨0, 0⟩ 10, Op.begin 1 ⟨0, 0⟩ 20, Op.begin 0 ⟨4, 0⟩ 30, Op.abort 1 0 40,
      Op.begin 1 ⟨0, 0⟩ 50]
  ⟨h.1.trans (by decide), by decide, ((h.2.2.2 0 ⟨8, 0⟩ 60 (by decide)).2).trans (by decide)⟩

/-! ## Subsumed nesting -/

theorem trace_append (l1 l2 : List Op) (s : transCoherence) :
    trace s (l1 ++ l2) = trace s l1 ++ trace (run s l1) l2 := by
  induction l1 generalizing s with
  | nil => rfl
  | cons op rest ih =>
    simp only [List.cons_append, trace, List.cons.injEq, true_and]
    exact ih (step s op)

theorem run_append (l1 l2 : List Op) (s : transCoherence) :
    run s (l1 ++ l2) = run (run s l1) l2 := by
  unfold run
  exact List.foldl_append _ _ _ _

theorem begin_subsumed (m : Policy) (pid : Nat) (me : tmState) (d : Int) (t : transCoherence)
    (picode : icode) (globalClock : Nat) (h : Nested m pid me d t) (hd : d > 0) :
    (begin t pid picode globalClock).1 =
      { ret := GCMRet.IGNORE, BCFlag := some 2, tuid := some me.utid } ∧
    Nested m pid me (d + 1) (begin t pid picode globalClock).2 := by
  obtain ⟨h1, h2, h3, h4⟩ := h
  have hpos : t.tmDepth pid > 0 := by rw [h2]; exact hd
  unfold begin
  cases m <;> simp only [h1]
  · unfold beginEE
    simp only
    rw [if_pos hpos]
    exact ⟨by rw [h3], h1, by simp [h2], h3, h4⟩
  · unfold beginLL
    simp only
    rw [if_pos hpos]
    exact ⟨by rw [h3], h1, by simp [h2], h3, h4⟩

theorem commit_subsumed (m : Policy) (pid : Nat) (me : tmState) (d : Int) (t : transCoherence)
    (tid : Int) (globalClock : Nat) (h : Nested m pid me d t) (hd : d > 1)
    (hs : me.state ≠ condition.DOABORT) :
    (commit t pid tid globalClock).1 =
      { ret := GCMRet.IGNORE, BCFlag := some 2, tuid := some me.utid } ∧
    Nested m pid me (d - 1) (commit t pid tid globalClock).2 := by
  obtain ⟨h1, h2, h3, h4⟩ := h
  have hpos : t.tmDepth pid > 1 := by rw [h2]; exact hd
  unfold commit
  cases m <;> simp only [h1]
  · unfold commitEE
    simp only
    rw [if_pos hpos]
    exact ⟨by rw [h3], h1, by simp [h2], h3, h4⟩
  · unfold commitLL
    rw [if_neg (by rw [h3]; exact hs), if_pos hpos]
    exact ⟨by rw [h3], h1, by simp [h2], h3, h4⟩

theorem begins_subsumed (m : Policy) (pid : Nat) (me : tmState) (bs : List (icode × Nat))
    (d : Int) (t : transCoherence) (h : Nested m pid me d t) (hd : d > 0) :
    (trace t (bs.map (fun b => Op.begin pid b.1 b.2))).map outcome =
      List.replicate bs.length (some (GCMRet.IGNORE, some 2, some me.utid)) ∧
    Nested m pid me (d + bs.length) (run t (bs.map (fun b => Op.begin pid b.1 b.2))) := by
  induction bs generalizing d t with
  | nil => simpa [trace, run] using h
  | cons b rest ih =>
    obtain ⟨e1, e2⟩ := begin_subsumed m pid me d t b.1 b.2 h hd
    obtain ⟨i1, i2⟩ := ih (d + 1) _ e2 (by omega)
    simp only [List.map_cons, trace, List.length_cons, List.replicate_succ, List.cons.injEq]
    refine ⟨⟨?_, i1⟩, ?_⟩
    · simp only [stepFinal, outcome, Option.map_some', e1]
    · have hrun : run t (Op.begin pid b.1 b.2 :: rest.map (fun b => Op.begin pid b.1 b.2)) =
          run (begin t pid b.1 b.2).2 (rest.map (fun b => Op.begin pid b.1 b.2)) := rfl
      rw [hrun]
      have : d + ((rest.length + 1 : Nat) : Int) = d + 1 + (rest.length : Int) := by
        push_cast; ring
      rw [this]
      exact i2

theorem commits_subsumed (m : Policy) (pid : Nat) (me : tmState) (cs : List (Int × Nat))
    (d : Int) (t : transCoherence) (h : Nested m pid me d t) (hd : d > cs.length)
    (hs : me.state ≠ condition.DOABORT) :
    (trace t (cs.map (fun c => Op.commit pid c.1 c.2))).map outcome =
      List.replicate cs.length (some (GCMRet.IGNORE, some 2, some me.utid)) ∧
    Nested m pid me (d - cs.length) (run t (cs.map (fun c => Op.commit pid c.1 c.2))) := by
  induction cs generalizing d t with
  | nil => simpa [trace, run] using h
  | cons c rest ih =>
    simp only [List.length_cons, Nat.cast_add, Nat.cast_one] at hd
    obtain ⟨e1, e2⟩ := commit_subsumed m pid me d t c.1 c.2 h (by omega) hs
    obtain ⟨i1, i2⟩ := ih (d - 1) _ e2 (by omega)
    simp only [List.map_cons, trace, List.length_cons, List.replicate_succ, List.cons.injEq]
    refine ⟨⟨?_, i1⟩, ?_⟩
    · simp only [stepFinal, outcome, Option.map_some', e1]
    · have hrun : run t (Op.commit pid c.1 c.2 :: rest.map (fun c => Op.commit pid c.1 c.2)) =
          run (commit t pid c.1 c.2).2 (rest.map (fun c => Op.commit pid c.1 c.2)) := rfl
      rw [hrun]
      have : d - ((rest.length + 1 : Nat) : Int) = d - 1 - (rest.length : Int) := by
        push_cast; ring
      rw [this]
      exact i2

/-- The first begin of a process outside a transaction that is not replaying an
abort. -/
theorem begin_outermost (s : transCoherence) (pid : Nat) (picode : icode) (globalClock : Nat)
    (hd : s.tmDepth pid = 0) (h1 : (s.transState pid).state ≠ condition.ABORTING)
    (h2 : (s.transState pid).state ≠ condition.ABORTED) (hcc : s.currentCommitter = -1) :
    outcome (some (begin s pid picode globalClock).1) =
      some (GCMRet.SUCCESS, some (if s.abortCount pid > 0 then 1 else 0), some s.utid) ∧
    Nested s.methods pid
      { timestamp := globalClock, cycleFlag := false, state := condition.RUNNING,
        beginPC := picode.addr, utid := s.utid } 1 (begin s pid picode globalClock).2 := by
  unfold begin
  cases hm : s.methods <;> simp only
  · unfold beginEE
    simp only
    rw [if_neg (by omega), if_neg h1, if_neg h2]
    exact ⟨rfl, hm, by simp [hd], by simp, hcc⟩
  · unfold beginLL
    simp only
    rw [if_neg (by omega)]
    simp only [if_neg h1]
    exact ⟨rfl, hm, by simp [hd], by simp, hcc⟩

/-- The final branch of `commitLL`: result code, flag, tuid and depth. -/
theorem commitLL_final_facts (s : transCoherence) (pid : Nat) (tid : Int) (globalClock : Nat)
    (hd : ¬ s.tmDepth pid > 1) (hs : (s.transState pid).state = condition.COMMITTING) :
    (commitLL s pid tid globalClock).1.ret = GCMRet.SUCCESS ∧
    (commitLL s pid tid globalClock).1.BCFlag = some 0 ∧
    (commitLL s pid tid globalClock).1.tuid = some (s.transState pid).utid ∧
    (commitLL s pid tid globalClock).2.tmDepth pid = 0 := by
  have hk := (keepsIds_commitLL s pid tid globalClock).2.1 pid
  rw [commitLL_final s pid tid globalClock hd hs] at hk ⊢
  simp only at hk ⊢
  obtain ⟨m1, _⟩ := commitLoopLL_marks pid (resetTrans s pid).permCache
    (0, { resetTrans s pid with
          abortCount := Function.update (resetTrans s pid).abortCount pid 0
          tmDepth := Function.update (resetTrans s pid).tmDepth pid 0 })
  refine ⟨trivial, trivial, ?_, ?_⟩
  · rw [← hk]
  · simp only [setState]
    rw [m1]
    simp

/-- The two commits that end the outermost transaction. -/
theorem commit_outermost (m : Policy) (pid : Nat) (me : tmState) (t : transCoherence)
    (tid tid2 : Int) (globalClock globalClock2 : Nat) (h : Nested m pid me 1 t)
    (hs : me.state = condition.RUNNING) :
    outcome (some (commit t pid tid globalClock).1) =
      some (GCMRet.COMMIT_DELAY, some 0, some me.utid) ∧
    outcome (some (commit (commit t pid tid globalClock).2 pid tid2 globalClock2).1) =
      some (GCMRet.SUCCESS, some 0, some me.utid) ∧
    (commit (commit t pid tid globalClock).2 pid tid2 globalClock2).2.tmDepth pid = 0 := by
  obtain ⟨h1, h2, h3, h4⟩ := h
  have hst : (t.transState pid).state = condition.RUNNING := by rw [h3]; exact hs
  cases m
  · have hfirst : commit t pid tid globalClock =
        ({ ret := GCMRet.COMMIT_DELAY, BCFlag := some 0,
           writeSetSize := some (countWrites pid t.permCache), tuid := some me.utid },
          setState t pid condition.COMMITTING) := by
      simp only [commit, h1]
      unfold commitEE
      simp only
      rw [if_neg (by omega), if_neg (by rw [hst]; decide)]
      simp [setState, h3]
    rw [hfirst]
    refine ⟨rfl, ?_, ?_⟩
    · simp only [commit, setState, h1]
      unfold commitEE
      simp only
      rw [if_neg (by simp; omega), if_pos (by simp)]
      simp [outcome, setState, resetTrans, h3]
    · simp only [commit, setState, h1]
      unfold commitEE
      simp only
      rw [if_neg (by simp; omega), if_pos (by simp)]
      simp [setState, resetTrans]
  · have hfirst : commit t pid tid globalClock =
        ({ ret := GCMRet.COMMIT_DELAY, BCFlag := some 0,
           writeSetSize := some (countWrites pid t.permCache), tuid := some me.utid },
          setState { t with currentCommitter := (pid : Int) } pid condition.COMMITTING) := by
      simp only [commit, h1]
      unfold commitLL
      rw [if_neg (by rw [hst]; decide), if_neg (by omega), if_neg (by rw [hst]; decide),
        if_neg (by rw [h4]; decide)]
      simp [setState, h3, h1]
    rw [hfirst]
    have hm2 : (setState { t with currentCommitter := (pid : Int) } pid
        condition.COMMITTING).methods = Policy.LL := h1
    have hd2 : ¬ (setState { t with currentCommitter := (pid : Int) } pid
        condition.COMMITTING).tmDepth pid > 1 := by
      simp only [setState]; omega
    have hs2 : ((setState { t with currentCommitter := (pid : Int) } pid
        condition.COMMITTING).transState pid).state = condition.COMMITTING := by
      simp [setState]
    have hu2 : ((setState { t with currentCommitter := (pid : Int) } pid
        condition.COMMITTING).transState pid).utid = me.utid := by
      simp [setState, h3]
    generalize setState { t with currentCommitter := (pid : Int) } pid condition.COMMITTING = t2
      at hm2 hd2 hs2 hu2 ⊢
    obtain ⟨f1, f2, f3, f4⟩ := commitLL_final_facts t2 pid tid2 globalClock2 hd2 hs2
    simp only [commit, hm2]
    refine ⟨rfl, ?_, f4⟩
    simp only [outcome, Option.map_some', f1, f2, f3, hu2]

/-- C15. Subsumed nesting, under either policy. Let `pid` have depth 0 and a state
neither ABORTING nor ABORTED, with `currentCommitter = -1`. Of `n` begins in a
row by `pid` (the first and the `n - 1` of `bs`) the first returns SUCCESS and
the others IGNORE with BCFlag 2; the `n - 1` commits that follow (`cs`) return
IGNORE with BCFlag 2, the next commit returns COMMIT_DELAY and the one after it
SUCCESS; every tuid returned is the tuid of the first begin, and the depth of
`pid` is 0 at the end. -/
theorem subsumed_nesting (s : transCoherence) (pid : Nat) (b0 : icode × Nat)
    (bs : List (icode × Nat)) (cs : List (Int × Nat)) (c1 c2 : Int × Nat)
    (hn : cs.length = bs.length) (hd : s.tmDepth pid = 0)
    (h1 : (s.transState pid).state ≠ condition.ABORTING)
    (h2 : (s.transState pid).state ≠ condition.ABORTED) (hcc : s.currentCommitter = -1) :
    (trace s (Op.begin pid b0.1 b0.2 :: (bs.map (fun b => Op.begin pid b.1 b.2) ++
        (cs.map (fun c => Op.commit pid c.1 c.2) ++
          [Op.commit pid c1.1 c1.2, Op.commit pid c2.1 c2.2])))).map outcome =
      some (GCMRet.SUCCESS, some (if s.abortCount pid > 0 then 1 else 0), some s.utid) ::
        (List.replicate bs.length (some (GCMRet.IGNORE, some 2, some s.utid)) ++
          (List.replicate bs.length (some (GCMRet.IGNORE, some 2, some s.utid)) ++
            [some (GCMRet.COMMIT_DELAY, some 0, some s.utid),
              some (GCMRet.SUCCESS, some 0, some s.utid)])) ∧
    (run s (Op.begin pid b0.1 b0.2 :: (bs.map (fun b => Op.begin pid b.1 b.2) ++
        (cs.map (fun c => Op.commit pid c.1 c.2) ++
          [Op.commit pid c1.1 c1.2, Op.commit pid c2.1 c2.2])))).tmDepth pid = 0 := by
  obtain ⟨a1, a2⟩ := begin_outermost s pid b0.1 b0.2 hd h1 h2 hcc
  obtain ⟨b1, b2⟩ := begins_subsumed s.methods pid _ bs 1 _ a2 (by decide)
  obtain ⟨c1', c2'⟩ := commits_subsumed s.methods pid _ cs (1 + bs.length) _ b2
    (by rw [hn]; omega) (by simp)
  have hdepth : (1 : Int) + bs.length - cs.length = 1 := by rw [hn]; ring
  rw [hdepth] at c2'
  obtain ⟨d1, d2, d3⟩ := commit_outermost s.methods pid _ _ c1.1 c2.1 c1.2 c2.2 c2' rfl
  rw [hn] at c1'
  have ht : trace s (Op.begin pid b0.1 b0.2 :: (bs.map (fun b => Op.begin pid b.1 b.2) ++
        (cs.map (fun c => Op.commit pid c.1 c.2) ++
          [Op.commit pid c1.1 c1.2, Op.commit pid c2.1 c2.2]))) =
      some (begin s pid b0.1 b0.2).1 ::
        (trace (begin s pid b0.1 b0.2).2 (bs.map (fun b => Op.begin pid b.1 b.2)) ++
          (trace (run (begin s pid b0.1 b0.2).2 (bs.map (fun b => Op.begin pid b.1 b.2)))
              (cs.map (fun c => Op.commit pid c.1 c.2)) ++
            [some (commit (run (run (begin s pid b0.1 b0.2).2
                (bs.map (fun b => Op.begin pid b.1 b.2)))
                (cs.map (fun c => Op.commit pid c.1 c.2))) pid c1.1 c1.2).1,
              some (commit (commit (run (run (begin s pid b0.1 b0.2).2
                (bs.map (fun b => Op.begin pid b.1 b.2)))
                (cs.map (fun c => Op.commit pid c.1 c.2))) pid c1.1 c1.2).2 pid c2.1 c2.2).1])) := by
    simp only [trace, trace_append]
    rfl
  have hrun : ∀ l, run s (Op.begin pid b0.1 b0.2 :: l) = run (begin s pid b0.1 b0.2).2 l :=
    fun _ => rfl
  constructor
  · rw [ht, List.map_cons, List.map_append, List.map_append, List.map_cons, List.map_cons,
      List.map_nil, a1, b1, c1', d1, d2]
  · rw [hrun, run_append, run_append]
    exact d3

/-- Witness of C15: two begins and three commits of process 0. -/
theorem subsumed_nesting_witness :
    (trace eagerInit [Op.begin 0 ⟨0, 0⟩ 10, Op.begin 0 ⟨4, 0⟩ 11, Op.commit 0 0 20,
      Op.commit 0 0 21, Op.commit 0 0 30]).map outcome =
      [some (GCMRet.SUCCESS, some 0, some 0), some (GCMRet.IGNORE, some 2, some 0),
        some (GCMRet.IGNORE, some 2, some 0), some (GCMRet.COMMIT_DELAY, some 0, some 0),
        some (GCMRet.SUCCESS, some 0, some 0)] ∧
    (run eagerInit [Op.begin 0 ⟨0, 0⟩ 10, Op.begin 0 ⟨4, 0⟩ 11, Op.commit 0 0 20,
      Op.commit 0 0 21, Op.commit 0 0 30]).tmDepth 0 = 0 :=
  subsumed_nesting eagerInit 0 (⟨0, 0⟩, 10) [(⟨4, 0⟩, 11)] [(0, 20)] (0, 21) (0, 30)
    rfl (by decide) (by decide) (by decide) (by decide)

/-! ## Abort and replay -/

/-- C21. What the code does under the lazy policy: `abortLL` and `beginLL` leave
the line table as it is, in every state. So when process 0 begins, reads the
line 512, writes the line 576 and aborts (SUCCESS), and its next begin returns
SUCCESS, process 0 is still among the readers of line 512 and the writers of
line 576. The same calls on the eager module leave both sets empty, as the
comment in `beginLL` ("invalidate all the memory addresses we touched") asks
for. -/
theorem lazy_abort_keeps_sets :
    (∀ (s : transCoherence) (pid : Nat) (tid : Int) (picode : icode) (globalClock : Nat),
      (abortLL s pid tid globalClock).2.permCache = s.permCache ∧
      (beginLL s pid picode globalClock).2.permCache = s.permCache) ∧
    (abort (run lazyInit [Op.begin 0 ⟨0, 0⟩ 10, Op.read 0 0 512, Op.write 0 0 576])
      0 0 20).1.ret = GCMRet.SUCCESS ∧
    (begin (run lazyInit [Op.begin 0 ⟨0, 0⟩ 10, Op.read 0 0 512, Op.write 0 0 576,
      Op.abort 0 0 20]) 0 ⟨0, 0⟩ 30).1.ret = GCMRet.SUCCESS ∧
    (run lazyInit [Op.begin 0 ⟨0, 0⟩ 10, Op.read 0 0 512, Op.write 0 0 576, Op.abort 0 0 20,
      Op.begin 0 ⟨0, 0⟩ 30]).permCache =
      [(512, ⟨perState.R, [0], []⟩), (576, ⟨perState.W, [], [0]⟩)] ∧
    (run eagerInit [Op.begin 0 ⟨0, 0⟩ 10, Op.read 0 0 512, Op.write 0 0 576, Op.abort 0 0 20,
      Op.begin 0 ⟨0, 0⟩ 30]).permCache =
      [(512, ⟨perState.R, [], []⟩), (576, ⟨perState.W, [], []⟩)] := by
  refine ⟨fun s pid tid picode globalClock => ⟨rfl, ?_⟩, by decide⟩
  unfold beginLL
  simp only
  split_ifs <;> rfl

/-- C22, counterexample. Process 0 begins at clock 10 (timestamp 10), aborts,
gets BACKOFF from the begin at clock 30 and SUCCESS from the begin at clock 40:
its timestamp is then 40, not 10. -/
theorem timestamp_replay_counterexample :
    (begin eagerInit 0 ⟨0, 0⟩ 10).1.ret = GCMRet.SUCCESS ∧
    ((run eagerInit [Op.begin 0 ⟨0, 0⟩ 10]).transState 0).timestamp = 10 ∧
    (begin (run eagerInit [Op.begin 0 ⟨0, 0⟩ 10, Op.abort 0 0 20]) 0 ⟨0, 0⟩ 30).1.ret =
      GCMRet.BACKOFF ∧
    (begin (run eagerInit [Op.begin 0 ⟨0, 0⟩ 10, Op.abort 0 0 20, Op.begin 0 ⟨0, 0⟩ 30])
      0 ⟨0, 0⟩ 40).1.ret = GCMRet.SUCCESS ∧
    ((run eagerInit [Op.begin 0 ⟨0, 0⟩ 10, Op.abort 0 0 20, Op.begin 0 ⟨0, 0⟩ 30,
      Op.begin 0 ⟨0, 0⟩ 40]).transState 0).timestamp = 40 := by
  decide

/-- C22, amended. Under the eager policy, when the begin of `pid` at clock `t0`
returns SUCCESS the timestamp of `pid` is `t0`; the abort that follows sets it
to the sentinel `~0ULL - 1024`; the next begin returns BACKOFF and leaves the
sentinel; the begin after that, at clock `t1`, returns SUCCESS and sets the
timestamp to `t1`. So the replay carries the time of its own begin. -/
theorem timestamp_replay (s : transCoherence) (hm : s.methods = Policy.EE) (pid : Nat)
    (picode picode1 picode2 : icode) (tid : Int) (t0 ta tb t1 : Nat)
    (hS : (begin s pid picode t0).1.ret = GCMRet.SUCCESS) :
    ((begin s pid picode t0).2.transState pid).timestamp = t0 ∧
    ((abort (begin s pid picode t0).2 pid tid ta).2.transState pid).timestamp = noTimestamp ∧
    (begin (abort (begin s pid picode t0).2 pid tid ta).2 pid picode1 tb).1.ret =
      GCMRet.BACKOFF ∧
    ((begin (abort (begin s pid picode t0).2 pid tid ta).2 pid picode1 tb).2.transState
      pid).timestamp = noTimestamp ∧
    (begin (begin (abort (begin s pid picode t0).2 pid tid ta).2 pid picode1 tb).2
      pid picode2 t1).1.ret = GCMRet.SUCCESS ∧
    ((begin (begin (abort (begin s pid picode t0).2 pid tid ta).2 pid picode1 tb).2
      pid picode2 t1).2.transState pid).timestamp = t1 := by
  have hfirst : ((begin s pid picode t0).2.transState pid).timestamp = t0 ∧
      (begin s pid picode t0).2.methods = Policy.EE := by
    simp only [begin, hm] at hS ⊢
    unfold beginEE at hS ⊢
    simp only at hS ⊢
    split_ifs at hS ⊢ <;> first
      | (simp at hS; done)
      | exact ⟨by simp, hm⟩
  obtain ⟨h1, hm1⟩ := hfirst
  generalize (begin s pid picode t0).2 = s1 at h1 hm1 ⊢
  have habort : abort s1 pid tid ta = abortEE s1 pid tid ta := by simp only [abort, hm1]
  have hs2 : ((abort s1 pid tid ta).2.transState pid) =
      { timestamp := noTimestamp, cycleFlag := false, state := condition.ABORTING, beginPC := 0,
        utid := (s1.transState pid).utid } ∧ (abort s1 pid tid ta).2.tmDepth pid = 0 ∧
      (abort s1 pid tid ta).2.methods = Policy.EE := by
    rw [habort]
    unfold abortEE
    exact ⟨by simp [setState, resetTrans], by simp [setState, resetTrans], hm1⟩
  obtain ⟨h2, hd2, hm2⟩ := hs2
  generalize (abort s1 pid tid ta).2 = s2 at h2 hd2 hm2 ⊢
  have hs3 : (begin s2 pid picode1 tb).1.ret = GCMRet.BACKOFF ∧
      (begin s2 pid picode1 tb).2.transState pid =
        { timestamp := noTimestamp, cycleFlag := false, state := condition.RUNNING, beginPC := 0,
          utid := (s1.transState pid).utid } ∧ (begin s2 pid picode1 tb).2.tmDepth pid = 0 ∧
      (begin s2 pid picode1 tb).2.methods = Policy.EE := by
    simp only [begin, hm2]
    unfold beginEE
    simp only
    have hst : (s2.transState pid).state = condition.ABORTING := by rw [h2]
    rw [if_neg (by omega)]
    simp only [if_pos hst]
    simp [setState, h2, hd2, hm2]
  obtain ⟨h3r, h3, hd3, hm3⟩ := hs3
  generalize begin s2 pid picode1 tb = r3 at h3r h3 hd3 hm3 ⊢
  have hna : (r3.2.transState pid).state ≠ condition.ABORTING := by rw [h3]; simp
  have hnb : (r3.2.transState pid).state ≠ condition.ABORTED := by rw [h3]; simp
  refine ⟨h1, by rw [h2], h3r, by rw [h3], ?_, ?_⟩
  · simp only [begin, hm3]
    unfold beginEE
    simp only
    rw [if_neg (by omega)]
    simp only [if_neg hna, if_neg hnb]
  · simp only [begin, hm3]
    unfold beginEE
    simp only
    rw [if_neg (by omega)]
    simp only [if_neg hna, if_neg hnb]
    simp

/-- Witness of the amended C22: the replay of process 0 on the eager module ends
with timestamp 40. -/
theorem timestamp_replay_witness :
    (begin eagerInit 0 ⟨0, 0⟩ 10).1.ret = GCMRet.SUCCESS ∧
    ((begin (begin (abort (begin eagerInit 0 ⟨0, 0⟩ 10).2 0 0 20).2 0 ⟨0, 0⟩ 30).2
      0 ⟨0, 0⟩ 40).2.transState 0).timestamp = 40 :=
  ⟨by decide,
    (timestamp_replay eagerInit rfl 0 ⟨0, 0⟩ ⟨0, 0⟩ ⟨0, 0⟩ 0 10 20 30 40 (by decide)).2.2.2.2.2⟩

/-! ## `checkAbort` and the constructor -/

theorem setState_self (s : transCoherence) (pid : Nat) :
    setState s pid (s.transState pid).state = s := by
  unfold setState
  have h : ({ s.transState pid with state := (s.transState pid).state } : tmState) =
      s.transState pid := rfl
  rw [h, Function.update_eq_self]

/-- C23. `checkAbort(pid, tid)` returns true exactly when the state of `pid` is
DOABORT on entry; when it returns true the state of `pid` becomes ABORTING;
when it returns false the module is unchanged; and in both cases the module
afterwards is the module before with only the `state` of `transState[pid]`
set (to the value it has afterwards). -/
theorem checkAbort_spec (s : transCoherence) (pid : Nat) (tid : Int) :
    ((checkAbort s pid tid).1 = true ↔ (s.transState pid).state = condition.DOABORT) ∧
    ((checkAbort s pid tid).1 = true →
      ((checkAbort s pid tid).2.transState pid).state = condition.ABORTING) ∧
    ((checkAbort s pid tid).1 = false → (checkAbort s pid tid).2 = s) ∧
    (checkAbort s pid tid).2 = setState s pid ((checkAbort s pid tid).2.transState pid).state := by
  unfold checkAbort
  by_cases h : (s.transState pid).state = condition.DOABORT
  · rw [if_pos h]
    refine ⟨by simp [h], fun _ => by simp [setState], fun h1 => by simp at h1, ?_⟩
    simp [setState]
  · rw [if_neg h]
    refine ⟨by simp [h], fun h1 => by simp at h1, fun _ => rfl, ?_⟩
    exact (setState_self s pid).symm

/-- C24. The constructor exits exactly when versioning is non-zero and
conflictDetection is zero. Otherwise it installs the eager methods when
conflictDetection is non-zero (so for (1,1) and (0,1)) and the lazy methods
when it is zero (so for (0,0)), and every process starts with state INVALID,
timestamp `~0ULL - 1024`, cycle flag false, begin PC 0, depth 0, abort count
0, stall cycle 0 and abort reason (0, 0); `currentCommitter` is -1, the utid
counter 0 and the line table empty. -/
theorem construct_spec (raw : transCoherence) (conflicts versioning : Int) (cacheLineSize : Nat) :
    (construct raw conflicts versioning cacheLineSize = none ↔
      (versioning ≠ 0 ∧ conflicts = 0)) ∧
    (∀ s0, construct raw conflicts versioning cacheLineSize = some s0 →
      (conflicts ≠ 0 → s0.methods = Policy.EE) ∧
      (conflicts = 0 → s0.methods = Policy.LL) ∧
      (∀ p, (s0.transState p).state = condition.INVALID ∧
        (s0.transState p).timestamp = 2 ^ 64 - 1 - 1024 ∧
        (s0.transState p).cycleFlag = false ∧ (s0.transState p).beginPC = 0 ∧
        s0.tmDepth p = 0 ∧ s0.abortCount p = 0 ∧ s0.stallCycle p = 0 ∧
        s0.abortReason p = (0, 0)) ∧
      s0.currentCommitter = -1 ∧ s0.utid = 0 ∧ s0.permCache = [] ∧
      s0.conflictDetection = conflicts ∧ s0.versioning = versioning ∧
      s0.cacheLineSize = cacheLineSize) := by
  unfold construct
  by_cases hv : versioning = 0 <;> by_cases hc : conflicts = 0
  · simp [hv, hc, noTimestamp]
  · simp [hv, hc, noTimestamp]
  · simp [hv, hc]
  · simp [hv, hc, noTimestamp]

/-! ## The offender of an eager write -/

/-- C29. Offender selection in `writeEE`, in a state whose sets are sets: if the
line has a reader other than `pid`, the write is the conflict tail entered with
the offender `firstOther pid readers`, whatever the writers are; that offender
is a reader, is not `pid`, and is the least reader other than `pid`; and when
the first reader is `pid` the set has a next element, so the advance of the
iterator stays inside the set. If no reader differs from `pid` and a writer
does, the same holds with the writers. -/
theorem writeEE_offender (s : transCoherence) (hwf : SetsWF s) (pid : Nat) (tid : Int)
    (raddr : Nat) :
    ((∃ q ∈ readersOf s (addrToCacheLine s raddr), q ≠ pid) →
      writeEE s pid tid raddr =
        nackOrAbort s pid (firstOther pid (readersOf s (addrToCacheLine s raddr))) ∧
      firstOther pid (readersOf s (addrToCacheLine s raddr)) ∈
        readersOf s (addrToCacheLine s raddr) ∧
      firstOther pid (readersOf s (addrToCacheLine s raddr)) ≠ pid ∧
      (∀ r ∈ readersOf s (addrToCacheLine s raddr), r ≠ pid →
        firstOther pid (readersOf s (addrToCacheLine s raddr)) ≤ r) ∧
      ((readersOf s (addrToCacheLine s raddr)).head? = some pid →
        (readersOf s (addrToCacheLine s raddr)).tail ≠ [])) ∧
    ((¬ ∃ q ∈ readersOf s (addrToCacheLine s raddr), q ≠ pid) →
      (∃ q ∈ writersOf s (addrToCacheLine s raddr), q ≠ pid) →
      writeEE s pid tid raddr =
        nackOrAbort s pid (firstOther pid (writersOf s (addrToCacheLine s raddr))) ∧
      firstOther pid (writersOf s (addrToCacheLine s raddr)) ∈
        writersOf s (addrToCacheLine s raddr) ∧
      firstOther pid (writersOf s (addrToCacheLine s raddr)) ≠ pid ∧
      (∀ r ∈ writersOf s (addrToCacheLine s raddr), r ≠ pid →
        firstOther pid (writersOf s (addrToCacheLine s raddr)) ≤ r) ∧
      ((writersOf s (addrToCacheLine s raddr)).head? = some pid →
        (writersOf s (addrToCacheLine s raddr)).tail ≠ [])) := by
  obtain ⟨hsr, hsw⟩ := setsWF_line s hwf (addrToCacheLine s raddr)
  have htail : ∀ set : List Nat, (∃ q ∈ set, q ≠ pid) → set.head? = some pid → set.tail ≠ [] := by
    intro set ⟨q, hq, hne⟩ hh
    match set, hq, hh with
    | a :: rest, hq, hh =>
      simp only [List.head?_cons, Option.some.injEq] at hh
      subst hh
      intro ht
      simp only [List.tail_cons] at ht
      subst ht
      simp at hq
      exact hne hq
  constructor
  · intro hr
    obtain ⟨f1, f2, f3⟩ := firstOther_spec pid _ hsr hr
    exact ⟨writeEE_reader_conflict s hwf pid tid raddr hr, f1, f2, f3, htail _ hr⟩
  · intro hr hw
    obtain ⟨f1, f2, f3⟩ := firstOther_spec pid _ hsw hw
    exact ⟨writeEE_writer_conflict s hwf pid tid raddr hr hw, f1, f2, f3, htail _ hw⟩

/-- Witness of C29: line 256 has the readers 0, 1 and 2 and process 0 writes it;
the offender is not process 0. -/
theorem writeEE_offender_witness :
    SetsWF (run eagerInit [Op.read 0 0 256, Op.read 1 0 256, Op.read 2 0 256]) ∧
    readersOf (run eagerInit [Op.read 0 0 256, Op.read 1 0 256, Op.read 2 0 256])
      (addrToCacheLine (run eagerInit [Op.read 0 0 256, Op.read 1 0 256, Op.read 2 0 256]) 256) =
      [0, 1, 2] ∧
    firstOther 0 (readersOf (run eagerInit [Op.read 0 0 256, Op.read 1 0 256, Op.read 2 0 256])
      (addrToCacheLine (run eagerInit [Op.read 0 0 256, Op.read 1 0 256, Op.read 2 0 256]) 256)) ≠
      0 :=
  have hwf := setsWF_run rawZero eagerInit 1 1 64 rfl
    [Op.read 0 0 256, Op.read 1 0 256, Op.read 2 0 256]
  ⟨hwf, by decide,
    ((writeEE_offender _ hwf 0 0 256).1 ⟨1, by decide, by decide⟩).2.2.1⟩

/-! ## The marker of a line -/

theorem markerOf_congr (s t : transCoherence) (a : Nat) (h : t.permCache = s.permCache) :
    markerOf t a = markerOf s a := by
  unfold markerOf; rw [h]

theorem mapFind_map_marker (a : Nat) (m : List (Nat × cacheState))
    (g : Nat × cacheState → Nat × cacheState)
    (hg : ∀ e, (g e).1 = e.1 ∧ (g e).2.state = e.2.state) :
    (mapFind a (m.map g)).map (fun per => per.state) =
      (mapFind a m).map (fun per => per.state) := by
  induction m with
  | nil => rfl
  | cons e rest ih =>
    obtain ⟨k0, v0⟩ := e
    have h1 := (hg (k0, v0)).1
    have h2 := (hg (k0, v0)).2
    rw [List.map_cons]
    have hge : g (k0, v0) = ((g (k0, v0)).1, (g (k0, v0)).2) := rfl
    rw [hge]
    simp only [mapFind]
    simp only at h1 h2
    rw [h1]
    by_cases hk : a = k0
    · simp only [hk, if_true, Option.map_some', h2]
    · simp only [if_neg hk]; exact ih

/-- The marker after `permCache[caddr] = per`. -/
theorem markerOf_mapSet (s : transCoherence) (caddr : Nat) (per : cacheState) (a : Nat) :
    (mapFind a (mapSet caddr per s.permCache)).map (fun x => x.state) =
      if a = caddr then some per.state else markerOf s a := by
  by_cases h : a = caddr
  · subst h; rw [mapFind_mapSet_self, if_pos rfl]; rfl
  · rw [mapFind_mapSet_ne _ _ _ _ h, if_neg h]; rfl

theorem marker_access_existing (s : transCoherence) (pid : Nat) (c : condition) (caddr a : Nat)
    (per per1 : cacheState) (hper : mapFind caddr s.permCache = some per)
    (hst : per1.state = per.state) :
    markerOf (setState { s with permCache := mapSet caddr per1 s.permCache } pid c) a =
      markerOf s a := by
  have h := markerOf_mapSet s caddr per1 a
  unfold markerOf at h ⊢
  simp only [setState]
  rw [h]
  split_ifs with ha
  · subst ha; rw [hper, hst]; rfl
  · rfl

theorem marker_access_new (s : transCoherence) (pid : Nat) (c : condition) (caddr a : Nat)
    (per1 : cacheState) (hnone : mapFind caddr s.permCache = none) :
    markerOf (setState { s with permCache := mapSet caddr per1 s.permCache } pid c) a =
        markerOf s a ∨
      (markerOf s a = none ∧ a = caddr ∧
        markerOf (setState { s with permCache := mapSet caddr per1 s.permCache } pid c) a =
          some per1.state) := by
  have h := markerOf_mapSet s caddr per1 a
  unfold markerOf at h ⊢
  simp only [setState]
  rw [h]
  by_cases ha : a = caddr
  · right
    subst ha
    rw [hnone, if_pos rfl]
    exact ⟨rfl, rfl, rfl⟩
  · left; rw [if_neg ha]

theorem marker_eraseEverywhere (s : transCoherence) (pid a : Nat) :
    (mapFind a (eraseEverywhere pid s.permCache)).map (fun per => per.state) = markerOf s a := by
  unfold eraseEverywhere markerOf
  exact mapFind_map_marker a _ _ (fun e => ⟨rfl, rfl⟩)

/-- One call leaves the marker of a line as it is, or gives a line that had no
entry the marker R (a read of the line) or W (a write of the line). -/
theorem marker_step (s : transCoherence) (op : Op) (a : Nat) :
    markerOf (step s op) a = markerOf s a ∨
    (markerOf s a = none ∧
      ((markerOf (step s op) a = some perState.R ∧
          ∃ pid tid raddr, op = Op.read pid tid raddr ∧ addrToCacheLine s raddr = a) ∨
        (markerOf (step s op) a = some perState.W ∧
          ∃ pid tid raddr, op = Op.write pid tid raddr ∧ addrToCacheLine s raddr = a))) := by
  have hnack : ∀ pid q, markerOf (nackOrAbort s pid q).2 a = markerOf s a :=
    fun pid q => markerOf_congr _ _ a (nackOrAbort_permCache s pid q).1
  cases op with
  | read pid tid raddr =>
    simp only [step, read]
    cases s.methods
    · simp only
      unfold readEE
      simp only
      split
      · rename_i per hper
        split_ifs
        · exact Or.inl (hnack pid _)
        · exact Or.inl (marker_access_existing s pid _ _ a per _ hper rfl)
      · rename_i hnone
        rcases marker_access_new s pid condition.RUNNING _ a (newReadState pid) hnone with h | h
        · exact Or.inl h
        · exact Or.inr ⟨h.1, Or.inl ⟨h.2.2, pid, tid, raddr, rfl, h.2.1.symm⟩⟩
    · simp only
      unfold readLL
      simp only
      split_ifs
      · exact Or.inl (markerOf_congr _ _ a rfl)
      · split
        · rename_i per hper
          exact Or.inl (marker_access_existing s pid _ _ a per _ hper rfl)
        · rename_i hnone
          rcases marker_access_new s pid condition.RUNNING _ a (newReadState pid) hnone with h | h
          · exact Or.inl h
          · exact Or.inr ⟨h.1, Or.inl ⟨h.2.2, pid, tid, raddr, rfl, h.2.1.symm⟩⟩
  | write pid tid raddr =>
    simp only [step, write]
    cases s.methods
    · simp only
      unfold writeEE
      simp only
      split
      · rename_i per hper
        split_ifs
        · exact Or.inl (hnack pid _)
        · exact Or.inl (hnack pid _)
        · exact Or.inl (marker_access_existing s pid _ _ a per _ hper rfl)
      · rename_i hnone
        rcases marker_access_new s pid condition.RUNNING _ a (newWriteState pid) hnone with h | h
        · exact Or.inl h
        · exact Or.inr ⟨h.1, Or.inr ⟨h.2.2, pid, tid, raddr, rfl, h.2.1.symm⟩⟩
    · simp only
      unfold writeLL
      simp only
      split_ifs
      · exact Or.inl (markerOf_congr _ _ a rfl)
      · split
        · rename_i per hper
          exact Or.inl (marker_access_existing s pid _ _ a per _ hper rfl)
        · rename_i hnone
          rcases marker_access_new s pid condition.RUNNING _ a (newWriteState pid) hnone with h | h
          · exact Or.inl h
          · exact Or.inr ⟨h.1, Or.inr ⟨h.2.2, pid, tid, raddr, rfl, h.2.1.symm⟩⟩
  | «begin» pid picode clk =>
    left
    simp only [step, begin]
    cases s.methods
    · simp only
      unfold beginEE
      simp only
      split_ifs <;> first
        | exact markerOf_congr _ _ a rfl
        | exact marker_eraseEverywhere s pid a
    · simp only
      unfold beginLL
      simp only
      split_ifs <;> exact markerOf_congr _ _ a rfl
  | commit pid tid clk =>
    left
    simp only [step, commit]
    cases s.methods
    · simp only
      unfold commitEE
      simp only
      split_ifs <;> first
        | exact markerOf_congr _ _ a rfl
        | exact marker_eraseEverywhere s pid a
    · simp only
      by_cases h1 : (s.transState pid).state = condition.DOABORT
      · unfold commitLL; rw [if_pos h1]; exact markerOf_congr _ _ a rfl
      by_cases h2 : s.tmDepth pid > 1
      · unfold commitLL; rw [if_neg h1, if_pos h2]; exact markerOf_congr _ _ a rfl
      by_cases h3 : (s.transState pid).state = condition.COMMITTING
      · rw [commitLL_final s pid tid clk h2 h3]
        simp only
        unfold markerOf
        simp only [setState]
        rw [commitLoopLL_lines]
        refine mapFind_map_marker a _ _ (fun e => ?_)
        split_ifs <;> exact ⟨rfl, rfl⟩
      by_cases h4 : s.currentCommitter ≥ 0
      · unfold commitLL; rw [if_neg h1, if_neg h2, if_neg h3, if_pos h4]
        exact markerOf_congr _ _ a rfl
      · unfold commitLL; rw [if_neg h1, if_neg h2, if_neg h3, if_neg h4]
        exact markerOf_congr _ _ a rfl
  | abort pid tid clk =>
    left
    simp only [step, abort]
    cases s.methods <;> exact markerOf_congr _ _ a rfl
  | checkAbort pid tid =>
    left
    simp only [step, checkAbort]
    split_ifs <;> exact markerOf_congr _ _ a rfl
  | stallUntil pid cycles => exact Or.inl (markerOf_congr _ _ a rfl)

theorem marker_run (ops : List Op) (s : transCoherence) (a : Nat) (st : perState)
    (h : markerOf s a = some st) : markerOf (run s ops) a = some st := by
  induction ops generalizing s with
  | nil => exact h
  | cons op rest ih =>
    apply ih (step s op)
    rcases marker_step s op a with h1 | h1
    · rw [h1]; exact h
    · rw [h1.1] at h; simp at h

theorem marker_not_invalid_run (ops : List Op) (s : transCoherence) (a : Nat)
    (h : markerOf s a ≠ some perState.I) : markerOf (run s ops) a ≠ some perState.I := by
  induction ops generalizing s with
  | nil => exact h
  | cons op rest ih =>
    apply ih (step s op)
    rcases marker_step s op a with h1 | h1
    · rw [h1]; exact h
    · rcases h1.2 with h2 | h2
      · rw [h2.1]; simp
      · rw [h2.1]; simp

theorem construct_permCache (raw s0 : transCoherence) (conflicts versioning : Int)
    (cacheLineSize : Nat) (h0 : construct raw conflicts versioning cacheLineSize = some s0) :
    s0.permCache = [] ∧ (∀ p, s0.tmDepth p = 0) := by
  unfold construct at h0
  simp only at h0
  split at h0
  · simp at h0
  · simp only [Option.some.injEq] at h0
    subst h0
    exact ⟨rfl, fun _ => rfl⟩

/-- C30, counterexample. Under both policies, after process 0 begins, reads
address 256 and then writes it, the entry of line 256 has process 0 among its
writers and still carries the marker R. -/
theorem marker_counterexample :
    mapFind 256
        (run eagerInit [Op.begin 0 ⟨4096, 1⟩ 10, Op.read 0 0 256, Op.write 0 0 256]).permCache =
      some ⟨perState.R, [0], [0]⟩ ∧
    mapFind 256
        (run lazyInit [Op.begin 0 ⟨4096, 1⟩ 10, Op.read 0 0 256, Op.write 0 0 256]).permCache =
      some ⟨perState.R, [0], [0]⟩ := by
  decide

/-- C30, amended. In a module built by the constructor (either policy), after
any sequence of calls: no line carries the marker Invalid; one more call leaves
the marker of a line as it is, or creates the entry of the line, with the
marker R when the call is a read of the line and W when it is a write of it;
and a marker that a line carries stays the same over all later calls. So the
marker records the access that created the entry, not the present sets. -/
theorem marker_fixed_at_creation (raw s0 : transCoherence) (conflicts versioning : Int)
    (cacheLineSize : Nat) (h0 : construct raw conflicts versioning cacheLineSize = some s0)
    (ops : List Op) (op : Op) (later : List Op) (a : Nat) :
    markerOf (run s0 ops) a ≠ some perState.I ∧
    (markerOf (run s0 (ops ++ [op])) a = markerOf (run s0 ops) a ∨
      (markerOf (run s0 ops) a = none ∧
        ((markerOf (run s0 (ops ++ [op])) a = some perState.R ∧
            ∃ pid tid raddr, op = Op.read pid tid raddr ∧
              addrToCacheLine (run s0 ops) raddr = a) ∨
          (markerOf (run s0 (ops ++ [op])) a = some perState.W ∧
            ∃ pid tid raddr, op = Op.write pid tid raddr ∧
              addrToCacheLine (run s0 ops) raddr = a)))) ∧
    (∀ st, markerOf (run s0 ops) a = some st →
      markerOf (run s0 (ops ++ later)) a = some st) := by
  have hinit : markerOf s0 a ≠ some perState.I := by
    unfold markerOf
    rw [(construct_permCache raw s0 conflicts versioning cacheLineSize h0).1]
    simp [mapFind]
  refine ⟨marker_not_invalid_run ops s0 a hinit, ?_, ?_⟩
  · have h := marker_step (run s0 ops) op a
    rw [run_append]
    exact h
  · intro st hst
    rw [run_append]
    exact marker_run later _ a st hst

/-- Witness of the amended C30: the line 256 that process 0 read keeps the marker
R when process 0 writes it. -/
theorem marker_fixed_at_creation_witness :
    construct rawZero 1 1 64 = some eagerInit ∧
    markerOf (run eagerInit [Op.begin 0 ⟨4096, 1⟩ 10, Op.read 0 0 256]) 256 = some perState.R ∧
    markerOf (run eagerInit
      ([Op.begin 0 ⟨4096, 1⟩ 10, Op.read 0 0 256] ++ [Op.write 0 0 256])) 256 =
      some perState.R :=
  ⟨rfl, by decide,
    (marker_fixed_at_creation rawZero eagerInit 1 1 64 rfl
      [Op.begin 0 ⟨4096, 1⟩ 10, Op.read 0 0 256] (Op.write 0 0 256) [Op.write 0 0 256] 256).2.2
      perState.R (by decide)⟩

/-! ## The nesting depth along a sequence of calls -/

theorem nackOrAbort_tmDepth (s : transCoherence) (pid nackPid : Nat) :
    (nackOrAbort s pid nackPid).2.tmDepth = s.tmDepth := by
  unfold nackOrAbort
  simp only
  split_ifs <;> simp [setState, raiseCycleFlag]

theorem read_tmDepth (s : transCoherence) (pid : Nat) (tid : Int) (raddr : Nat) :
    (read s pid tid raddr).2.tmDepth = s.tmDepth := by
  unfold read
  cases s.methods
  · simp only
    unfold readEE
    simp only
    split
    · split_ifs
      · exact nackOrAbort_tmDepth s pid _
      · rfl
    · rfl
  · simp only
    unfold readLL
    simp only
    split_ifs
    · rfl
    · split <;> rfl

theorem write_tmDepth (s : transCoherence) (pid : Nat) (tid : Int) (raddr : Nat) :
    (write s pid tid raddr).2.tmDepth = s.tmDepth := by
  unfold write
  cases s.methods
  · simp only
    unfold writeEE
    simp only
    split
    · split_ifs
      · exact nackOrAbort_tmDepth s pid _
      · exact nackOrAbort_tmDepth s pid _
      · rfl
    · rfl
  · simp only
    unfold writeLL
    simp only
    split_ifs
    · rfl
    · split <;> rfl

theorem begin_tmDepth (s : transCoherence) (p : Nat) (picode : icode) (globalClock : Nat)
    (q : Nat) :
    (begin s p picode globalClock).2.tmDepth q =
      if q = p ∧ ((begin s p picode globalClock).1.ret = GCMRet.SUCCESS ∨
          (begin s p picode globalClock).1.ret = GCMRet.IGNORE) then s.tmDepth q + 1
      else s.tmDepth q := by
  unfold begin
  cases s.methods
  · simp only
    unfold beginEE
    by_cases hd : s.tmDepth p > 0
    · simp only [if_pos hd]
      by_cases hq : q = p
      · subst hq; simp
      · simp [Function.update_noteq hq, hq]
    · simp only [if_neg hd]
      by_cases ha : (s.transState p).state = condition.ABORTING
      · simp only [if_pos ha]
        simp [setState]
      · simp only [if_neg ha]
        by_cases hb : (s.transState p).state = condition.ABORTED
        · simp only [if_pos hb]
          simp [setState]
        · simp only [if_neg hb]
          by_cases hq : q = p
          · subst hq; simp
          · simp [Function.update_noteq hq, hq]
  · simp only
    unfold beginLL
    by_cases hd : s.tmDepth p > 0
    · simp only [if_pos hd]
      by_cases hq : q = p
      · subst hq; simp
      · simp [Function.update_noteq hq, hq]
    · simp only [if_neg hd]
      by_cases hq : q = p
      · subst hq
        by_cases ha : (s.transState q).state = condition.ABORTING
        · simp [if_pos ha, setState]
        · simp [if_neg ha]
      · by_cases ha : (s.transState p).state = condition.ABORTING
        · simp [if_pos ha, setState, Function.update_noteq hq, hq]
        · simp [if_neg ha, Function.update_noteq hq, hq]

theorem abort_tmDepth (s : transCoherence) (p : Nat) (tid : Int) (globalClock : Nat) (q : Nat) :
    (abort s p tid globalClock).2.tmDepth q = if q = p then 0 else s.tmDepth q := by
  unfold abort
  cases s.methods
  · simp only [abortEE, setState, resetTrans]
    by_cases hq : q = p
    · subst hq; simp
    · simp [Function.update_noteq hq, hq]
  · simp only [abortLL, setState, resetTrans]
    by_cases hq : q = p
    · subst hq; simp
    · simp [Function.update_noteq hq, hq]

theorem commitLoopLL_tmDepth (pid : Nat) (m : List (Nat × cacheState))
    (acc : Int × transCoherence) : (commitLoopLL pid m acc).1.2.tmDepth = acc.2.tmDepth := by
  rw [(commitLoopLL_marks pid m acc).1]

theorem commit_tmDepth (s : transCoherence) (p : Nat) (tid : Int) (globalClock : Nat) (q : Nat) :
    (commit s p tid globalClock).2.tmDepth q =
      (if q = p ∧ (commit s p tid globalClock).1.ret = GCMRet.IGNORE then s.tmDepth q - 1
      else if q = p ∧ (commit s p tid globalClock).1.ret = GCMRet.SUCCESS then 0
      else s.tmDepth q) ∧
    ((commit s p tid globalClock).1.ret = GCMRet.IGNORE → s.tmDepth p > 1) := by
  unfold commit
  cases s.methods
  · simp only
    unfold commitEE
    by_cases hd : s.tmDepth p > 1
    · simp only [if_pos hd]
      by_cases hq : q = p
      · subst hq; simp [hd]
      · simp [Function.update_noteq hq, hq, hd]
    · simp only [if_neg hd]
      by_cases hc : (s.transState p).state = condition.COMMITTING
      · simp only [if_pos hc]
        by_cases hq : q = p
        · subst hq; simp [setState, resetTrans]
        · simp [setState, resetTrans, Function.update_noteq hq, hq]
      · simp only [if_neg hc]
        simp [setState]
  · simp only
    by_cases h1 : (s.transState p).state = condition.DOABORT
    · unfold commitLL; rw [if_pos h1]; simp [setState]
    by_cases h2 : s.tmDepth p > 1
    · unfold commitLL; rw [if_neg h1, if_pos h2]
      by_cases hq : q = p
      · subst hq; simp [h2]
      · simp [Function.update_noteq hq, hq, h2]
    by_cases h3 : (s.transState p).state = condition.COMMITTING
    · rw [commitLL_final s p tid globalClock h2 h3]
      simp only [setState]
      rw [commitLoopLL_tmDepth]
      by_cases hq : q = p
      · subst hq; simp [resetTrans]
      · simp [resetTrans, Function.update_noteq hq, hq]
    by_cases h4 : s.currentCommitter ≥ 0
    · unfold commitLL; rw [if_neg h1, if_neg h2, if_neg h3, if_pos h4]; simp [setState]
    · unfold commitLL; rw [if_neg h1, if_neg h2, if_neg h3, if_neg h4]; simp [setState]

theorem step_tmDepth (s : transCoherence) (op : Op) (pid : Nat) :
    (step s op).tmDepth pid =
      s.tmDepth pid + (depthIncrements pid s [op] : Int) - (subsumedCommits pid s [op] : Int) -
        depthDropped pid s [op] := by
  cases op with
  | read p tid raddr =>
    simp [step, read_tmDepth, depthIncrements, subsumedCommits, depthDropped]
  | write p tid raddr =>
    simp [step, write_tmDepth, depthIncrements, subsumedCommits, depthDropped]
  | «begin» p picode clk =>
    simp only [step, depthIncrements, subsumedCommits, depthDropped]
    rw [begin_tmDepth]
    by_cases h : pid = p ∧ ((begin s p picode clk).1.ret = GCMRet.SUCCESS ∨
        (begin s p picode clk).1.ret = GCMRet.IGNORE)
    · have h2 : p = pid ∧ ((begin s p picode clk).1.ret = GCMRet.SUCCESS ∨
          (begin s p picode clk).1.ret = GCMRet.IGNORE) := ⟨h.1.symm, h.2⟩
      rw [if_pos h, if_pos h2]; simp
    · have h2 : ¬ (p = pid ∧ ((begin s p picode clk).1.ret = GCMRet.SUCCESS ∨
          (begin s p picode clk).1.ret = GCMRet.IGNORE)) := fun h3 => h ⟨h3.1.symm, h3.2⟩
      rw [if_neg h, if_neg h2]; simp
  | commit p tid clk =>
    simp only [step, depthIncrements, subsumedCommits, depthDropped]
    rw [(commit_tmDepth s p tid clk pid).1]
    by_cases hq : pid = p
    · subst hq
      by_cases hi : (commit s pid tid clk).1.ret = GCMRet.IGNORE
      · have hs : (commit s pid tid clk).1.ret ≠ GCMRet.SUCCESS := by rw [hi]; simp
        simp [hi]
      · by_cases hs : (commit s pid tid clk).1.ret = GCMRet.SUCCESS
        · simp [hs]
        · simp [hi, hs]
    · have hq2 : ¬ p = pid := fun h => hq h.symm
      simp [hq, hq2]
  | abort p tid clk =>
    simp only [step, depthIncrements, subsumedCommits, depthDropped]
    rw [abort_tmDepth]
    by_cases hq : pid = p
    · subst hq; simp
    · have hq2 : ¬ p = pid := fun h => hq h.symm
      simp [hq, hq2]
  | checkAbort p tid =>
    simp only [step, checkAbort, depthIncrements, subsumedCommits, depthDropped]
    split_ifs <;> simp [setState]
  | stallUntil p cycles =>
    simp [step, stallUntil, depthIncrements, subsumedCommits, depthDropped]

theorem depthIncrements_cons (pid : Nat) (s : transCoherence) (op : Op) (rest : List Op) :
    depthIncrements pid s (op :: rest) =
      depthIncrements pid s [op] + depthIncrements pid (step s op) rest := by
  cases op <;> simp [depthIncrements]

theorem subsumedCommits_cons (pid : Nat) (s : transCoherence) (op : Op) (rest : List Op) :
    subsumedCommits pid s (op :: rest) =
      subsumedCommits pid s [op] + subsumedCommits pid (step s op) rest := by
  cases op <;> simp [subsumedCommits]

theorem depthDropped_cons (pid : Nat) (s : transCoherence) (op : Op) (rest : List Op) :
    depthDropped pid s (op :: rest) =
      depthDropped pid s [op] + depthDropped pid (step s op) rest := by
  cases op <;> simp [depthDropped]

theorem run_tmDepth (ops : List Op) (s : transCoherence) (pid : Nat) :
    (run s ops).tmDepth pid =
      s.tmDepth pid + (depthIncrements pid s ops : Int) - (subsumedCommits pid s ops : Int) -
        depthDropped pid s ops := by
  induction ops generalizing s with
  | nil => simp [run, depthIncrements, subsumedCommits, depthDropped]
  | cons op rest ih =>
    have h1 : run s (op :: rest) = run (step s op) rest := rfl
    rw [h1, ih (step s op), step_tmDepth s op pid, depthIncrements_cons pid s op rest,
      subsumedCommits_cons pid s op rest, depthDropped_cons pid s op rest]
    push_cast
    ring

theorem depth_nonneg_step (s : transCoherence) (op : Op) (h : ∀ p, 0 ≤ s.tmDepth p) :
    ∀ p, 0 ≤ (step s op).tmDepth p := by
  intro q
  cases op with
  | read p tid raddr => simp only [step, read_tmDepth]; exact h q
  | write p tid raddr => simp only [step, write_tmDepth]; exact h q
  | «begin» p picode clk =>
    simp only [step]
    rw [begin_tmDepth]
    have := h q
    split_ifs <;> omega
  | commit p tid clk =>
    simp only [step]
    obtain ⟨h1, h2⟩ := commit_tmDepth s p tid clk q
    rw [h1]
    have := h q
    split_ifs with h3
    · have := h2 h3.2
      rw [h3.1]; omega
    · omega
    · omega
  | abort p tid clk =>
    simp only [step]
    rw [abort_tmDepth]
    have := h q
    split_ifs <;> omega
  | checkAbort p tid =>
    simp only [step, checkAbort]
    split_ifs
    · exact h q
    · exact h q
  | stallUntil p cycles => exact h q

theorem depth_nonneg_run (ops : List Op) (s : transCoherence) (h : ∀ p, 0 ≤ s.tmDepth p) :
    ∀ p, 0 ≤ (run s ops).tmDepth p := by
  induction ops generalizing s with
  | nil => exact h
  | cons op rest ih => exact ih (step s op) (depth_nonneg_step s op h)

/-- C28, counterexample. From the constructor's state, two begins by process 0
followed by one abort by process 0 leave its depth at 0 under both policies: the
depth was raised twice, no commit was made, and there was a single abort. -/
theorem depth_conservation_counterexample :
    ((run eagerInit [Op.begin 0 ⟨4096, 1⟩ 10, Op.begin 0 ⟨4200, 2⟩ 11, Op.abort 0 1 12]).tmDepth 0 =
        0 ∧
      depthIncrements 0 eagerInit
        [Op.begin 0 ⟨4096, 1⟩ 10, Op.begin 0 ⟨4200, 2⟩ 11, Op.abort 0 1 12] = 2 ∧
      finalizedCommits 0 eagerInit
        [Op.begin 0 ⟨4096, 1⟩ 10, Op.begin 0 ⟨4200, 2⟩ 11, Op.abort 0 1 12] = 0 ∧
      subsumedCommits 0 eagerInit
        [Op.begin 0 ⟨4096, 1⟩ 10, Op.begin 0 ⟨4200, 2⟩ 11, Op.abort 0 1 12] = 0 ∧
      abortsBy 0 eagerInit
        [Op.begin 0 ⟨4096, 1⟩ 10, Op.begin 0 ⟨4200, 2⟩ 11, Op.abort 0 1 12] = 1) ∧
    ((run lazyInit [Op.begin 0 ⟨4096, 1⟩ 10, Op.begin 0 ⟨4200, 2⟩ 11, Op.abort 0 1 12]).tmDepth 0 =
        0 ∧
      depthIncrements 0 lazyInit
        [Op.begin 0 ⟨4096, 1⟩ 10, Op.begin 0 ⟨4200, 2⟩ 11, Op.abort 0 1 12] = 2 ∧
      finalizedCommits 0 lazyInit
        [Op.begin 0 ⟨4096, 1⟩ 10, Op.begin 0 ⟨4200, 2⟩ 11, Op.abort 0 1 12] = 0 ∧
      subsumedCommits 0 lazyInit
        [Op.begin 0 ⟨4096, 1⟩ 10, Op.begin 0 ⟨4200, 2⟩ 11, Op.abort 0 1 12] = 0 ∧
      abortsBy 0 lazyInit
        [Op.begin 0 ⟨4096, 1⟩ 10, Op.begin 0 ⟨4200, 2⟩ 11, Op.abort 0 1 12] = 1) := by
  decide

/-- C28, amended. In a module built by the constructor (either policy), after
any sequence of calls the depth of `pid` is the number of its begins that raised
the depth (successful and subsumed), less the number of its subsumed commits,
less the depth that its finalized commits and its aborts found when they set it
to 0; the depth is never negative. So at depth 0 the increments equal the
subsumed commits plus the depth taken away by finalized commits and aborts, an
abort counting for as many levels as it closes. -/
theorem depth_conservation (raw s0 : transCoherence) (conflicts versioning : Int)
    (cacheLineSize : Nat) (h0 : construct raw conflicts versioning cacheLineSize = some s0)
    (ops : List Op) (pid : Nat) :
    (run s0 ops).tmDepth pid =
      (depthIncrements pid s0 ops : Int) - (subsumedCommits pid s0 ops : Int) -
        depthDropped pid s0 ops ∧
    0 ≤ (run s0 ops).tmDepth pid ∧
    ((run s0 ops).tmDepth pid = 0 →
      (depthIncrements pid s0 ops : Int) =
        (subsumedCommits pid s0 ops : Int) + depthDropped pid s0 ops) := by
  have hz := (construct_ids raw s0 conflicts versioning cacheLineSize h0).2
  have h1 := run_tmDepth ops s0 pid
  rw [hz pid] at h1
  have h2 := depth_nonneg_run ops s0 (fun p => by rw [hz p]) pid
  refine ⟨by omega, h2, fun h3 => by omega⟩

/-- Witness of the amended C28, at the input of the counterexample on the lazy
module. -/
theorem depth_conservation_witness :
    construct rawZero 0 0 64 = some lazyInit ∧
    (run lazyInit [Op.begin 0 ⟨4096, 1⟩ 10, Op.begin 0 ⟨4200, 2⟩ 11, Op.abort 0 1 12]).tmDepth 0 =
      (depthIncrements 0 lazyInit
        [Op.begin 0 ⟨4096, 1⟩ 10, Op.begin 0 ⟨4200, 2⟩ 11, Op.abort 0 1 12] : Int) -
      (subsumedCommits 0 lazyInit
        [Op.begin 0 ⟨4096, 1⟩ 10, Op.begin 0 ⟨4200, 2⟩ 11, Op.abort 0 1 12] : Int) -
      depthDropped 0 lazyInit
        [Op.begin 0 ⟨4096, 1⟩ 10, Op.begin 0 ⟨4200, 2⟩ 11, Op.abort 0 1 12] :=
  ⟨rfl, (depth_conservation rawZero lazyInit 0 0 64 rfl
    [Op.begin 0 ⟨4096, 1⟩ 10, Op.begin 0 ⟨4200, 2⟩ 11, Op.abort 0 1 12] 0).1⟩

/-! ## The transaction context: snapshot, backoff and stall parameters -/

theorem abort_ret (s : transCoherence) (pid : Nat) (tid : Int) (globalClock : Nat) :
    (abort s pid tid globalClock).1.ret = GCMRet.SUCCESS := by
  unfold abort
  cases s.methods <;> rfl

/-- C25. Register snapshot round trip: when `beginTransaction` gets SUCCESS, it
leaves a context; whatever the thread, the module and the memory are later
(`w2`), and whatever happened to the replay pointer and the speculative cache
of the context, `abortTransaction` on that context (the module's abort always
returns SUCCESS) leaves the thread with `reg[0..32]`, `lo`, `hi`, `fcr0` and
`fcr31` as they were at the begin, with `tmAborting = 1`, and deletes the
context. -/
theorem snapshot_round_trip (ctx : transactionContext) (w : World) (picode : icode)
    (globalClock rand : Nat) (outOfRange : Int)
    (hS : (begin w.transGCM w.thread.pid picode globalClock).1.ret = GCMRet.SUCCESS)
    (nack : icodePtr) (memMap : List (Nat × Int)) (w2 : World) (globalClock2 : Nat)
    (draw : Int) :
    ∃ ctx1, (beginTransaction ctx w picode globalClock rand outOfRange).2 = some ctx1 ∧
      (abort w2.transGCM w2.thread.pid ctx1.tid globalClock2).1.ret = GCMRet.SUCCESS ∧
      (∀ i, i ≤ 32 →
        (abortTransaction { ctx1 with nackInstruction := nack, memMap := memMap } w2 globalClock2
          draw).1.thread.reg i = w.thread.reg i) ∧
      (abortTransaction { ctx1 with nackInstruction := nack, memMap := memMap } w2 globalClock2
        draw).1.thread.lo = w.thread.lo ∧
      (abortTransaction { ctx1 with nackInstruction := nack, memMap := memMap } w2 globalClock2
        draw).1.thread.hi = w.thread.hi ∧
      (abortTransaction { ctx1 with nackInstruction := nack, memMap := memMap } w2 globalClock2
        draw).1.thread.fcr0 = w.thread.fcr0 ∧
      (abortTransaction { ctx1 with nackInstruction := nack, memMap := memMap } w2 globalClock2
        draw).1.thread.fcr31 = w.thread.fcr31 ∧
      (abortTransaction { ctx1 with nackInstruction := nack, memMap := memMap } w2 globalClock2
        draw).1.thread.tmAborting = 1 ∧
      (abortTransaction { ctx1 with nackInstruction := nack, memMap := memMap } w2 globalClock2
        draw).2 = none := by
  unfold beginTransaction
  simp only [hS, if_true]
  refine ⟨_, rfl, abort_ret _ _ _ _, ?_, ?_, ?_, ?_, ?_, ?_, ?_⟩
  · intro i hi
    unfold abortTransaction
    simp only [abort_ret, if_true, createStall]
    by_cases h : i < 32
    · simp [h]
    · have h2 : i = 32 := by omega
      subst h2
      simp
  all_goals
    unfold abortTransaction
    simp only [abort_ret, if_true, createStall]

/-- Witness of C25: a context begun on `idleThread` (registers 100 + i) is aborted
on a thread whose registers are all 0. -/
theorem snapshot_round_trip_witness :
    (begin (idleWorld eagerInit).transGCM (idleWorld eagerInit).thread.pid ⟨4096, 1⟩ 10).1.ret =
      GCMRet.SUCCESS ∧
    ∃ ctx1, (beginTransaction sampleContext (idleWorld eagerInit) ⟨4096, 1⟩ 10 0 0).2 = some ctx1 ∧
      (abort (sampleWorld 0).transGCM (sampleWorld 0).thread.pid ctx1.tid 40).1.ret =
        GCMRet.SUCCESS ∧
      (∀ i, i ≤ 32 →
        (abortTransaction { ctx1 with nackInstruction := icodePtr.null, memMap := [(1024, 7)] }
          (sampleWorld 0) 40 0).1.thread.reg i = (idleWorld eagerInit).thread.reg i) ∧
      (abortTransaction { ctx1 with nackInstruction := icodePtr.null, memMap := [(1024, 7)] }
        (sampleWorld 0) 40 0).1.thread.lo = (idleWorld eagerInit).thread.lo ∧
      (abortTransaction { ctx1 with nackInstruction := icodePtr.null, memMap := [(1024, 7)] }
        (sampleWorld 0) 40 0).1.thread.hi = (idleWorld eagerInit).thread.hi ∧
      (abortTransaction { ctx1 with nackInstruction := icodePtr.null, memMap := [(1024, 7)] }
        (sampleWorld 0) 40 0).1.thread.fcr0 = (idleWorld eagerInit).thread.fcr0 ∧
      (abortTransaction { ctx1 with nackInstruction := icodePtr.null, memMap := [(1024, 7)] }
        (sampleWorld 0) 40 0).1.thread.fcr31 = (idleWorld eagerInit).thread.fcr31 ∧
      (abortTransaction { ctx1 with nackInstruction := icodePtr.null, memMap := [(1024, 7)] }
        (sampleWorld 0) 40 0).1.thread.tmAborting = 1 ∧
      (abortTransaction { ctx1 with nackInstruction := icodePtr.null, memMap := [(1024, 7)] }
        (sampleWorld 0) 40 0).2 = none :=
  ⟨by decide,
    snapshot_round_trip sampleContext (idleWorld eagerInit) ⟨4096, 1⟩ 10 0 0 (by decide)
      icodePtr.null [(1024, 7)] (sampleWorld 0) 40 0⟩

/-- C26, counterexample. With `abortExpBackoff = 10`, a begin answered BACKOFF
with abort count 10 does not stall for `10 ^ 10` cycles: that power is outside
the range of `int`, so the stall is what the conversion to `int` leaves (here
the least `int`, as on x86). -/
theorem backoff_stall_counterexample :
    (begin backoffWorld.transGCM backoffWorld.thread.pid ⟨4096, 1⟩ 60).1 =
      { ret := GCMRet.BACKOFF, abortCount := some 10 } ∧
    (beginTransaction { sampleContext with abortExpBackoff := 10 } backoffWorld ⟨4096, 1⟩ 60 0
      (-2147483648)).1.transGCM.stallCycle 0 = -2147483648 ∧
    (beginTransaction { sampleContext with abortExpBackoff := 10 } backoffWorld ⟨4096, 1⟩ 60 0
      (-2147483648)).1.transGCM.stallCycle 0 ≠ 10 ^ (10 % 15) := by
  decide

/-- C26, amended. When the module's begin returns BACKOFF with abort count
`c ≥ 1`, `beginTransaction` installs for the process the stall
`(int) pow(abortExpBackoff, c mod 15)` if `abortExpBackoff ≠ 0`, which is
`abortExpBackoff ^ (c mod 15)` whenever that power lies in the range of `int`
(the exponent is at most 14, and `c = 15` gives 1); otherwise, for
`abortLinBackoff ≥ 1` and any draw of `rand()`, it installs the `int` product
of `k` and `c` for some `1 ≤ k ≤ abortLinBackoff`, which is `k * c` whenever
that product lies in the range of `int`. In both cases the context is deleted,
the registers and the context pointer of the thread are as before (no snapshot
is installed), and the PC is set to the kept copy of the begin instruction. -/
theorem backoff_stall (ctx : transactionContext) (w : World) (picode : icode)
    (globalClock rand : Nat) (outOfRange c : Int)
    (hB : (begin w.transGCM w.thread.pid picode globalClock).1.ret = GCMRet.BACKOFF)
    (hc : (begin w.transGCM w.thread.pid picode globalClock).1.abortCount = some c)
    (h1 : 1 ≤ c) :
    (ctx.abortExpBackoff ≠ 0 →
      (beginTransaction ctx w picode globalClock rand outOfRange).1.transGCM.stallCycle
          w.thread.pid = powInt ctx.abortExpBackoff (c % 15) outOfRange ∧
      0 ≤ c % 15 ∧ c % 15 ≤ 14 ∧
      (-(2 ^ 31) ≤ ctx.abortExpBackoff ^ (c % 15).toNat ∧
          ctx.abortExpBackoff ^ (c % 15).toNat < 2 ^ 31 →
        (beginTransaction ctx w picode globalClock rand outOfRange).1.transGCM.stallCycle
          w.thread.pid = ctx.abortExpBackoff ^ (c % 15).toNat) ∧
      (c = 15 →
        (beginTransaction ctx w picode globalClock rand outOfRange).1.transGCM.stallCycle
          w.thread.pid = 1)) ∧
    (ctx.abortExpBackoff = 0 → 1 ≤ ctx.abortLinBackoff →
      ∃ k : Int, 1 ≤ k ∧ k ≤ ctx.abortLinBackoff ∧
        (beginTransaction ctx w picode globalClock rand outOfRange).1.transGCM.stallCycle
          w.thread.pid = mulInt k c outOfRange ∧
        (k * c < 2 ^ 31 →
          (beginTransaction ctx w picode globalClock rand outOfRange).1.transGCM.stallCycle
            w.thread.pid = k * c)) ∧
    (beginTransaction ctx w picode globalClock rand outOfRange).2 = none ∧
    (beginTransaction ctx w picode globalClock rand outOfRange).1.thread =
      { w.thread with pcIcode := icodePtr.to picode } := by
  have hne : ¬ (begin w.transGCM w.thread.pid picode globalClock).1.ret = GCMRet.SUCCESS := by
    rw [hB]; simp
  have hmod : Int.tmod c 15 = c % 15 := Int.tmod_eq_emod (by omega) (by decide)
  have hlo : 0 ≤ c % 15 := Int.emod_nonneg c (by decide)
  have hhi : c % 15 ≤ 14 := by omega
  refine ⟨fun he => ?_, fun he hl => ?_, ?_, ?_⟩
  · have hstall : (beginTransaction ctx w picode globalClock rand outOfRange).1.transGCM.stallCycle
          w.thread.pid = powInt ctx.abortExpBackoff (c % 15) outOfRange := by
      unfold beginTransaction
      simp only [if_neg hne, if_pos hB, hc, Option.getD_some, hmod]
      rw [if_pos he]
      simp [stallInstruction, createStall, stallUntil]
    refine ⟨hstall, hlo, hhi, fun hr => ?_, fun h15 => ?_⟩
    · rw [hstall]
      unfold powInt
      rw [if_neg (by omega), if_pos hr]
    · rw [hstall, h15]
      have h0 : (15 : Int) % 15 = 0 := by decide
      rw [h0]
      unfold powInt
      simp
  · have hk0 : 0 ≤ Int.tmod (rand : Int) ctx.abortLinBackoff :=
      Int.tmod_nonneg _ (Int.ofNat_nonneg rand)
    have hk1 : Int.tmod (rand : Int) ctx.abortLinBackoff < ctx.abortLinBackoff :=
      Int.tmod_lt_of_pos _ (by omega)
    have hstall : (beginTransaction ctx w picode globalClock rand outOfRange).1.transGCM.stallCycle
          w.thread.pid =
        mulInt (Int.tmod (rand : Int) ctx.abortLinBackoff + 1) c outOfRange := by
      unfold beginTransaction
      simp only [if_neg hne, if_pos hB, hc, Option.getD_some]
      rw [if_neg (not_not.mpr he)]
      simp [stallInstruction, createStall, stallUntil]
    refine ⟨Int.tmod (rand : Int) ctx.abortLinBackoff + 1, by omega, by omega, hstall, fun hr => ?_⟩
    rw [hstall]
    unfold mulInt
    have hpos : 0 ≤ (Int.tmod (rand : Int) ctx.abortLinBackoff + 1) * c :=
      Int.mul_nonneg (by omega) (by omega)
    rw [if_pos ⟨by omega, hr⟩]
  · unfold beginTransaction
    simp only [if_neg hne, if_pos hB]
  · unfold beginTransaction
    simp only [if_neg hne, if_pos hB]
    split_ifs <;> simp [stallInstruction, createStall]

/-- Witness of the amended C26: with `abortExpBackoff = 2` and abort count 10 the
stall is 1024 cycles. -/
theorem backoff_stall_witness :
    ((begin backoffWorld.transGCM backoffWorld.thread.pid ⟨4096, 1⟩ 60).1.ret = GCMRet.BACKOFF ∧
      (begin backoffWorld.transGCM backoffWorld.thread.pid ⟨4096, 1⟩ 60).1.abortCount = some 10 ∧
      (1 : Int) ≤ 10 ∧ sampleContext.abortExpBackoff ≠ 0) ∧
    (beginTransaction sampleContext backoffWorld ⟨4096, 1⟩ 60 0 0).1.transGCM.stallCycle
      backoffWorld.thread.pid = 1024 :=
  ⟨by decide,
    ((backoff_stall sampleContext backoffWorld ⟨4096, 1⟩ 60 0 0 10 (by decide) (by decide)
      (by decide)).1 (by decide)).2.2.2.1 (by decide)⟩

theorem noneIn_setState (bad c : condition) (s : transCoherence) (pid : Nat) (hc : c ≠ bad)
    (h : NoneIn bad s) : NoneIn bad (setState s pid c) := by
  intro p
  unfold setState
  by_cases hp : p = pid
  · subst hp; simpa using hc
  · simpa [Function.update_noteq hp] using h p

theorem noneIn_raiseCycleFlag (bad : condition) (s : transCoherence) (pid : Nat)
    (h : NoneIn bad s) : NoneIn bad (raiseCycleFlag s pid) := by
  intro p
  unfold raiseCycleFlag
  by_cases hp : p = pid
  · subst hp; simpa using h p
  · simpa [Function.update_noteq hp] using h p

theorem noneIn_resetTrans (bad : condition) (s : transCoherence) (pid : Nat)
    (h : NoneIn bad s) : NoneIn bad (resetTrans s pid) := by
  intro p
  unfold resetTrans
  by_cases hp : p = pid
  · subst hp; simpa using h p
  · simpa [Function.update_noteq hp] using h p

theorem noneIn_congr (bad : condition) (s t : transCoherence) (ht : t.transState = s.transState)
    (h : NoneIn bad s) : NoneIn bad t := by
  intro p
  rw [ht]
  exact h p

theorem noneIn_nackOrAbort (bad : condition) (s : transCoherence) (pid nackPid : Nat)
    (h1 : condition.ABORTING ≠ bad) (h2 : condition.NACKED ≠ bad) (h : NoneIn bad s) :
    NoneIn bad (nackOrAbort s pid nackPid).2 := by
  unfold nackOrAbort
  simp only
  split_ifs
  · exact noneIn_setState bad _ s pid h1 h
  · exact noneIn_setState bad _ _ pid h2 (noneIn_raiseCycleFlag bad s nackPid h)
  · exact noneIn_setState bad _ s pid h2 h

theorem noneIn_begun (bad : condition) (s : transCoherence) (pid : Nat) (me : tmState)
    (hme : me.state ≠ bad) (h : NoneIn bad s) (t : transCoherence)
    (ht : t.transState = Function.update s.transState pid me) : NoneIn bad t := by
  intro p
  rw [ht]
  by_cases hp : p = pid
  · subst hp; simpa using hme
  · simpa [Function.update_noteq hp] using h p

theorem noDoAbort_step (s : transCoherence) (op : Op) (hm : s.methods = Policy.EE)
    (h : NoneIn condition.DOABORT s) : NoneIn condition.DOABORT (step s op) := by
  have hset : ∀ (t : transCoherence) (pid : Nat) (c : condition), c ≠ condition.DOABORT →
      NoneIn condition.DOABORT t → NoneIn condition.DOABORT (setState t pid c) :=
    fun t pid c hc ht => noneIn_setState _ c t pid hc ht
  have hnack : ∀ pid q, NoneIn condition.DOABORT (nackOrAbort s pid q).2 :=
    fun pid q => noneIn_nackOrAbort _ s pid q (by decide) (by decide) h
  cases op with
  | read pid tid raddr =>
    simp only [step, read, hm]
    unfold readEE
    simp only
    split
    · split_ifs
      · exact hnack pid _
      · exact hset _ pid _ (by decide) (noneIn_congr _ s _ rfl h)
    · exact hset _ pid _ (by decide) (noneIn_congr _ s _ rfl h)
  | write pid tid raddr =>
    simp only [step, write, hm]
    unfold writeEE
    simp only
    split
    · split_ifs
      · exact hnack pid _
      · exact hnack pid _
      · exact hset _ pid _ (by decide) (noneIn_congr _ s _ rfl h)
    · exact hset _ pid _ (by decide) (noneIn_congr _ s _ rfl h)
  | «begin» pid picode clk =>
    simp only [step, begin, hm]
    unfold beginEE
    by_cases hd : s.tmDepth pid > 0
    · simp only [if_pos hd]
      exact noneIn_congr _ s _ rfl h
    · simp only [if_neg hd]
      have h1 : NoneIn condition.DOABORT
          (if (s.transState pid).state = condition.ABORTING then
            { setState { s with permCache := eraseEverywhere pid s.permCache } pid
                condition.ABORTED with
              abortCount := Function.update
                (setState { s with permCache := eraseEverywhere pid s.permCache } pid
                  condition.ABORTED).abortCount pid
                ((setState { s with permCache := eraseEverywhere pid s.permCache } pid
                  condition.ABORTED).abortCount pid + 1) }
          else s) := by
        split_ifs
        · exact noneIn_congr _ _ _ rfl (hset _ pid _ (by decide) (noneIn_congr _ s _ rfl h))
        · exact h
      generalize (if (s.transState pid).state = condition.ABORTING then
            { setState { s with permCache := eraseEverywhere pid s.permCache } pid
                condition.ABORTED with
              abortCount := Function.update
                (setState { s with permCache := eraseEverywhere pid s.permCache } pid
                  condition.ABORTED).abortCount pid
                ((setState { s with permCache := eraseEverywhere pid s.permCache } pid
                  condition.ABORTED).abortCount pid + 1) }
          else s) = s1 at h1 ⊢
      split_ifs <;> first
        | exact noneIn_congr _ _ _ rfl (hset _ pid _ (by decide) h1)
        | exact noneIn_begun _ s1 pid _ (by simp) h1 _ rfl
  | commit pid tid clk =>
    simp only [step, commit, hm]
    unfold commitEE
    simp only
    split_ifs
    · exact noneIn_congr _ s _ rfl h
    · exact noneIn_congr _ _ _ rfl
        (hset _ pid _ (by decide) (noneIn_congr _ _ _ rfl (noneIn_resetTrans _ s pid h)))
    · exact hset _ pid _ (by decide) h
  | abort pid tid clk =>
    simp only [step, abort, hm]
    unfold abortEE
    exact noneIn_congr _ _ _ rfl
      (hset _ pid _ (by decide) (noneIn_congr _ _ _ rfl (noneIn_resetTrans _ s pid h)))
  | checkAbort pid tid =>
    simp only [step, checkAbort]
    split_ifs
    · exact hset _ pid _ (by decide) h
    · exact h
  | stallUntil pid cycles => exact noneIn_congr _ s _ rfl h

theorem noDoAbort_run (ops : List Op) (s : transCoherence) (hi : EagerInv s)
    (h : NoneIn condition.DOABORT s) : NoneIn condition.DOABORT (run s ops) := by
  induction ops generalizing s with
  | nil => exact h
  | cons op rest ih => exact ih (step s op) (eagerInv_step s op hi) (noDoAbort_step s op hi.1 h)

theorem construct_states (raw s0 : transCoherence) (conflicts versioning : Int)
    (cacheLineSize : Nat) (h0 : construct raw conflicts versioning cacheLineSize = some s0) :
    ∀ p, (s0.transState p).state = condition.INVALID := by
  unfold construct at h0
  simp only at h0
  split at h0
  · simp at h0
  · simp only [Option.some.injEq] at h0
    subst h0
    intro p
    rfl

/-- C32. Under the eager policy no process is ever in state DOABORT: in every
state reached from the constructor's state of an eager module by any sequence
of calls, the state of every process differs from DOABORT, and `checkAbort`
returns false and leaves the module as it is. -/
theorem eager_never_doabort (raw s0 : transCoherence) (conflicts versioning : Int)
    (cacheLineSize : Nat) (hc : conflicts ≠ 0)
    (h0 : construct raw conflicts versioning cacheLineSize = some s0) (ops : List Op) :
    (∀ p, ((run s0 ops).transState p).state ≠ condition.DOABORT) ∧
    ∀ pid tid, checkAbort (run s0 ops) pid tid = (false, run s0 ops) := by
  have hinit : NoneIn condition.DOABORT s0 := fun p => by
    rw [construct_states raw s0 conflicts versioning cacheLineSize h0 p]; decide
  have h := noDoAbort_run ops s0
    (eagerInv_construct raw s0 conflicts versioning cacheLineSize hc h0) hinit
  refine ⟨h, fun pid tid => ?_⟩
  unfold checkAbort
  rw [if_neg (h pid)]

/-- Witness of C32: two processes in conflict on the eager module. -/
theorem eager_never_doabort_witness :
    ((1 : Int) ≠ 0 ∧ construct rawZero 1 1 64 = some eagerInit) ∧
    checkAbort (run eagerInit [Op.begin 0 ⟨0, 0⟩ 10, Op.begin 1 ⟨0, 0⟩ 11, Op.write 0 0 256,
      Op.write 1 0 256]) 1 0 =
      (false, run eagerInit [Op.begin 0 ⟨0, 0⟩ 10, Op.begin 1 ⟨0, 0⟩ 11, Op.write 0 0 256,
        Op.write 1 0 256]) :=
  ⟨⟨by decide, rfl⟩,
    (eager_never_doabort rawZero eagerInit 1 1 64 (by decide) rfl
      [Op.begin 0 ⟨0, 0⟩ 10, Op.begin 1 ⟨0, 0⟩ 11, Op.write 0 0 256, Op.write 1 0 256]).2 1 0⟩

/-! ## A commit slot whose holder has left the state COMMITTING -/

theorem tokenStuck_of (c : Int) (s t : transCoherence) (h : TokenStuck c s)
    (hm : t.methods = s.methods) (hcc : t.currentCommitter = s.currentCommitter)
    (hn : NoneIn condition.COMMITTING t) : TokenStuck c t :=
  ⟨hm.trans h.1, hcc.trans h.2.1, h.2.2.1, hn⟩

theorem tokenStuck_commit (c : Int) (s : transCoherence) (h : TokenStuck c s) (pid : Nat)
    (tid : Int) (globalClock : Nat) :
    (commit s pid tid globalClock).1.ret ≠ GCMRet.SUCCESS ∧
    (commit s pid tid globalClock).1.ret ≠ GCMRet.COMMIT_DELAY ∧
    TokenStuck c (commit s pid tid globalClock).2 := by
  obtain ⟨hm, hcc, hc0, hn⟩ := h
  have h0 : TokenStuck c s := ⟨hm, hcc, hc0, hn⟩
  simp only [commit, hm]
  by_cases h1 : (s.transState pid).state = condition.DOABORT
  · unfold commitLL; rw [if_pos h1]
    exact ⟨by simp, by simp,
      tokenStuck_of c s _ h0 rfl rfl (noneIn_setState _ _ s pid (by decide) hn)⟩
  by_cases h2 : s.tmDepth pid > 1
  · unfold commitLL; rw [if_neg h1, if_pos h2]
    exact ⟨by simp, by simp, tokenStuck_of c s _ h0 rfl rfl (noneIn_congr _ s _ rfl hn)⟩
  have h3 : ¬ (s.transState pid).state = condition.COMMITTING := hn pid
  have h4 : s.currentCommitter ≥ 0 := by rw [hcc]; exact hc0
  unfold commitLL; rw [if_neg h1, if_neg h2, if_neg h3, if_pos h4]
  exact ⟨by simp, by simp,
    tokenStuck_of c s _ h0 rfl rfl (noneIn_setState _ _ s pid (by decide) hn)⟩

theorem tokenStuck_step (c : Int) (s : transCoherence) (op : Op) (h : TokenStuck c s) :
    TokenStuck c (step s op) := by
  obtain ⟨hm, hcc, hc0, hn⟩ := h
  have h0 : TokenStuck c s := ⟨hm, hcc, hc0, hn⟩
  cases op with
  | read pid tid raddr =>
    simp only [step, read, hm]
    unfold readLL
    simp only
    split_ifs
    · exact tokenStuck_of c s _ h0 rfl rfl (noneIn_setState _ _ s pid (by decide) hn)
    · split
      · exact tokenStuck_of c s _ h0 rfl rfl
          (noneIn_setState _ _ _ pid (by decide) (noneIn_congr _ s _ rfl hn))
      · exact tokenStuck_of c s _ h0 rfl rfl
          (noneIn_setState _ _ _ pid (by decide) (noneIn_congr _ s _ rfl hn))
  | write pid tid raddr =>
    simp only [step, write, hm]
    unfold writeLL
    simp only
    split_ifs
    · exact tokenStuck_of c s _ h0 rfl rfl (noneIn_setState _ _ s pid (by decide) hn)
    · split
      · exact tokenStuck_of c s _ h0 rfl rfl
          (noneIn_setState _ _ _ pid (by decide) (noneIn_congr _ s _ rfl hn))
      · exact tokenStuck_of c s _ h0 rfl rfl
          (noneIn_setState _ _ _ pid (by decide) (noneIn_congr _ s _ rfl hn))
  | «begin» pid picode clk =>
    simp only [step, begin, hm]
    unfold beginLL
    by_cases hd : s.tmDepth pid > 0
    · simp only [if_pos hd]
      exact tokenStuck_of c s _ h0 rfl rfl (noneIn_congr _ s _ rfl hn)
    · simp only [if_neg hd]
      by_cases ha : (s.transState pid).state = condition.ABORTING
      · simp only [if_pos ha]
        refine tokenStuck_of c s _ h0 rfl rfl ?_
        exact noneIn_begun _ _ pid _ (by simp)
          (noneIn_setState _ condition.ABORTED s pid (by decide) hn) _ rfl
      · simp only [if_neg ha]
        exact tokenStuck_of c s _ h0 rfl rfl (noneIn_begun _ s pid _ (by simp) hn _ rfl)
  | commit pid tid clk => exact (tokenStuck_commit c s h0 pid tid clk).2.2
  | abort pid tid clk =>
    simp only [step, abort, hm]
    unfold abortLL
    exact tokenStuck_of c s _ h0 rfl rfl (noneIn_congr _ _ _ rfl
      (noneIn_setState _ _ _ pid (by decide)
        (noneIn_congr _ _ _ rfl (noneIn_resetTrans _ s pid hn))))
  | checkAbort pid tid =>
    simp only [step, checkAbort]
    split_ifs
    · exact tokenStuck_of c s _ h0 rfl rfl (noneIn_setState _ _ s pid (by decide) hn)
    · exact h0
  | stallUntil pid cycles => exact tokenStuck_of c s _ h0 rfl rfl (noneIn_congr _ s _ rfl hn)

theorem tokenStuck_run (c : Int) (ops : List Op) (s : transCoherence) (h : TokenStuck c s) :
    TokenStuck c (run s ops) := by
  induction ops generalizing s with
  | nil => exact h
  | cons op rest ih => exact ih (step s op) (tokenStuck_step c s op h)

theorem tokenStuck_of_states (c : Int) (s : transCoherence) (pid : Nat) (hm : s.methods = Policy.LL)
    (hcc : s.currentCommitter = c) (hc0 : 0 ≤ c) (hi : LazyInv s)
    (hp : s.currentCommitter = (pid : Int))
    (hs : (s.transState pid).state ≠ condition.COMMITTING) : TokenStuck c s := by
  refine ⟨hm, hcc, hc0, fun p hpc => ?_⟩
  have h1 := hi.2 p hpc
  rw [hp] at h1
  have h2 : pid = p := by exact_mod_cast h1
  subst h2
  exact hs hpc

/-- Outside the replay of a delayed commit the module alone does not keep the
slot with a committing process. Process 0 begins and gets COMMIT_DELAY from its
commit, so it holds the commit slot (`currentCommitter = 0`). If its next call
were an abort, or a read, its state would become ABORTING, or RUNNING, with
`currentCommitter` still 0; and from the state after the abort, whatever calls
follow, `currentCommitter` stays 0, no process is in state COMMITTING, and no
commit of any process returns SUCCESS or COMMIT_DELAY. -/
theorem commit_token_stuck :
    ((commit (run lazyInit [Op.begin 0 ⟨0, 0⟩ 10]) 0 0 20).1.ret = GCMRet.COMMIT_DELAY ∧
      (run lazyInit [Op.begin 0 ⟨0, 0⟩ 10, Op.commit 0 0 20]).currentCommitter = 0 ∧
      ((run lazyInit [Op.begin 0 ⟨0, 0⟩ 10, Op.commit 0 0 20]).transState 0).state =
        condition.COMMITTING) ∧
    ((run lazyInit [Op.begin 0 ⟨0, 0⟩ 10, Op.commit 0 0 20, Op.abort 0 0 30]).currentCommitter =
        0 ∧
      ((run lazyInit [Op.begin 0 ⟨0, 0⟩ 10, Op.commit 0 0 20, Op.abort 0 0 30]).transState
        0).state = condition.ABORTING) ∧
    ((run lazyInit [Op.begin 0 ⟨0, 0⟩ 10, Op.commit 0 0 20, Op.read 0 0 256]).currentCommitter =
        0 ∧
      ((run lazyInit [Op.begin 0 ⟨0, 0⟩ 10, Op.commit 0 0 20, Op.read 0 0 256]).transState
        0).state = condition.RUNNING) ∧
    ∀ (ops : List Op) (pid : Nat) (tid : Int) (globalClock : Nat),
      (run lazyInit
        ([Op.begin 0 ⟨0, 0⟩ 10, Op.commit 0 0 20, Op.abort 0 0 30] ++ ops)).currentCommitter =
        0 ∧
      (∀ p, ((run lazyInit
        ([Op.begin 0 ⟨0, 0⟩ 10, Op.commit 0 0 20, Op.abort 0 0 30] ++ ops)).transState
          p).state ≠ condition.COMMITTING) ∧
      (commit (run lazyInit
        ([Op.begin 0 ⟨0, 0⟩ 10, Op.commit 0 0 20, Op.abort 0 0 30] ++ ops))
        pid tid globalClock).1.ret ≠ GCMRet.SUCCESS ∧
      (commit (run lazyInit
        ([Op.begin 0 ⟨0, 0⟩ 10, Op.commit 0 0 20, Op.abort 0 0 30] ++ ops))
        pid tid globalClock).1.ret ≠ GCMRet.COMMIT_DELAY := by
  refine ⟨by decide, by decide, by decide, fun ops pid tid globalClock => ?_⟩
  have hinv : LazyInv (run lazyInit [Op.begin 0 ⟨0, 0⟩ 10, Op.commit 0 0 20, Op.abort 0 0 30]) :=
    lazyInv_run _ _ (lazyInv_construct rawZero lazyInit 0 0 64 rfl rfl)
  have hstuck : TokenStuck 0
      (run lazyInit [Op.begin 0 ⟨0, 0⟩ 10, Op.commit 0 0 20, Op.abort 0 0 30]) :=
    tokenStuck_of_states 0 _ 0 hinv.1 (by decide) (by decide) hinv (by decide) (by decide)
  have h := tokenStuck_run 0 ops _ hstuck
  rw [← run_append] at h
  have hc := tokenStuck_commit 0 _ h pid tid globalClock
  exact ⟨h.2.1, h.2.2.2, hc.1, hc.2.1⟩

/-! ## The lazy begin -/

/-- C33. Lazy begin never backs off. In every state reached from the
constructor's state of a lazy module, begin does not return BACKOFF and leaves
the line table as it is. When the depth of `pid` is 0 it returns SUCCESS with
the tuid `utid`, which no earlier successful begin returned, and moves the
counter on; the record of `pid` gets timestamp `globalClock`, state RUNNING,
the begin PC and that utid, and the depth becomes 1. If the state was ABORTING,
`abortCount[pid]` is incremented and the BCFlag is 1; otherwise the abort count
stays and the BCFlag is 1 or 0 as the abort count is positive or not. -/
theorem lazy_begin_never_backs_off (raw s0 : transCoherence) (conflicts versioning : Int)
    (cacheLineSize : Nat) (hc : conflicts = 0)
    (h0 : construct raw conflicts versioning cacheLineSize = some s0) (ops : List Op)
    (pid : Nat) (picode : icode) (globalClock : Nat) :
    (begin (run s0 ops) pid picode globalClock).1.ret ≠ GCMRet.BACKOFF ∧
    (begin (run s0 ops) pid picode globalClock).2.permCache = (run s0 ops).permCache ∧
    ((run s0 ops).tmDepth pid = 0 →
      (begin (run s0 ops) pid picode globalClock).1.ret = GCMRet.SUCCESS ∧
      (begin (run s0 ops) pid picode globalClock).1.tuid = some (run s0 ops).utid ∧
      (∀ t ∈ beginTuids s0 ops, t ≠ some (run s0 ops).utid) ∧
      (begin (run s0 ops) pid picode globalClock).2.utid = (run s0 ops).utid + 1 ∧
      (begin (run s0 ops) pid picode globalClock).2.transState pid =
        { timestamp := globalClock, cycleFlag := false, state := condition.RUNNING,
          beginPC := picode.addr, utid := (run s0 ops).utid } ∧
      (begin (run s0 ops) pid picode globalClock).2.tmDepth pid = 1 ∧
      (((run s0 ops).transState pid).state = condition.ABORTING →
        (begin (run s0 ops) pid picode globalClock).2.abortCount pid =
          (run s0 ops).abortCount pid + 1 ∧
        (begin (run s0 ops) pid picode globalClock).1.BCFlag = some 1) ∧
      (((run s0 ops).transState pid).state ≠ condition.ABORTING →
        (begin (run s0 ops) pid picode globalClock).2.abortCount pid =
          (run s0 ops).abortCount pid ∧
        (begin (run s0 ops) pid picode globalClock).1.BCFlag =
          some (if (run s0 ops).abortCount pid > 0 then 1 else 0))) := by
  have hm : (run s0 ops).methods = Policy.LL :=
    (lazyInv_run ops s0 (lazyInv_construct raw s0 conflicts versioning cacheLineSize hc h0)).1
  have hab := abortCount_nonneg_run raw s0 conflicts versioning cacheLineSize h0 ops pid
  have hfresh : ∀ t ∈ beginTuids s0 ops, t ≠ some (run s0 ops).utid := by
    obtain ⟨hu, _⟩ := construct_ids raw s0 conflicts versioning cacheLineSize h0
    obtain ⟨r1, r2⟩ := beginTuids_range ops s0
    rw [hu] at r1 r2
    intro t ht
    rw [r1] at ht
    simp only [List.mem_map, List.mem_range'_1] at ht
    obtain ⟨k, hk, rfl⟩ := ht
    rw [r2]
    simp only [ne_eq, Option.some.injEq]
    omega
  generalize run s0 ops = s at hm hab hfresh ⊢
  simp only [begin, hm]
  by_cases hd : s.tmDepth pid > 0
  · unfold beginLL
    simp only [if_pos hd]
    refine ⟨by simp, trivial, fun h => ?_⟩
    omega
  · unfold beginLL
    simp only [if_neg hd]
    by_cases ha : (s.transState pid).state = condition.ABORTING
    · simp only [if_pos ha]
      refine ⟨by simp, rfl, fun h => ⟨trivial, rfl, hfresh, rfl, ?_, ?_, fun _ => ⟨?_, ?_⟩,
        fun hn => absurd ha hn⟩⟩
      · simp [setState]
      · simp [setState, h]
      · simp [setState]
      · have hpos : (setState s pid condition.ABORTED).abortCount pid + 1 > 0 := by
          simp only [setState]; omega
        simp [setState] at hpos ⊢
        omega
    · simp only [if_neg ha]
      refine ⟨by simp, by simp, fun h => ⟨by simp, by simp, hfresh, by simp, ?_, ?_,
        fun hy => absurd hy ha, fun _ => ⟨by simp, by simp⟩⟩⟩
      · simp
      · simp [h]

/-- Witness of C33: process 0 begins on the lazy module, aborts and begins
again. -/
theorem lazy_begin_never_backs_off_witness :
    ((0 : Int) = 0 ∧ construct rawZero 0 0 64 = some lazyInit ∧
      (run lazyInit [Op.begin 0 ⟨0, 0⟩ 10, Op.abort 0 0 20]).tmDepth 0 = 0 ∧
      ((run lazyInit [Op.begin 0 ⟨0, 0⟩ 10, Op.abort 0 0 20]).transState 0).state =
        condition.ABORTING) ∧
    (begin (run lazyInit [Op.begin 0 ⟨0, 0⟩ 10, Op.abort 0 0 20]) 0 ⟨0, 0⟩ 30).1.BCFlag =
      some 1 :=
  ⟨⟨rfl, rfl, by decide, by decide⟩,
    (((lazy_begin_never_backs_off rawZero lazyInit 0 0 64 rfl rfl
      [Op.begin 0 ⟨0, 0⟩ 10, Op.abort 0 0 20] 0 ⟨0, 0⟩ 30).2.2 (by decide)).2.2.2.2.2.2.1
      (by decide)).2⟩

/-! ## The floating-point registers after an abort -/

/-- C34. Floating-point restore on abort: `abortTransaction` (the module's abort
always returns SUCCESS) sets `fp[i]` of the thread, for every `i` below 32, to
the value that `reg[i]` of the context converts to. So for a context that
`beginTransaction` left on SUCCESS, which holds the `reg[i]` and the `fp[i]` the
thread had at the begin, `fp[i]` after the abort is the conversion of the
begin-time `reg[i]`, and it is the begin-time `fp[i]` exactly when that is the
conversion of the begin-time `reg[i]`. -/
theorem fp_restore_from_reg (ctx : transactionContext) (w : World) (picode : icode)
    (globalClock rand : Nat) (outOfRange : Int)
    (hS : (begin w.transGCM w.thread.pid picode globalClock).1.ret = GCMRet.SUCCESS)
    (nack : icodePtr) (memMap : List (Nat × Int)) (w2 : World) (globalClock2 : Nat)
    (draw : Int) :
    (∀ (c : transactionContext) (i : Nat), i < 32 →
      (abortTransaction c w2 globalClock2 draw).1.thread.fp i = fpValue.ofInt (c.reg i)) ∧
    ∃ ctx1, (beginTransaction ctx w picode globalClock rand outOfRange).2 = some ctx1 ∧
      ∀ i, i < 32 →
        ctx1.reg i = w.thread.reg i ∧ ctx1.fp i = w.thread.fp i ∧
        (abortTransaction { ctx1 with nackInstruction := nack, memMap := memMap } w2 globalClock2
          draw).1.thread.fp i = fpValue.ofInt (w.thread.reg i) ∧
        ((abortTransaction { ctx1 with nackInstruction := nack, memMap := memMap } w2 globalClock2
          draw).1.thread.fp i = w.thread.fp i ↔
          w.thread.fp i = fpValue.ofInt (w.thread.reg i)) := by
  have hgen : ∀ (c : transactionContext) (i : Nat), i < 32 →
      (abortTransaction c w2 globalClock2 draw).1.thread.fp i = fpValue.ofInt (c.reg i) := by
    intro c i hi
    unfold abortTransaction
    simp only [abort_ret, if_true, createStall]
    simp [hi]
  refine ⟨hgen, ?_⟩
  unfold beginTransaction
  simp only [hS, if_true]
  refine ⟨_, rfl, fun i hi => ?_⟩
  have h1 := hgen { ({ ctx with
      pid := w.thread.pid, tid := picode.immed, tmBeginCode := picode, lo := w.thread.lo,
      hi := w.thread.hi, fcr0 := w.thread.fcr0, fcr31 := w.thread.fcr31,
      reg := fun i => if i < 32 then w.thread.reg i else if i = 32 then w.thread.reg 32
        else ctx.reg i,
      fp := fun i => if i < 32 then w.thread.fp i else ctx.fp i,
      depth := w.thread.tmDepth,
      parent := if w.thread.tmDepth > 0 then w.thread.transContext else none } :
        transactionContext) with nackInstruction := nack, memMap := memMap } i hi
  simp only [if_pos hi] at h1
  refine ⟨by simp [hi], by simp [hi], h1, ?_⟩
  rw [h1]
  exact eq_comm

/-- Witness of C34: a context begun on `idleThread` (registers 100 + i, every
`fp` register with bit pattern 0) is aborted; `fp[3]` is then the conversion of
the begin-time `reg[3]`. -/
theorem fp_restore_from_reg_witness :
    (begin (idleWorld eagerInit).transGCM (idleWorld eagerInit).thread.pid ⟨4096, 1⟩ 10).1.ret =
      GCMRet.SUCCESS ∧
    ∃ ctx1, (beginTransaction sampleContext (idleWorld eagerInit) ⟨4096, 1⟩ 10 0 0).2 =
        some ctx1 ∧
      (abortTransaction { ctx1 with nackInstruction := icodePtr.null, memMap := [(1024, 7)] }
        (sampleWorld 0) 40 0).1.thread.fp 3 =
        fpValue.ofInt ((idleWorld eagerInit).thread.reg 3) :=
  ⟨by decide,
    Exists.elim
      (fp_restore_from_reg sampleContext (idleWorld eagerInit) ⟨4096, 1⟩ 10 0 0 (by decide)
        icodePtr.null [(1024, 7)] (sampleWorld 0) 40 0).2
      (fun c h => ⟨c, h.1, (h.2 3 (by decide)).2.2.1⟩)⟩

/-! ## The stores of `cacheReadBuffer` -/

theorem forLoop_words (buff : Nat → Int) (buffBegin : Nat) (n : Nat) :
    forLoop (fun i =>
      [(buffBegin + 4 * i, buff (4 * i)),
       (buffBegin + 4 * i + 1, buff (4 * i + 1)),
       (buffBegin + 4 * i + 2, buff (4 * i + 2)),
       (buffBegin + 4 * i + 3, buff (4 * i + 3))]) n =
      (List.range (4 * n)).map (fun k => (buffBegin + k, buff k)) := by
  induction n with
  | zero => rfl
  | succ n ih =>
    have h4 : 4 * (n + 1) = 4 * n + 1 + 1 + 1 + 1 := by ring
    rw [forLoop, ih, h4]
    simp only [List.range_succ, List.map_append, List.map_cons, List.map_nil, List.append_assoc,
      List.singleton_append, Nat.add_assoc]
    rfl

theorem forLoop_bytes (buff : Nat → Int) (buffBegin c n : Nat) :
    forLoop (fun i => [(buffBegin + c + i, buff (c + i))]) n =
      (List.range n).map (fun i => (buffBegin + (c + i), buff (c + i))) := by
  induction n with
  | zero => rfl
  | succ n ih =>
    rw [forLoop, ih]
    simp only [List.range_succ, List.map_append, List.map_cons, List.map_nil, Nat.add_assoc]

theorem buffer_split (count : Int) (h : 0 ≤ count) :
    bufferBytes count = count % 4 ∧ bufferWords count = count / 4 ∧
    4 * (bufferWords count).toNat + (bufferBytes count).toNat = count.toNat := by
  have hb : bufferBytes count = count % 4 := Int.tmod_eq_emod h (by decide)
  have hw : bufferWords count = count / 4 := by
    unfold bufferWords
    rw [hb]
    have h1 : 0 ≤ count - count % 4 := by omega
    rw [Int.tdiv_eq_ediv h1 (by decide)]
    omega
  refine ⟨hb, hw, ?_⟩
  rw [hb, hw]
  omega

/-- C35. Buffer decomposition covers every byte once: for `count ≥ 0`,
`cacheReadBuffer` computes `words = count / 4` and `bytes = count % 4`, with
`4 * words + bytes = count`, and the byte stores it issues are, in this order,
`(buffBegin + k, buff[k])` for `k = 0, 1, ..., count - 1`. So it issues `count`
stores and then ends, no address is stored twice, and every store lies at an
offset below `count`. -/
theorem cacheReadBuffer_stores (buff : Nat → Int) (buffBegin : Nat) (count : Int)
    (h : 0 ≤ count) :
    bufferWords count = count / 4 ∧ bufferBytes count = count % 4 ∧
    4 * bufferWords count + bufferBytes count = count ∧
    cacheReadBuffer buff buffBegin count =
      (List.range count.toNat).map (fun k => (buffBegin + k, buff k)) ∧
    (cacheReadBuffer buff buffBegin count).length = count.toNat ∧
    ((cacheReadBuffer buff buffBegin count).map (fun e => e.1)).Nodup ∧
    ∀ e ∈ cacheReadBuffer buff buffBegin count,
      ∃ k : Nat, (k : Int) < count ∧ e = (buffBegin + k, buff k) := by
  obtain ⟨hb, hw, hsum⟩ := buffer_split count h
  have hlist : cacheReadBuffer buff buffBegin count =
      (List.range count.toNat).map (fun k => (buffBegin + k, buff k)) := by
    unfold cacheReadBuffer
    simp only
    rw [forLoop_words]
    have h2 := forLoop_bytes buff buffBegin (4 * (bufferWords count).toNat)
      (bufferBytes count).toNat
    simp only [← Nat.add_assoc] at h2
    rw [h2, ← hsum, List.range_add, List.map_append, List.map_map]
    simp only [Nat.add_assoc]
    rfl
  refine ⟨hw, hb, by rw [hw, hb]; omega, hlist, ?_, ?_, ?_⟩
  · rw [hlist]; simp
  · rw [hlist, List.map_map]
    have hinj : Function.Injective ((fun e : Nat × Int => e.1) ∘ fun k => (buffBegin + k, buff k)) :=
      fun a b hab => by simpa using hab
    exact (List.nodup_range _).map hinj
  · intro e he
    rw [hlist] at he
    simp only [List.mem_map, List.mem_range] at he
    obtain ⟨k, hk, rfl⟩ := he
    exact ⟨k, by omega, rfl⟩

/-- Witness of C35: a buffer of 6 bytes at address 1000, one word and two
bytes. -/
theorem cacheReadBuffer_stores_witness :
    (0 : Int) ≤ 6 ∧
    cacheReadBuffer (fun k => 10 * (k : Int)) 1000 6 =
      [(1000, 0), (1001, 10), (1002, 20), (1003, 30), (1004, 40), (1005, 50)] :=
  ⟨by decide,
    (cacheReadBuffer_stores (fun k => 10 * (k : Int)) 1000 6 (by decide)).2.2.2.1.trans
      (by decide)⟩

/-! ## The commit slot and its holder -/

end SuperTransHack
